import Mathlib

/-!
# efs-provisioner: directory-based volume lifecycle

A shallow embedding of `cmd/efs-provisioner.go`, `internal/volumemetadata.go` and
`internal/filesystemreclaimer.go`, together with models of the Go standard-library
functions they call (`path.Clean`, `path.Join`, `strings.HasPrefix`, `strings.Replace`,
`strconv.ParseBool`, ...).

A Go string is a sequence of bytes. It is modelled as a list (`GoString`) in which the byte
`b` is the character with code `b` (U+0000 to U+00FF), so that a Lean string literal of ASCII
text denotes the Go string with the same text. Text outside ASCII is the list of the bytes of
its UTF-8 encoding (`utf8Encode`).
-/

namespace EfsProvisioner

/-- A Go `string`: the sequence of its bytes, the byte `b` being the character with code
`b`. -/
abbrev GoString := List Char

deriving instance DecidableEq for Except

/-! ## Standard library: `strconv.ParseBool`, `strings`, `path` -/

/-- Go `strconv.ParseBool`: accepts 1, t, T, TRUE, true, True, 0, f, F, FALSE, false, False;
any other value is an error (`none`). -/
def ParseBool (str : GoString) : Option Bool :=
  if str = "1".toList ∨ str = "t".toList ∨ str = "T".toList ∨ str = "true".toList
      ∨ str = "TRUE".toList ∨ str = "True".toList then some true
  else if str = "0".toList ∨ str = "f".toList ∨ str = "F".toList ∨ str = "false".toList
      ∨ str = "FALSE".toList ∨ str = "False".toList then some false
  else none

/-- Go `strings.HasPrefix(s, pre)`. -/
def HasPrefix (s pre : GoString) : Bool := pre.isPrefixOf s

/-- Go `strings.Replace(s, old, new, 1)`: the first occurrence of `old` in `s` is replaced
by `new`; `s` is returned unchanged when `old` does not occur. -/
def ReplaceFirst : GoString → GoString → GoString → GoString
  | [], old, new => if old = [] then new else []
  | c :: cs, old, new =>
    if old.isPrefixOf (c :: cs) then new ++ (c :: cs).drop old.length
    else c :: ReplaceFirst cs old new

/-- Inner loop of the `..` case of `path.Clean`:
`for out.w > dotdot && out.index(out.w) != '/' { out.w-- }`, started at write index `w`. -/
def cleanBacktrack (buf : GoString) (dotdot : Nat) : Nat → Nat
  | 0 => 0
  | w + 1 =>
    if dotdot < w + 1 ∧ buf.getD (w + 1) '/' ≠ '/' then cleanBacktrack buf dotdot w else w + 1

/-- Main loop `for r < n` of Go `path.Clean`. `rem` is the unread input `path[r:]`, `out` the
bytes written so far (`out.w = out.length`), `dotdot` the index where `..` must stop. Every
iteration reads at least one byte, so `fuel = len(path)` iterations are enough. -/
def cleanLoop (rooted : Bool) : Nat → GoString → GoString → Nat → GoString
  | 0, _, out, _ => out
  | fuel + 1, rem, out, dotdot =>
    match rem with
    | [] => out
    | c :: rest =>
      if c = '/' then
        -- empty path element
        cleanLoop rooted fuel rest out dotdot
      else if c = '.' ∧ (rest = [] ∨ rest.head? = some '/') then
        -- . element
        cleanLoop rooted fuel rest out dotdot
      else if c = '.' ∧ rest.head? = some '.' ∧
          (rest.tail = [] ∨ rest.tail.head? = some '/') then
        -- .. element: remove to last /
        if dotdot < out.length then
          cleanLoop rooted fuel rest.tail
            (out.take (cleanBacktrack out dotdot (out.length - 1))) dotdot
        else if rooted = false then
          let out1 := if 0 < out.length then out ++ ['/'] else out
          let out2 := out1 ++ ['.', '.']
          cleanLoop rooted fuel rest.tail out2 out2.length
        else
          cleanLoop rooted fuel rest.tail out dotdot
      else
        -- real path element: add slash if needed, copy element
        let out1 :=
          if (rooted = true ∧ out.length ≠ 1) ∨ (rooted = false ∧ out.length ≠ 0)
          then out ++ ['/'] else out
        cleanLoop rooted fuel ((c :: rest).dropWhile (fun x => x != '/'))
          (out1 ++ (c :: rest).takeWhile (fun x => x != '/')) dotdot

/-- Go `path.Clean`. -/
def Clean (path : GoString) : GoString :=
  match path with
  | [] => ['.']
  | c :: rest =>
    let out :=
      if c = '/' then cleanLoop true path.length rest ['/'] 1
      else cleanLoop false path.length path [] 0
    -- Turn empty string into "."
    if out.length = 0 then ['.'] else out

/-- Buffer built by Go `path.Join` before cleaning: the non-empty-so-far elements separated
by `/`. -/
def joinBuf (elem : List GoString) : GoString :=
  elem.foldl
    (fun buf e =>
      if 0 < buf.length ∨ e ≠ [] then (if 0 < buf.length then buf ++ ['/'] else buf) ++ e
      else buf) []

/-- Go `path.Join`. -/
def Join (elem : List GoString) : GoString :=
  if (elem.map List.length).sum = 0 then [] else Clean (joinBuf elem)

/-! ## Requests and the provisioner -/

/-- The fields of `v1.PersistentVolumeClaim` the provisioner reads. `BetaClassAnnotation` is
the value of the `volume.beta.kubernetes.io/storage-class` annotation, when present. -/
structure PersistentVolumeClaim where
  Name : GoString
  Namespace : GoString
  BetaClassAnnotation : Option GoString
  StorageClassName : Option GoString
  HasSelector : Bool
  AccessModes : List GoString
  StorageRequest : GoString
deriving DecidableEq, Repr

/-- The fields of `storage.v1.StorageClass` the provisioner reads. `Parameters` is the Go map,
listed in the order in which `range` visits it. -/
structure StorageClass where
  Parameters : List (GoString × GoString)
  MountOptions : Option (List GoString)
  ReclaimPolicy : Option GoString
deriving DecidableEq, Repr

/-- The `controller.ProvisionOptions` value handed to `Provision`. -/
structure ProvisionOptions where
  StorageClass : StorageClass
  PVName : GoString
  PVC : PersistentVolumeClaim
deriving DecidableEq, Repr

/-- The configuration fields of `efsProvisioner`. -/
structure efsProvisioner where
  dnsName : GoString
  mountpoint : GoString
  source : GoString
deriving DecidableEq, Repr

/-- The fields of `v1.NFSVolumeSource` read by `getLocalPathToDelete`. -/
structure NFSVolumeSource where
  Server : GoString
  Path : GoString
deriving DecidableEq, Repr

/-- Errors returned by the provisioner, one constructor per error site. -/
inductive Err where
  | selectorNotSupported
  | invalidReuseVolumes (value : GoString)
  | invalidGidAllocate (key value : GoString)
  | existsButIsFile (path : GoString)
  | statFailed (path : GoString)
  | readMetadataFailed (path : GoString)
  | noVolumeMetadata (path : GoString)
  | wrongStorageClass (path recorded requested : GoString)
  | wrongClaim (path : GoString)
  | invalidMetadataGid (path gid : GoString)
  | gidMismatch (path : GoString) (existing recorded : Nat)
  | invalidGidValue (gid : GoString)
  | gidDiffersFromMetadata (path : GoString)
  | allocateFailed
  | mkdirFailed (path : GoString)
  | chmodFailed (path : GoString)
  | chgrpFailed (path : GoString)
  | marshalFailed
  | writeFailed (path : GoString)
  | openFailed (path : GoString)
  | decodeFailed (path : GoString)
  | readDirFailed (path : GoString)
  | releaseFailed
  | removeFailed (path : GoString)
  | serverMismatch (server : GoString)
  | notAChild (path : GoString)
deriving DecidableEq, Repr

/-- The class parameter `reuseVolumes`. -/
def reuseVolumesKey : GoString := "reuseVolumes".toList

/-- The class parameter `volumePrefix`. -/
def volumePrefixKey : GoString := "volumePrefix".toList

/-- Go map index `m[key]`, with the presence flag: `some v` when the key is present. -/
def mapGet (m : List (GoString × GoString)) (key : GoString) : Option GoString :=
  m.lookup key

/-- `reuseVolumesOption`: the boolean value of the `reuseVolumes` class parameter. -/
def reuseVolumesOption (options : ProvisionOptions) : Except Err Bool :=
  match mapGet options.StorageClass.Parameters reuseVolumesKey with
  | some reuseStr =>
    match ParseBool reuseStr with
    | none => .error (.invalidReuseVolumes reuseStr)
    | some reuse => .ok reuse
  | none => .ok false

/-- `getDirectoryName`: the name of the directory to create for the claim. -/
def getDirectoryName (options : ProvisionOptions) : Except Err GoString :=
  match reuseVolumesOption options with
  | .error err => .error err
  | .ok reuseVolumes =>
    if reuseVolumes then
      let pfx := (mapGet options.StorageClass.Parameters volumePrefixKey).getD []
      let pfx := if pfx ≠ [] then pfx ++ ['-'] else pfx
      .ok (pfx ++ options.PVC.Name ++ ['-'] ++ options.PVC.Namespace)
    else
      .ok (options.PVC.Name ++ ['-'] ++ options.PVName)

/-- `getLocalPath`. -/
def getLocalPath (p : efsProvisioner) (options : ProvisionOptions) : Except Err GoString :=
  match getDirectoryName options with
  | .error err => .error err
  | .ok dirname => .ok (Join [p.mountpoint, dirname])

/-- The remote share root `path.Clean(strings.Replace(p.source, p.dnsName+":", "", 1))`. -/
def sourcePath (p : efsProvisioner) : GoString :=
  Clean (ReplaceFirst p.source (p.dnsName ++ [':']) [])

/-- `getRemotePath`. -/
def getRemotePath (p : efsProvisioner) (options : ProvisionOptions) : Except Err GoString :=
  match getDirectoryName options with
  | .error err => .error err
  | .ok dirname => .ok (Join [sourcePath p, dirname])

/-- `getLocalPathToDelete`. -/
def getLocalPathToDelete (p : efsProvisioner) (nfs : NFSVolumeSource) : Except Err GoString :=
  if nfs.Server ≠ p.dnsName then .error (.serverMismatch nfs.Server)
  else if ¬ HasPrefix nfs.Path (sourcePath p) then .error (.notAChild nfs.Path)
  else
    let subpath := ReplaceFirst nfs.Path (sourcePath p) []
    .ok (Join [p.mountpoint, subpath])

/-! ## A component-wise description of `path.Clean`, used in the proofs -/

/-- The elements of a path: the runs of bytes between slashes. -/
def splitSlash : GoString → List GoString
  | [] => [[]]
  | c :: cs =>
    if c = '/' then [] :: splitSlash cs
    else
      match splitSlash cs with
      | [] => [[c]]
      | h :: t => (c :: h) :: t

/-- Elements joined with single slashes. -/
def joinSlash : List GoString → GoString
  | [] => []
  | [a] => a
  | a :: b :: t => a ++ '/' :: joinSlash (b :: t)

/-- What `path.Clean` has kept so far: `dd` leading `..` elements (unrooted paths only),
followed by the ordinary elements `norm`. -/
structure CleanState where
  dd : Nat
  norm : List GoString
deriving DecidableEq, Repr

/-- The kept elements of a state, in order. -/
def CleanState.elems (st : CleanState) : List GoString :=
  List.replicate st.dd ['.', '.'] ++ st.norm

/-- The output buffer that corresponds to a state. -/
def render (rooted : Bool) (st : CleanState) : GoString :=
  (if rooted then ['/'] else []) ++ joinSlash st.elems

/-- The effect of one path element on the kept elements. -/
def cleanStep (rooted : Bool) (st : CleanState) (e : GoString) : CleanState :=
  if e = [] ∨ e = ['.'] then st
  else if e = ['.', '.'] then
    if st.norm ≠ [] then { st with norm := st.norm.dropLast }
    else if rooted then st
    else { dd := st.dd + 1, norm := [] }
  else { st with norm := st.norm ++ [e] }

/-- The effect of all elements of `s`. -/
def cleanSem (rooted : Bool) (s : GoString) (st : CleanState) : CleanState :=
  (splitSlash s).foldl (cleanStep rooted) st

/-- Whether a path starts with a slash. -/
def isRooted (path : GoString) : Bool := path.head? = some '/'

/-- Component-wise description of `path.Clean`. -/
def cleanSpec (path : GoString) : GoString :=
  let out := render (isRooted path) (cleanSem (isRooted path) path ⟨0, []⟩)
  if out = [] then ['.'] else out

/-- An ordinary path element: not empty, not `.`, not `..`, and without a slash. -/
def IsElem (e : GoString) : Prop :=
  e ≠ [] ∧ e ≠ ['.'] ∧ e ≠ ['.', '.'] ∧ '/' ∉ e

/-- The states `path.Clean` can reach: a rooted path keeps no `..`, and the kept ordinary
elements are ordinary. -/
def CleanState.Valid (rooted : Bool) (st : CleanState) : Prop :=
  (rooted = true → st.dd = 0) ∧ ∀ e ∈ st.norm, IsElem e

/-- The value of `dotdot` that corresponds to a state. -/
def dotdotIndex (rooted : Bool) (st : CleanState) : Nat :=
  (render rooted ⟨st.dd, []⟩).length

/-- The elements of a path that `path.Clean` keeps when the path has no `..` element. -/
def keptElems (d : GoString) : List GoString :=
  (splitSlash d).filter (fun e => decide (e ≠ [] ∧ e ≠ ['.']))

/-! ## Standard library: `strconv` integers, `strings.ToLower` -/

/-- Whether a byte is one of `'0'` ... `'9'`. -/
def isDigit (c : Char) : Bool := decide (48 ≤ c.toNat ∧ c.toNat ≤ 57)

/-- Digit loop of Go `strconv.ParseUint(s, 10, bitSize)` with `maxVal = 1<<bitSize - 1`; `none` is
a syntax or range error. `n` is the `uint64` accumulator. -/
def parseUintLoop (maxVal : Nat) : GoString → Nat → Option Nat
  | [], n => some n
  | c :: cs, n =>
    if isDigit c then
      -- cutoff = maxUint64/10 + 1: n*base overflows
      if n ≥ (2 ^ 64 - 1) / 10 + 1 then none
      else
        let n1 := (n * 10 + (c.toNat - 48)) % 2 ^ 64
        if n1 < n * 10 ∨ n1 > maxVal then none else parseUintLoop maxVal cs n1
    else none

/-- Go `strconv.ParseUint(s, 10, bitSize)`; `none` stands for an error. -/
def ParseUint (s : GoString) (bitSize : Nat) : Option Nat :=
  if s = [] then none else parseUintLoop (2 ^ bitSize - 1) s 0

/-- Digit loop of the fast path of Go `strconv.Atoi`. -/
def atoiFastLoop : GoString → Int → Option Int
  | [], n => some n
  | ch :: cs, n => if isDigit ch then atoiFastLoop cs (n * 10 + ((ch.toNat : Int) - 48)) else none

/-- Go `strconv.ParseInt(s, 10, 0)` on a 64-bit platform; `none` stands for an error. -/
def ParseInt (s : GoString) : Option Int :=
  match s with
  | [] => none
  | c :: cs =>
    let neg := decide (c = '-')
    let digits := if c = '+' ∨ c = '-' then cs else s
    match ParseUint digits 64 with
    | none => none
    | some un =>
      if neg = false ∧ un ≥ 2 ^ 63 then none
      else if neg = true ∧ un > 2 ^ 63 then none
      else some (if neg then -(un : Int) else (un : Int))

/-- Go `strconv.Atoi` on a 64-bit platform; `none` stands for an error. -/
def Atoi (s : GoString) : Option Int :=
  if 0 < s.length ∧ s.length < 19 then
    -- fast path for small integers that fit int type
    match s with
    | [] => none
    | c :: cs =>
      let digits := if c = '-' ∨ c = '+' then cs else s
      if digits.length < 1 then none
      else
        match atoiFastLoop digits 0 with
        | none => none
        | some n => some (if c = '-' then -n else n)
  else ParseInt s

/-- The decimal digits of `n`, most significant first, in front of `acc`; `fuel` bounds the
number of digits. -/
def formatDigits : Nat → Nat → GoString → GoString
  | 0, _, acc => acc
  | fuel + 1, n, acc =>
    if n / 10 = 0 then Char.ofNat (48 + n % 10) :: acc
    else formatDigits fuel (n / 10) (Char.ofNat (48 + n % 10) :: acc)

/-- Decimal representation of a natural number. -/
def formatNat (n : Nat) : GoString := formatDigits (n + 1) n []

/-- Go `strconv.Itoa` (and `strconv.FormatInt(int64(i), 10)`). -/
def Itoa (i : Int) : GoString :=
  if i < 0 then '-' :: formatNat i.natAbs else formatNat i.toNat

/-- The number a string of decimal digits denotes, continuing from `n`. -/
def digitsValue : GoString → Nat → Nat
  | [], n => n
  | c :: cs, n => digitsValue cs (n * 10 + (c.toNat - 48))

/-- Go `strings.ToLower` as far as the result can be a string of ASCII letters: the letters
`A`-`Z` and the runes U+0130 (bytes C4 B0) and U+212A (bytes E2 84 AA) are mapped to ASCII
lower-case letters. Every other rune, and every invalid byte, is mapped to bytes outside
ASCII or to itself, which is all a comparison with an ASCII constant can see, and is kept as
it is. -/
def toLowerLoop : Nat → GoString → GoString
  | 0, _ => []
  | fuel + 1, s =>
    match s with
    | [] => []
    | b :: rest =>
      if 65 ≤ b.toNat ∧ b.toNat ≤ 90 then Char.ofNat (b.toNat + 32) :: toLowerLoop fuel rest
      else if HasPrefix s [Char.ofNat 0xC4, Char.ofNat 0xB0] then 'i' :: toLowerLoop fuel (s.drop 2)
      else if HasPrefix s [Char.ofNat 0xE2, Char.ofNat 0x84, Char.ofNat 0xAA] then
        'k' :: toLowerLoop fuel (s.drop 3)
      else b :: toLowerLoop fuel rest

/-- Go `strings.ToLower` (see `toLowerLoop`); every step reads at least one byte. -/
def ToLower (s : GoString) : GoString := toLowerLoop s.length s

/-! ## `internal/volumemetadata.go`: the metadata record and its JSON form -/

/-- `VolumeMetadata`. -/
structure VolumeMetadata where
  GID : GoString
  PVCName : GoString
  PVCNamespace : GoString
  StorageClassName : GoString
deriving DecidableEq, Repr

/-- `VolumeMetadata.GidAsUInt`: `strconv.ParseUint(v.GID, 10, 32)`; `none` stands for the
error. -/
def VolumeMetadata.GidAsUInt (v : VolumeMetadata) : Option Nat := ParseUint v.GID 32

/-- The constant `metadataFile`. -/
def metadataFile : GoString := ".kube-efs-provisioner-metadata".toList

/-- `getMetaDataPath`. -/
def getMetaDataPath (dir : GoString) : GoString := Join [dir, metadataFile]

/-- Lower-case hexadecimal digit, as in `encoding/json`. -/
def hexDigit (n : Nat) : Char := "0123456789abcdef".toList.getD n '0'

/-- Go `utf8.EncodeRune`: the bytes of the UTF-8 encoding of a rune. -/
def utf8Encode (c : Char) : GoString :=
  if c.toNat < 0x80 then [c]
  else if c.toNat < 0x800 then
    [Char.ofNat (0xC0 + c.toNat / 64), Char.ofNat (0x80 + c.toNat % 64)]
  else if c.toNat < 0x10000 then
    [Char.ofNat (0xE0 + c.toNat / 4096), Char.ofNat (0x80 + c.toNat / 64 % 64),
      Char.ofNat (0x80 + c.toNat % 64)]
  else
    [Char.ofNat (0xF0 + c.toNat / 262144), Char.ofNat (0x80 + c.toNat / 4096 % 64),
      Char.ofNat (0x80 + c.toNat / 64 % 64), Char.ofNat (0x80 + c.toNat % 64)]

/-- The Go string of a text: the UTF-8 encodings of its runes. -/
def utf8 (runes : List Char) : GoString := (runes.map utf8Encode).flatten

/-- Go `utf8.DecodeRuneInString`: the rune at the start of `s` and its width in bytes; `none`
stands for `RuneError` (an invalid or incomplete encoding, of width 1, or width 0 for the
empty string). The cases are those of the tables `first` and `acceptRanges`: the first byte
gives the size, and the range accepted for the second byte. -/
def decodeRune (s : GoString) : Option Nat × Nat :=
  match s with
  | [] => (none, 0)
  | s0 :: t =>
    if s0.toNat < 0x80 then (some s0.toNat, 1)
    else if s0.toNat < 0xC2 then (none, 1)
    else if s0.toNat < 0xE0 then
      match t with
      | s1 :: _ =>
        if s1.toNat < 0x80 ∨ 0xBF < s1.toNat then (none, 1)
        else (some (s0.toNat % 32 * 64 + s1.toNat % 64), 2)
      | [] => (none, 1)
    else if s0.toNat < 0xF0 then
      match t with
      | s1 :: s2 :: _ =>
        if s1.toNat < (if s0.toNat = 0xE0 then 0xA0 else 0x80) ∨
            (if s0.toNat = 0xED then 0x9F else 0xBF) < s1.toNat then (none, 1)
        else if s2.toNat < 0x80 ∨ 0xBF < s2.toNat then (none, 1)
        else (some ((s0.toNat % 16 * 64 + s1.toNat % 64) * 64 + s2.toNat % 64), 3)
      | _ => (none, 1)
    else if s0.toNat ≤ 0xF4 then
      match t with
      | s1 :: s2 :: s3 :: _ =>
        if s1.toNat < (if s0.toNat = 0xF0 then 0x90 else 0x80) ∨
            (if s0.toNat = 0xF4 then 0x8F else 0xBF) < s1.toNat then (none, 1)
        else if s2.toNat < 0x80 ∨ 0xBF < s2.toNat then (none, 1)
        else if s3.toNat < 0x80 ∨ 0xBF < s3.toNat then (none, 1)
        else
          (some (((s0.toNat % 8 * 64 + s1.toNat % 64) * 64 + s2.toNat % 64) * 64
            + s3.toNat % 64), 4)
      | _ => (none, 1)
    else (none, 1)

/-- How Go `encoding/json` (with HTML escaping, the default of `Marshal`) writes one ASCII
byte of a string. -/
def jsonEscape (c : Char) : GoString :=
  if c = '\\' ∨ c = '"' then ['\\', c]
  else if c = '\n' then ['\\', 'n']
  else if c = '\r' then ['\\', 'r']
  else if c = '\t' then ['\\', 't']
  else if c.toNat < 0x20 ∨ c = '<' ∨ c = '>' ∨ c = '&' then
    ['\\', 'u', '0', '0', hexDigit (c.toNat / 16), hexDigit (c.toNat % 16)]
  else [c]

/-- The loop of Go `encoding/json` that writes the bytes of a string between the quotes:
ASCII bytes are escaped by `jsonEscape`, an invalid byte is written as `\ufffd`, the runes
U+2028 and U+2029 as `\u2028` and `\u2029`, and every other rune is copied. Every step reads
at least one byte, so `fuel = len(s)` is enough. -/
def encodeStringBody : Nat → GoString → GoString
  | 0, _ => []
  | fuel + 1, s =>
    match s with
    | [] => []
    | b :: rest =>
      if b.toNat < 0x80 then jsonEscape b ++ encodeStringBody fuel rest
      else
        match decodeRune s with
        | (none, _) => ['\\', 'u', 'f', 'f', 'f', 'd'] ++ encodeStringBody fuel rest
        | (some r, size) =>
          if r = 0x2028 ∨ r = 0x2029 then
            ['\\', 'u', '2', '0', '2', hexDigit (r % 16)] ++ encodeStringBody fuel (s.drop size)
          else s.take size ++ encodeStringBody fuel (s.drop size)

/-- A JSON string literal for `s`. -/
def jsonQuote (s : GoString) : GoString := '"' :: encodeStringBody s.length s ++ ['"']

/-- Go `json.MarshalIndent(md, "", "  ")` for a `VolumeMetadata`. -/
def MarshalIndent (md : VolumeMetadata) : GoString :=
  ['{', '\n'] ++ "  \"gid\": ".toList ++ jsonQuote md.GID ++ [',', '\n'] ++
    "  \"pvcName\": ".toList ++ jsonQuote md.PVCName ++ [',', '\n'] ++
    "  \"pvcNamespace\": ".toList ++ jsonQuote md.PVCNamespace ++ [',', '\n'] ++
    "  \"storageClassName\": ".toList ++ jsonQuote md.StorageClassName ++ ['\n', '}']

/-- A parsed JSON value. -/
inductive JValue where
  | null
  | bool (b : Bool)
  | number (text : GoString)
  | string (s : GoString)
  | array (items : List JValue)
  | object (members : List (GoString × JValue))

/-- JSON white space. -/
def isSpace (c : Char) : Bool := decide (c = ' ' ∨ c = '\t' ∨ c = '\r' ∨ c = '\n')

/-- Skip JSON white space. -/
def skipWs : GoString → GoString
  | [] => []
  | c :: cs => if isSpace c then skipWs cs else c :: cs

/-- Value of a hexadecimal digit. -/
def hexVal (c : Char) : Option Nat :=
  if 48 ≤ c.toNat ∧ c.toNat ≤ 57 then some (c.toNat - 48)
  else if 97 ≤ c.toNat ∧ c.toNat ≤ 102 then some (c.toNat - 87)
  else if 65 ≤ c.toNat ∧ c.toNat ≤ 70 then some (c.toNat - 55)
  else none

/-- Go `getu4`: the value of four hexadecimal digits. -/
def hex4 (a b c d : Char) : Option Nat :=
  match hexVal a, hexVal b, hexVal c, hexVal d with
  | some x, some y, some z, some w => some (((x * 16 + y) * 16 + z) * 16 + w)
  | _, _, _, _ => none

/-- Go `utf8.EncodeRune` for a code point given as a number (never a surrogate here). -/
def encodeRune (r : Nat) : GoString := utf8Encode (Char.ofNat r)

/-- The body of a JSON string literal, after the opening quote: the decoded string and the
input after the closing quote. Escapes `\u` of surrogates are combined in pairs; a surrogate
without its partner, and an invalid byte, become U+FFFD. Every step reads at least one byte,
so `fuel = len(input)` is enough. -/
def parseStringBody : Nat → GoString → GoString → Option (GoString × GoString)
  | 0, _, _ => none
  | fuel + 1, s, acc =>
    match s with
    | [] => none
    | c :: rest =>
      if c = '"' then some (acc, rest)
      else if c = '\\' then
        match rest with
        | [] => none
        | e :: rest1 =>
          if e = 'u' then
            match rest1 with
            | a :: b :: c :: d :: rest2 =>
              match hex4 a b c d with
              | none => none
              | some rr =>
                if 0xD800 ≤ rr ∧ rr < 0xE000 then
                  match rest2 with
                  | '\\' :: 'u' :: a1 :: b1 :: c1 :: d1 :: rest3 =>
                    match hex4 a1 b1 c1 d1 with
                    | none => none
                    | some rr1 =>
                      if rr < 0xDC00 ∧ 0xDC00 ≤ rr1 ∧ rr1 < 0xE000 then
                        parseStringBody fuel rest3
                          (acc ++ encodeRune ((rr - 0xD800) * 0x400 + (rr1 - 0xDC00) + 0x10000))
                      else parseStringBody fuel rest2 (acc ++ encodeRune 0xFFFD)
                  | _ => parseStringBody fuel rest2 (acc ++ encodeRune 0xFFFD)
                else parseStringBody fuel rest2 (acc ++ encodeRune rr)
            | _ => none
          else if e = '"' ∨ e = '\\' ∨ e = '/' then parseStringBody fuel rest1 (acc ++ [e])
          else if e = 'b' then parseStringBody fuel rest1 (acc ++ [Char.ofNat 8])
          else if e = 'f' then parseStringBody fuel rest1 (acc ++ [Char.ofNat 12])
          else if e = 'n' then parseStringBody fuel rest1 (acc ++ ['\n'])
          else if e = 'r' then parseStringBody fuel rest1 (acc ++ ['\r'])
          else if e = 't' then parseStringBody fuel rest1 (acc ++ ['\t'])
          else none
      else if c.toNat < 0x20 then none
      else if c.toNat < 0x80 then parseStringBody fuel rest (acc ++ [c])
      else
        match decodeRune s with
        | (none, _) => parseStringBody fuel rest (acc ++ encodeRune 0xFFFD)
        | (some r, size) => parseStringBody fuel (s.drop size) (acc ++ encodeRune r)

/-- A JSON number literal at the start of the input: its text and the input after it. -/
def parseNumber (s : GoString) : Option (GoString × GoString) :=
  let sign := s.takeWhile (fun c => c = '-') |>.take 1
  let s1 := s.drop sign.length
  let int := s1.takeWhile isDigit
  let s2 := s1.drop int.length
  if int = [] ∨ (int.head? = some '0' ∧ int.length ≠ 1) then none
  else
    let frac := if s2.head? = some '.' then '.' :: (s2.drop 1).takeWhile isDigit else []
    let s3 := s2.drop frac.length
    if frac = ['.'] then none
    else
      let e := if s3.head? = some 'e' ∨ s3.head? = some 'E' then s3.take 1 else []
      let s4 := s3.drop e.length
      let esign := if e ≠ [] ∧ (s4.head? = some '+' ∨ s4.head? = some '-') then s4.take 1 else []
      let s5 := s4.drop esign.length
      let edigits := if e ≠ [] then s5.takeWhile isDigit else []
      if e ≠ [] ∧ edigits = [] then none
      else some (sign ++ int ++ frac ++ e ++ esign ++ edigits, s5.drop edigits.length)

mutual
/-- A JSON value at the start of the input (no leading white space) and the input after
it. Every call reads at least one byte, so `fuel = len(input) + 1` is enough. -/
def parseValue : Nat → GoString → Option (JValue × GoString)
  | 0, _ => none
  | fuel + 1, s =>
    match s with
    | [] => none
    | c :: rest =>
      if c = '"' then
        match parseStringBody rest.length rest [] with
        | none => none
        | some (str, r) => some (.string str, r)
      else if c = '{' then
        match skipWs rest with
        | [] => none
        | d :: r => if d = '}' then some (.object [], r) else parseMembers fuel (d :: r) []
      else if c = '[' then
        match skipWs rest with
        | [] => none
        | d :: r => if d = ']' then some (.array [], r) else parseItems fuel (d :: r) []
      else if HasPrefix s "true".toList then some (.bool true, s.drop 4)
      else if HasPrefix s "false".toList then some (.bool false, s.drop 5)
      else if HasPrefix s "null".toList then some (.null, s.drop 4)
      else
        match parseNumber s with
        | none => none
        | some (text, r) => some (.number text, r)
/-- The members of a JSON object after the opening brace, up to the closing brace. -/
def parseMembers : Nat → GoString → List (GoString × JValue) → Option (JValue × GoString)
  | 0, _, _ => none
  | fuel + 1, s, acc =>
    match s with
    | [] => none
    | c :: rest =>
      if c = '"' then
        match parseStringBody rest.length rest [] with
        | none => none
        | some (key, r1) =>
          match skipWs r1 with
          | [] => none
          | d :: r2 =>
            if d = ':' then
              match parseValue fuel (skipWs r2) with
              | none => none
              | some (v, r3) =>
                match skipWs r3 with
                | [] => none
                | e :: r4 =>
                  if e = ',' then parseMembers fuel (skipWs r4) (acc ++ [(key, v)])
                  else if e = '}' then some (.object (acc ++ [(key, v)]), r4)
                  else none
            else none
      else none
/-- The items of a JSON array after the opening bracket, up to the closing bracket. -/
def parseItems : Nat → GoString → List JValue → Option (JValue × GoString)
  | 0, _, _ => none
  | fuel + 1, s, acc =>
    match parseValue fuel s with
    | none => none
    | some (v, r1) =>
      match skipWs r1 with
      | [] => none
      | e :: r2 =>
        if e = ',' then parseItems fuel (skipWs r2) (acc ++ [v])
        else if e = ']' then some (.array (acc ++ [v]), r2)
        else none
end

/-- The folded form of a JSON key as far as it can equal the folded form of an ASCII field
name: ASCII letters are folded to lower case, and the runes U+017F (bytes C5 BF) and U+212A
(bytes E2 84 AA) to `s` and `k`; every other rune folds to bytes outside ASCII and is kept as
it is. -/
def foldNameLoop : Nat → GoString → GoString
  | 0, _ => []
  | fuel + 1, s =>
    match s with
    | [] => []
    | b :: rest =>
      if 65 ≤ b.toNat ∧ b.toNat ≤ 90 then Char.ofNat (b.toNat + 32) :: foldNameLoop fuel rest
      else if HasPrefix s [Char.ofNat 0xC5, Char.ofNat 0xBF] then 's' :: foldNameLoop fuel (s.drop 2)
      else if HasPrefix s [Char.ofNat 0xE2, Char.ofNat 0x84, Char.ofNat 0xAA] then
        'k' :: foldNameLoop fuel (s.drop 3)
      else b :: foldNameLoop fuel rest

/-- The folded form of a JSON key (see `foldNameLoop`); every step reads at least one
byte. -/
def foldName (s : GoString) : GoString := foldNameLoop s.length s

/-- The field of `VolumeMetadata` a JSON key names: an exact match of the `json` tag is
preferred, else a case-insensitive one. Fields are numbered 0 (`gid`) to 3. -/
def fieldIndex (key : GoString) : Option Nat :=
  let names := ["gid".toList, "pvcName".toList, "pvcNamespace".toList, "storageClassName".toList]
  match names.indexOf? key with
  | some i => some i
  | none => (names.map foldName).indexOf? (foldName key)

/-- Store a string in field `i`. -/
def VolumeMetadata.setField (md : VolumeMetadata) (i : Nat) (s : GoString) : VolumeMetadata :=
  match i with
  | 0 => { md with GID := s }
  | 1 => { md with PVCName := s }
  | 2 => { md with PVCNamespace := s }
  | _ => { md with StorageClassName := s }

/-- Go `json.Unmarshal` of the members of an object into a `VolumeMetadata`: the record and
whether a type error was met (a value other than a string or `null` for a known field). -/
def unmarshalMembers :
    List (GoString × JValue) → VolumeMetadata → Bool → VolumeMetadata × Bool
  | [], md, bad => (md, bad)
  | (key, v) :: ms, md, bad =>
    match fieldIndex key with
    | none => unmarshalMembers ms md bad
    | some i =>
      match v with
      | .string s => unmarshalMembers ms (md.setField i s) bad
      | .null => unmarshalMembers ms md bad
      | _ => unmarshalMembers ms md true

/-- Go `json.NewDecoder(r).Decode(md)` into an empty `VolumeMetadata`, for a reader with the
contents `data`: the first JSON value of the stream is decoded; `none` stands for an error
(end of input, a syntax error, or a value of the wrong type). -/
def Decode (data : GoString) : Option VolumeMetadata :=
  match parseValue (data.length + 1) (skipWs data) with
  | none => none
  | some (.object ms, _) =>
    match unmarshalMembers ms ⟨[], [], [], []⟩ false with
    | (md, false) => some md
    | (_, true) => none
  | some (.array _, _) => none
  | some (.null, r) =>
    -- a literal at top level must be followed by white space or the end of the input
    if r = [] ∨ r.head?.map isSpace = some true then some ⟨[], [], [], []⟩ else none
  | some (_, _) => none

/-- What `encoding/json` makes of a Go string on the way through `Marshal` and the decoder:
every rune is kept, and every byte that is not part of a valid encoding is replaced by
U+FFFD. Every step reads at least one byte, so `fuel = len(s)` is enough. -/
def coerceLoop : Nat → GoString → GoString
  | 0, _ => []
  | fuel + 1, s =>
    match s with
    | [] => []
    | _ :: rest =>
      match decodeRune s with
      | (none, _) => encodeRune 0xFFFD ++ coerceLoop fuel rest
      | (some r, size) => encodeRune r ++ coerceLoop fuel (s.drop size)

/-- The string `s` with every invalid byte replaced by U+FFFD. -/
def coerceUTF8 (s : GoString) : GoString := coerceLoop s.length s

/-- The record with every invalid byte of its fields replaced by U+FFFD. -/
def VolumeMetadata.coerced (md : VolumeMetadata) : VolumeMetadata :=
  { GID := coerceUTF8 md.GID, PVCName := coerceUTF8 md.PVCName,
    PVCNamespace := coerceUTF8 md.PVCNamespace,
    StorageClassName := coerceUTF8 md.StorageClassName }

/-- Valid UTF-8: the Go string is the encoding of a sequence of runes. -/
def ValidUTF8 (s : GoString) : Prop := ∃ runes : List Char, s = utf8 runes

/-- A record all of whose fields are valid UTF-8. -/
def VolumeMetadata.Valid (md : VolumeMetadata) : Prop :=
  ValidUTF8 md.GID ∧ ValidUTF8 md.PVCName ∧ ValidUTF8 md.PVCNamespace ∧
    ValidUTF8 md.StorageClassName

/-! ## The environment: file system and GID table -/

/-- What the file system holds at a path. `faulty` marks a path at which every operation
fails with an I/O error. -/
inductive Node where
  | file (data : GoString)
  | dir (gid : Nat) (mode : Nat)
  | faulty
deriving DecidableEq, Repr

/-- The file system: the nodes by cleaned path, the group of the provisioner process and its
umask. Intermediate directories are not tracked: a node is found by its full path. -/
structure FileSystem where
  nodes : List (GoString × Node)
  egid : Nat
  umask : Nat
deriving DecidableEq, Repr

/-- The node at a path. -/
def FileSystem.get (fs : FileSystem) (path : GoString) : Option Node :=
  fs.nodes.lookup (Clean path)

/-- Put a node at a path. -/
def FileSystem.set (fs : FileSystem) (path : GoString) (n : Node) : FileSystem :=
  { fs with nodes := (Clean path, n) :: fs.nodes.filter (fun kv => kv.1 ≠ Clean path) }

/-- Whether `key` is `path` or lies beneath it. -/
def isUnder (path key : GoString) : Bool :=
  key = Clean path ∨ HasPrefix key (if Clean path = ['/'] then ['/'] else Clean path ++ ['/'])

/-- Result of `os.Stat`. -/
inductive StatResult where
  | info (isDir : Bool) (gid : Nat)
  | notExist
  | failed
deriving DecidableEq, Repr

/-- `os.Stat`. -/
def FileSystem.Stat (fs : FileSystem) (path : GoString) : StatResult :=
  match fs.get path with
  | none => .notExist
  | some (.dir gid _) => .info true gid
  | some (.file _) => .info false fs.egid
  | some .faulty => .failed

/-- `os.MkdirAll(path, perm)`: `none` on failure. -/
def FileSystem.MkdirAll (fs : FileSystem) (path : GoString) (perm : Nat) : Option FileSystem :=
  match fs.get path with
  | none => some (fs.set path (.dir fs.egid (perm &&& (0o7777 ^^^ fs.umask))))
  | some (.dir _ _) => some fs
  | some (.file _) => none
  | some .faulty => none

/-- `os.Chmod(path, perm)`: `none` on failure. -/
def FileSystem.Chmod (fs : FileSystem) (path : GoString) (perm : Nat) : Option FileSystem :=
  match fs.get path with
  | some (.dir gid _) => some (fs.set path (.dir gid perm))
  | some (.file _) => some fs
  | _ => none

/-- The command `chgrp gid path`: `none` on failure. Only a number that fits a `gid_t` names
a group. -/
def FileSystem.Chgrp (fs : FileSystem) (gid : Int) (path : GoString) : Option FileSystem :=
  if 0 ≤ gid ∧ gid < 2 ^ 32 - 1 then
    match fs.get path with
    | some (.dir _ mode) => some (fs.set path (.dir gid.toNat mode))
    | some (.file _) => some fs
    | _ => none
  else none

/-- `os.RemoveAll(path)`: `none` on failure. -/
def FileSystem.RemoveAll (fs : FileSystem) (path : GoString) : Option FileSystem :=
  if fs.nodes.any (fun kv => isUnder path kv.1 ∧ kv.2 = .faulty) then none
  else some { fs with nodes := fs.nodes.filter (fun kv => ¬ isUnder path kv.1) }

/-- `ioutil.WriteFile(path, data, 0600)`: `none` on failure. -/
def FileSystem.WriteFile (fs : FileSystem) (path : GoString) (data : GoString) :
    Option FileSystem :=
  match fs.get path with
  | some (.dir _ _) => none
  | some .faulty => none
  | _ => some (fs.set path (.file data))

/-- Result of `os.Open` followed by reading the whole file. -/
inductive ReadResult where
  | data (contents : GoString)
  | notExist
  | openFailed
  | readFailed
deriving DecidableEq, Repr

/-- `os.Open` and the reads of the decoder. -/
def FileSystem.Read (fs : FileSystem) (path : GoString) : ReadResult :=
  match fs.get path with
  | none => .notExist
  | some (.file data) => .data data
  | some (.dir _ _) => .readFailed
  | some .faulty => .openFailed

/-- An entry of a directory listing (`os.FileInfo`): its name and whether it is a
directory. -/
structure DirEntry where
  Name : GoString
  IsDir : Bool
deriving DecidableEq, Repr

/-- The name of `key` as a direct child of the directory `base`, if it is one. -/
def childName (base key : GoString) : Option GoString :=
  let pre := if Clean base = ['/'] then ['/'] else Clean base ++ ['/']
  if HasPrefix key pre ∧ key.drop pre.length ≠ [] ∧ '/' ∉ key.drop pre.length
  then some (key.drop pre.length) else none

/-- `ioutil.ReadDir(path)`: `none` on failure. -/
def FileSystem.ReadDir (fs : FileSystem) (path : GoString) : Option (List DirEntry) :=
  match fs.get path with
  | some (.dir _ _) =>
    if fs.nodes.any (fun kv => (childName path kv.1).isSome ∧ kv.2 = .faulty) then none
    else some (fs.nodes.filterMap (fun kv =>
      match childName path kv.1, kv.2 with
      | some name, .dir _ _ => some ⟨name, true⟩
      | some name, _ => some ⟨name, false⟩
      | none, _ => none))
  | _ => none

/-- `allocator.MinMaxAllocator`: the range and the GIDs in use. -/
structure MinMaxAllocator where
  min : Int
  max : Int
  used : List Int
deriving DecidableEq, Repr

/-- Outcome of `MinMaxAllocator.Allocate`. -/
inductive AllocateResult where
  | ok
  | errConflict
  | errOutOfRange
deriving DecidableEq, Repr

/-- `MinMaxAllocator.Allocate(i)`. -/
def MinMaxAllocator.Allocate (a : MinMaxAllocator) (i : Int) :
    AllocateResult × MinMaxAllocator :=
  if ¬ (a.min ≤ i ∧ i ≤ a.max) then (.errOutOfRange, a)
  else if i ∈ a.used then (.errConflict, a)
  else (.ok, { a with used := i :: a.used })

/-- Scan of `MinMaxAllocator.AllocateNext`: the first free GID from `i` on, looking at `n`
candidates. -/
def MinMaxAllocator.scan (a : MinMaxAllocator) : Nat → Int → Option Int
  | 0, _ => none
  | n + 1, i => if i ∈ a.used then a.scan n (i + 1) else some i

/-- `AllocateNext` of the GID allocator, on the table of the class: the lowest free GID of
the range, or `none` when there is none. -/
def MinMaxAllocator.AllocateNext (a : MinMaxAllocator) : Option (Int × MinMaxAllocator) :=
  match a.scan (a.max + 1 - a.min).toNat a.min with
  | none => none
  | some gid => some (gid, { a with used := gid :: a.used })

/-- `Release` of the GID allocator for a GID annotation: `none` on failure. -/
def MinMaxAllocator.Release (a : MinMaxAllocator) (gidAnnot : Option GoString) :
    Option MinMaxAllocator :=
  match gidAnnot with
  | none => some a
  | some s =>
    match Atoi s with
    | none => none
    | some gid =>
      if a.min ≤ gid ∧ gid ≤ a.max then some { a with used := a.used.filter (fun g => g ≠ gid) }
      else none

/-- The state outside the provisioner: file system and GID table. -/
structure World where
  fs : FileSystem
  alloc : MinMaxAllocator
deriving DecidableEq, Repr

/-! ## `internal`: reading and writing metadata, validation, reclaim -/

/-- `WriteVolumeMetadata`: the error, if any, and the file system afterwards. Marshalling a
`VolumeMetadata` (four strings) cannot fail. -/
def WriteVolumeMetadata (fs : FileSystem) (dir : GoString) (md : VolumeMetadata) :
    Option Err × FileSystem :=
  let mdpath := getMetaDataPath dir
  let contents := MarshalIndent md
  match fs.WriteFile mdpath contents with
  | none => (some (.writeFailed mdpath), fs)
  | some fs1 => (none, fs1)

/-- `ReadVolumeMetadata`: `.ok none` is the result `nil, nil` for a missing file. -/
def ReadVolumeMetadata (fs : FileSystem) (dir : GoString) : Except Err (Option VolumeMetadata) :=
  let mdpath := getMetaDataPath dir
  match fs.Read mdpath with
  | .notExist => .ok none
  | .openFailed => .error (.openFailed mdpath)
  | .readFailed => .error (.decodeFailed mdpath)
  | .data contents =>
    match Decode contents with
    | none => .error (.decodeFailed mdpath)
    | some md => .ok (some md)

/-- `VolumeExists`: whether the directory exists and, if so, its GID. -/
def VolumeExists (fs : FileSystem) (path : GoString) : Except Err (Bool × Nat) :=
  match fs.Stat path with
  | .info isDir gid => if isDir = false then .error (.existsButIsFile path) else .ok (true, gid)
  | .notExist => .ok (false, 0)
  | .failed => .error (.statFailed path)

/-- `util.GetPersistentVolumeClaimClass`: the beta annotation first, then the class name of
the spec, else the empty string. -/
def GetPersistentVolumeClaimClass (claim : PersistentVolumeClaim) : GoString :=
  match claim.BetaClassAnnotation with
  | some cls => cls
  | none =>
    match claim.StorageClassName with
    | some cls => cls
    | none => []

/-- `ValidatePreexistingVolume`: `none` is the result `nil`. -/
def ValidatePreexistingVolume (options : ProvisionOptions) (md : Option VolumeMetadata)
    (volumePath : GoString) (existingGID : Nat) : Option Err :=
  match md with
  | none => some (.noVolumeMetadata volumePath)
  | some md =>
    let cls := GetPersistentVolumeClaimClass options.PVC
    if md.StorageClassName ≠ cls then some (.wrongStorageClass volumePath md.StorageClassName cls)
    else if md.PVCName ≠ options.PVC.Name ∨ md.PVCNamespace ≠ options.PVC.Namespace then
      some (.wrongClaim volumePath)
    else if md.GID ≠ [] then
      match md.GidAsUInt with
      | none => some (.invalidMetadataGid volumePath md.GID)
      | some mdgid =>
        if existingGID ≠ mdgid then some (.gidMismatch volumePath existingGID mdgid) else none
    else none

/-- `FileSystemReclaimer`. -/
structure FileSystemReclaimer where
  BasePath : GoString
deriving DecidableEq, Repr

/-- One iteration of the loop of `Reclaim`, for one entry of the listing. -/
def reclaimEntry (f : FileSystemReclaimer) (fs : FileSystem) (classname : GoString)
    (gidtable : MinMaxAllocator) (entry : DirEntry) : MinMaxAllocator :=
  if entry.IsDir = false then gidtable
  else
    let mddir := Join [f.BasePath, entry.Name]
    match ReadVolumeMetadata fs mddir with
    | .error _ => gidtable
    | .ok none => gidtable
    | .ok (some md) =>
      if md.StorageClassName ≠ classname then gidtable
      else if md.GID = [] then gidtable
      else
        match Atoi md.GID with
        | none => gidtable
        | some gid => (gidtable.Allocate gid).2

/-- `FileSystemReclaimer.Reclaim`: the error, if any, and the GID table afterwards. -/
def FileSystemReclaimer.Reclaim (f : FileSystemReclaimer) (fs : FileSystem)
    (classname : GoString) (gidtable : MinMaxAllocator) : Option Err × MinMaxAllocator :=
  match fs.ReadDir f.BasePath with
  | none => (some (.readDirFailed f.BasePath), gidtable)
  | some entries => (none, entries.foldl (reclaimEntry f fs classname) gidtable)

/-- The GID an entry of the listing contributes: it is a directory whose record exists, is
of the class, and has a non-empty GID that `strconv.Atoi` reads as `g`. -/
def contributes (f : FileSystemReclaimer) (fs : FileSystem) (classname : GoString)
    (e : DirEntry) (g : Int) : Prop :=
  e.IsDir = true ∧ ∃ md, ReadVolumeMetadata fs (Join [f.BasePath, e.Name]) = .ok (some md) ∧
    md.StorageClassName = classname ∧ md.GID ≠ [] ∧ Atoi md.GID = some g

/-! ## `cmd/efs-provisioner.go`: `Provision` and `Delete` -/

/-- The fields of the `v1.PersistentVolume` built by `Provision`. `GidAnnot` is the value
of the GID key of the annotations, when set. -/
structure PersistentVolume where
  Name : GoString
  ReclaimPolicy : GoString
  AccessModes : List GoString
  Capacity : GoString
  NFS : NFSVolumeSource
  MountOptions : List GoString
  GidAnnot : Option GoString
deriving DecidableEq, Repr

/-- `controller.ProvisioningState`. -/
inductive ProvisioningState where
  | ProvisioningFinished
  | ProvisioningNoChange
  | ProvisioningInBackground
deriving DecidableEq, Repr

/-- How a call of `Provision` ends: it returns its three results, or it panics (on the nil
`ReclaimPolicy` of a storage class). -/
inductive ProvisionResult where
  | returned (pv : Option PersistentVolume) (state : ProvisioningState) (err : Option Err)
  | panicked
deriving DecidableEq, Repr

/-- `createVolume`: the error, if any, and the file system afterwards. -/
def createVolume (fs : FileSystem) (path : GoString) (gid : Option Int) :
    Option Err × FileSystem :=
  let perm := if gid.isSome then 0o2771 else 0o777
  match fs.MkdirAll path perm with
  | none => (some (.mkdirFailed path), fs)
  | some fs1 =>
    -- Due to umask, need to chmod
    match fs1.Chmod path perm with
    | none => (some (.chmodFailed path), (fs1.RemoveAll path).getD fs1)
    | some fs2 =>
      match gid with
      | none => (none, fs2)
      | some g =>
        match fs2.Chgrp g path with
        | none => (some (.chgrpFailed path), (fs2.RemoveAll path).getD fs2)
        | some fs3 => (none, fs3)

/-- The loop of `Provision` over the class parameters that sets `gidAllocate`. -/
def gidAllocateOption : List (GoString × GoString) → Bool → Except Err Bool
  | [], gidAllocate => .ok gidAllocate
  | (k, v) :: rest, gidAllocate =>
    if ToLower k = "gidallocate".toList then
      match ParseBool v with
      | none => .error (.invalidGidAllocate k v)
      | some b => gidAllocateOption rest b
    else gidAllocateOption rest gidAllocate

/-- The end of `Provision`, after the reuse and create branches: mount options, remote path
and the volume object. -/
def provisionVolume (p : efsProvisioner) (options : ProvisionOptions) (gid : Option Int) :
    ProvisionResult :=
  let mountOptions :=
    match options.StorageClass.MountOptions with
    | some opts => opts
    | none => ["vers=4.1".toList]
  match getRemotePath p options with
  | .error err => .returned none .ProvisioningNoChange (some err)
  | .ok remotePath =>
    match options.StorageClass.ReclaimPolicy with
    | none => .panicked
    | some policy =>
      .returned (some
        { Name := options.PVName,
          ReclaimPolicy := policy,
          AccessModes := options.PVC.AccessModes,
          Capacity := options.PVC.StorageRequest,
          NFS := { Server := p.dnsName, Path := remotePath },
          MountOptions := mountOptions,
          GidAnnot := gid.map Itoa }) .ProvisioningFinished none

/-- The `gidstr` of `Provision`: `strconv.Itoa(*gid)` when a GID was allocated, else the
empty string. -/
def gidString (gid : Option Int) : GoString :=
  match gid with
  | some g => Itoa g
  | none => []

/-- `efsProvisioner.Provision`: how the call ends, and the world afterwards. -/
def Provision (p : efsProvisioner) (options : ProvisionOptions) (w : World) :
    ProvisionResult × World :=
  if options.PVC.HasSelector then
    (.returned none .ProvisioningNoChange (some .selectorNotSupported), w)
  else
    match getLocalPath p options with
    | .error err => (.returned none .ProvisioningNoChange (some err), w)
    | .ok volumePath =>
      match reuseVolumesOption options with
      | .error err => (.returned none .ProvisioningNoChange (some err), w)
      | .ok reuseVolumes =>
        match (if reuseVolumes then VolumeExists w.fs volumePath else .ok (false, 0)) with
        | .error err => (.returned none .ProvisioningNoChange (some err), w)
        | .ok (volExists, existingGid) =>
          if volExists then
            match ReadVolumeMetadata w.fs volumePath with
            | .error _ =>
              (.returned none .ProvisioningNoChange (some (.readMetadataFailed volumePath)), w)
            | .ok md =>
              match ValidatePreexistingVolume options md volumePath existingGid with
              | some err => (.returned none .ProvisioningNoChange (some err), w)
              | none =>
                match md with
                | none => (.panicked, w)
                | some md =>
                  -- if a GID was previously allocated and it matches the actual GID on the
                  -- current directory then use it
                  if md.GID ≠ [] then
                    match Atoi md.GID with
                    | none =>
                      (.returned none .ProvisioningNoChange (some (.invalidGidValue md.GID)), w)
                    | some mdGidInt =>
                      if (existingGid : Int) = mdGidInt then
                        (provisionVolume p options (some (existingGid : Int)), w)
                      else
                        (.returned none .ProvisioningNoChange
                          (some (.gidDiffersFromMetadata volumePath)), w)
                  else (provisionVolume p options none, w)
          else
            match gidAllocateOption options.StorageClass.Parameters true with
            | .error err => (.returned none .ProvisioningNoChange (some err), w)
            | .ok gidAllocate =>
              match (if gidAllocate then
                  (match w.alloc.AllocateNext with
                    | none => none
                    | some (g, a) => some (some g, a))
                else some (none, w.alloc)) with
              | none => (.returned none .ProvisioningNoChange (some .allocateFailed), w)
              | some (gid, alloc1) =>
                match createVolume w.fs volumePath gid with
                | (some err, fs1) =>
                  (.returned none .ProvisioningNoChange (some err), ⟨fs1, alloc1⟩)
                | (none, fs1) =>
                  let gidstr := gidString gid
                  let fs2 :=
                    if reuseVolumes then
                      (WriteVolumeMetadata fs1 volumePath
                        { GID := gidstr,
                          PVCName := options.PVC.Name,
                          PVCNamespace := options.PVC.Namespace,
                          StorageClassName := GetPersistentVolumeClaimClass options.PVC }).2
                    else fs1
                  (provisionVolume p options gid, ⟨fs2, alloc1⟩)

/-- `efsProvisioner.Delete`, for a volume with an NFS source: the error, if any, and the
world afterwards. -/
def Delete (p : efsProvisioner) (volume : PersistentVolume) (w : World) : Option Err × World :=
  match w.alloc.Release volume.GidAnnot with
  | none => (some .releaseFailed, w)
  | some alloc1 =>
    match getLocalPathToDelete p volume.NFS with
    | .error err => (some err, ⟨w.fs, alloc1⟩)
    | .ok path =>
      match w.fs.RemoveAll path with
      | none => (some (.removeFailed path), ⟨w.fs, alloc1⟩)
      | some fs1 => (none, ⟨fs1, alloc1⟩)

/-- Whether an error is one of the two returned by `Provision` after the `strconv.Atoi` parse
of the recorded GID in the reuse branch. -/
def Err.afterAtoi : Err → Bool
  | .invalidGidValue _ => true
  | .gidDiffersFromMetadata _ => true
  | _ => false

/-! ## Sample configurations and requests -/

/-- A reuse-mode request of class `efs-sc` with prefix `vol`, for claim `alpha/default`. -/
def sampleReuseOptions : ProvisionOptions :=
  { StorageClass :=
      { Parameters := [("reuseVolumes".toList, "true".toList), ("volumePrefix".toList, "vol".toList)],
        MountOptions := none, ReclaimPolicy := some "Delete".toList },
    PVName := "pvc-1".toList,
    PVC := { Name := "alpha".toList, Namespace := "default".toList, BetaClassAnnotation := none,
             StorageClassName := some "efs-sc".toList, HasSelector := false,
             AccessModes := ["ReadWriteMany".toList], StorageRequest := "1Gi".toList } }

/-- A provisioner serving the export `/export` of `fs.example.com`, mounted at `/efs`. -/
def sampleProvisioner : efsProvisioner :=
  { dnsName := "fs.example.com".toList, mountpoint := "/efs".toList,
    source := "fs.example.com:/export".toList }

/-- A reuse-mode request whose class sets the free-text parameter `volumePrefix` to
`../shared`. -/
def escapingPrefixOptions : ProvisionOptions :=
  { sampleReuseOptions with
    StorageClass :=
      { Parameters := [(reuseVolumesKey, "true".toList), (volumePrefixKey, "../shared".toList)],
        MountOptions := none, ReclaimPolicy := some "Delete".toList } }

/-- A reuse-mode request of class `efs-sc` for claim `alpha` in namespace `default`. -/
def alphaOptions : ProvisionOptions :=
  { StorageClass :=
      { Parameters := [(reuseVolumesKey, "true".toList)],
        MountOptions := none, ReclaimPolicy := some "Delete".toList },
    PVName := "pvc-1".toList,
    PVC := { Name := "alpha".toList, Namespace := "default".toList, BetaClassAnnotation := none,
             StorageClassName := some "efs-sc".toList, HasSelector := false,
             AccessModes := ["ReadWriteMany".toList], StorageRequest := "1Gi".toList } }

/-- The record of the directory of claim `alpha/default` of class `efs-sc` with GID 2000. -/
def alphaMetadata : VolumeMetadata :=
  { GID := "2000".toList, PVCName := "alpha".toList, PVCNamespace := "default".toList,
    StorageClassName := "efs-sc".toList }

/-- A GID table with range 2000 to 2147483647 in which 2000 is in use. -/
def alphaTable : MinMaxAllocator := { min := 2000, max := 2147483647, used := [2000] }

/-- Base mount `/efs` with the directory `alpha-default` of group 2000 and its record. -/
def alphaWorld : World :=
  { fs :=
      { nodes :=
          [("/efs".toList, .dir 0 0o755),
           ("/efs/alpha-default".toList, .dir 2000 0o2771),
           ("/efs/alpha-default/.kube-efs-provisioner-metadata".toList,
             .file (MarshalIndent alphaMetadata))],
        egid := 0, umask := 0o022 },
    alloc := alphaTable }

/-- Base mount `/efs` without directories, where writing the record of `alpha-default` fails
with an I/O error. -/
def faultyWorld : World :=
  { fs :=
      { nodes :=
          [("/efs".toList, .dir 0 0o755),
           ("/efs/alpha-default/.kube-efs-provisioner-metadata".toList, .faulty)],
        egid := 0, umask := 0o022 },
    alloc := { min := 2000, max := 2147483647, used := [] } }

/-- The volume `Provision` returns for `alphaOptions` with GID 2000. -/
def alphaVolume : PersistentVolume :=
  { Name := "pvc-1".toList, ReclaimPolicy := "Delete".toList,
    AccessModes := ["ReadWriteMany".toList], Capacity := "1Gi".toList,
    NFS := ⟨"fs.example.com".toList, "/export/alpha-default".toList⟩,
    MountOptions := ["vers=4.1".toList], GidAnnot := some "2000".toList }

/-- Base mount `/efs` with a directory `alpha-default` of group 2000 that has no record. -/
def unmanagedWorld : World :=
  { fs :=
      { nodes :=
          [("/efs".toList, .dir 0 0o755), ("/efs/alpha-default".toList, .dir 2000 0o2771)],
        egid := 0, umask := 0o022 },
    alloc := alphaTable }

/-- Base mount `/efs` without directories, and a GID table with range 2000 to 2147483647 in
which no GID is in use. -/
def emptyWorld : World :=
  { fs := { nodes := [("/efs".toList, .dir 0 0o755)], egid := 0, umask := 0o022 },
    alloc := { min := 2000, max := 2147483647, used := [] } }

/-- The request `alphaOptions` for a claim whose name is the single byte FF, which is not
valid UTF-8. -/
def rawNameOptions : ProvisionOptions :=
  { alphaOptions with PVC := { alphaOptions.PVC with Name := [Char.ofNat 0xFF] } }

/-- The volume `Provision` returns for `rawNameOptions` with GID 2000. -/
def rawNameVolume : PersistentVolume :=
  { alphaVolume with
    NFS := ⟨"fs.example.com".toList, "/export/".toList ++ [Char.ofNat 0xFF] ++ "-default".toList⟩ }

/-- The record of a directory of class `efs-sc` with the given GID. -/
def recordWithGid (gid name : GoString) : VolumeMetadata :=
  { GID := gid, PVCName := name, PVCNamespace := "default".toList,
    StorageClassName := "efs-sc".toList }

/-- Base mount `/efs` with five directories: `a`, `b`, `c` of class `efs-sc` with GIDs 100,
101 and 102, and `d`, `e` without a record. -/
def fiveDirectories : FileSystem :=
  { nodes :=
      [("/efs".toList, .dir 0 0o755),
       ("/efs/a".toList, .dir 100 0o2771),
       ("/efs/a/.kube-efs-provisioner-metadata".toList,
         .file (MarshalIndent (recordWithGid "100".toList "a".toList))),
       ("/efs/b".toList, .dir 101 0o2771),
       ("/efs/b/.kube-efs-provisioner-metadata".toList,
         .file (MarshalIndent (recordWithGid "101".toList "b".toList))),
       ("/efs/c".toList, .dir 102 0o2771),
       ("/efs/c/.kube-efs-provisioner-metadata".toList,
         .file (MarshalIndent (recordWithGid "102".toList "c".toList))),
       ("/efs/d".toList, .dir 0 0o777),
       ("/efs/e".toList, .dir 0 0o777)],
    egid := 0, umask := 0o022 }

/-- A file system with the base mount `/efs`, a directory `/efs/foo/x` that belongs to no
volume of the share root `/export`, and the directory `/etc` with a file outside the base
mount. -/
def strayWorld : World :=
  { fs :=
      { nodes :=
          [("/efs".toList, .dir 0 0o755),
           ("/efs/foo/x".toList, .dir 0 0o777),
           ("/etc".toList, .dir 0 0o755),
           ("/etc/passwd".toList, .file "root:x:0:0".toList)],
        egid := 0, umask := 0o022 },
    alloc := alphaTable }

/-- A volume of the sample provisioner's server with the given recorded NFS path and no GID
annotation. -/
def volumeAt (path : GoString) : PersistentVolume :=
  { Name := "pvc-1".toList, ReclaimPolicy := "Delete".toList,
    AccessModes := ["ReadWriteMany".toList], Capacity := "1Gi".toList,
    NFS := ⟨"fs.example.com".toList, path⟩,
    MountOptions := ["vers=4.1".toList], GidAnnot := none }

theorem getD_append_add (P Q : GoString) (j : Nat) (d : Char) :
    (P ++ Q).getD (P.length + j) d = Q.getD j d := by
  induction P with
  | nil => simp
  | cons a P ih =>
    have : (a :: P).length + j = (P.length + j) + 1 := by simp; omega
    rw [List.cons_append, this, List.getD_cons_succ]
    exact ih

theorem cleanBacktrack_spec (P t : GoString) (x : Char) (D : Nat) (ht : ∀ c ∈ t, c ≠ '/')
    (hD : D ≤ P.length) (hx : x = '/' ∨ P.length = D) (k : Nat) (hk : k ≤ t.length) :
    cleanBacktrack (P ++ x :: t) D (P.length + k) = P.length := by
  induction k with
  | zero =>
    cases hP : P.length with
    | zero => simp [cleanBacktrack]
    | succ n =>
      have hget : (P ++ x :: t).getD (n + 1) '/' = x := by
        have := getD_append_add P (x :: t) 0 '/'
        rw [Nat.add_zero, hP] at this
        rw [this]; rfl
      simp only [Nat.add_zero, cleanBacktrack, hget]
      rcases hx with hx | hx
      · simp [hx]
      · have : ¬ D < n + 1 := by omega
        simp [this]
  | succ k ih =>
    have hk2 : k < t.length := hk
    have hget : (P ++ x :: t).getD (P.length + (k + 1)) '/' = t[k] := by
      rw [getD_append_add, List.getD_cons_succ, List.getD_eq_getElem _ _ hk2]
    have hne : t[k] ≠ '/' := ht _ (List.getElem_mem _)
    have hlt : D < P.length + k + 1 := by omega
    rw [← Nat.add_assoc, cleanBacktrack, Nat.add_assoc, hget]
    rw [if_pos ⟨by omega, hne⟩]
    exact ih (by omega)

theorem splitSlash_ne_nil (s : GoString) : splitSlash s ≠ [] := by
  cases s with
  | nil => simp [splitSlash]
  | cons c cs =>
    simp only [splitSlash]
    split
    · simp
    · split <;> simp

theorem splitSlash_cons_ne (c : Char) (cs : GoString) (hc : c ≠ '/') :
    splitSlash (c :: cs) = (c :: (splitSlash cs).head!) :: (splitSlash cs).tail := by
  simp only [splitSlash, if_neg hc]
  cases h : splitSlash cs with
  | nil => exact absurd h (splitSlash_ne_nil cs)
  | cons a t => rfl

/-- The first element of a path is what stands before its first slash. -/
theorem splitSlash_eq (s : GoString) :
    splitSlash s = s.takeWhile (fun x => x != '/') ::
      (match s.dropWhile (fun x => x != '/') with
        | [] => []
        | _ :: r => splitSlash r) := by
  induction s with
  | nil => simp [splitSlash]
  | cons c cs ih =>
    by_cases hc : c = '/'
    · subst hc
      simp [splitSlash]
    · have hb : (c != '/') = true := by simpa using hc
      rw [splitSlash_cons_ne c cs hc, ih]
      simp [List.takeWhile, List.dropWhile, hb]

theorem cleanStep_nil (rooted : Bool) (st : CleanState) : cleanStep rooted st [] = st := by
  simp [cleanStep]

theorem cleanStep_dot (rooted : Bool) (st : CleanState) : cleanStep rooted st ['.'] = st := by
  simp [cleanStep]

theorem cleanStep_elem (rooted : Bool) (st : CleanState) (e : GoString) (he : IsElem e) :
    cleanStep rooted st e = { st with norm := st.norm ++ [e] } := by
  obtain ⟨h1, h2, h3, _⟩ := he
  simp [cleanStep, h1, h2, h3]

theorem cleanSem_nil (rooted : Bool) (st : CleanState) : cleanSem rooted [] st = st := by
  simp [cleanSem, splitSlash, cleanStep_nil]

theorem cleanSem_slash (rooted : Bool) (s : GoString) (st : CleanState) :
    cleanSem rooted ('/' :: s) st = cleanSem rooted s st := by
  simp [cleanSem, splitSlash, cleanStep_nil]

theorem dropWhile_head_slash (s r : GoString) (x : Char)
    (h : s.dropWhile (fun x => x != '/') = x :: r) : x = '/' := by
  have := List.head_dropWhile_not (fun x => x != '/') s (by rw [h]; simp)
  simpa [h] using this

/-- Reading a path is reading its first element and then the rest. -/
theorem cleanSem_eq (rooted : Bool) (s : GoString) (st : CleanState) :
    cleanSem rooted s st =
      cleanSem rooted (s.dropWhile (fun x => x != '/'))
        (cleanStep rooted st (s.takeWhile (fun x => x != '/'))) := by
  conv_lhs => rw [cleanSem, splitSlash_eq, List.foldl_cons]
  cases h : s.dropWhile (fun x => x != '/') with
  | nil => simp [cleanSem_nil]
  | cons x r =>
    have hx := dropWhile_head_slash s r x h
    subst hx
    rw [cleanSem_slash, cleanSem]

theorem joinSlash_snoc (cs : List GoString) (e : GoString) :
    joinSlash (cs ++ [e]) = if cs = [] then e else joinSlash cs ++ '/' :: e := by
  induction cs with
  | nil => simp [joinSlash]
  | cons a t ih =>
    cases t with
    | nil => simp [joinSlash]
    | cons b u =>
      simp only [List.cons_append, reduceCtorEq, if_false] at ih ⊢
      rw [joinSlash, ih, joinSlash]; simp

theorem joinSlash_eq_nil (cs : List GoString) (h : ∀ e ∈ cs, e ≠ []) :
    joinSlash cs = [] ↔ cs = [] := by
  cases cs with
  | nil => simp [joinSlash]
  | cons a t =>
    have ha : a ≠ [] := h a (by simp)
    cases t with
    | nil => simp [joinSlash, ha]
    | cons b u => simp [joinSlash, ha]

theorem elems_snoc (dd : Nat) (norm : List GoString) (e : GoString) :
    (CleanState.mk dd (norm ++ [e])).elems = (CleanState.mk dd norm).elems ++ [e] := by
  simp [CleanState.elems]

theorem elems_eq_nil (st : CleanState) : st.elems = [] ↔ st.dd = 0 ∧ st.norm = [] := by
  simp [CleanState.elems, List.replicate_eq_nil_iff]

theorem elems_ne_nil (rooted : Bool) (st : CleanState) (hv : st.Valid rooted) :
    ∀ e ∈ st.elems, e ≠ [] := by
  intro e he
  simp only [CleanState.elems, List.mem_append, List.mem_replicate] at he
  rcases he with ⟨_, rfl⟩ | he
  · simp
  · exact (hv.2 e he).1

/-- The buffer after one more ordinary element. -/
theorem render_push (rooted : Bool) (dd : Nat) (norm : List GoString) (e : GoString) :
    render rooted ⟨dd, norm ++ [e]⟩ =
      if dd = 0 ∧ norm = [] then (if rooted then ['/'] else []) ++ e
      else render rooted ⟨dd, norm⟩ ++ '/' :: e := by
  simp only [render, elems_snoc, joinSlash_snoc, elems_eq_nil]
  by_cases h : dd = 0 ∧ norm = []
  · simp [h]
  · simp [h]

theorem render_length_empty (rooted : Bool) (st : CleanState) (hv : st.Valid rooted) :
    ((rooted = true ∧ (render rooted st).length ≠ 1) ∨
      (rooted = false ∧ (render rooted st).length ≠ 0)) ↔ ¬ (st.dd = 0 ∧ st.norm = []) := by
  have h := joinSlash_eq_nil st.elems (elems_ne_nil rooted st hv)
  rw [← elems_eq_nil, ← h]
  cases rooted <;> simp [render]

theorem dotdotIndex_le (rooted : Bool) (dd : Nat) (norm : List GoString) :
    dotdotIndex rooted ⟨dd, norm⟩ ≤ (render rooted ⟨dd, norm⟩).length := by
  induction norm using List.reverseRecOn with
  | nil => simp [dotdotIndex]
  | append_singleton l e ih =>
    have hd : dotdotIndex rooted ⟨dd, l ++ [e]⟩ = dotdotIndex rooted ⟨dd, l⟩ := rfl
    rw [hd, render_push]
    split
    · rename_i h
      obtain ⟨h1, h2⟩ := h
      subst h1 h2
      simp [dotdotIndex, render, CleanState.elems, joinSlash]
    · simp; omega

theorem dotdotIndex_lt (rooted : Bool) (st : CleanState) (hv : st.Valid rooted) :
    dotdotIndex rooted st < (render rooted st).length ↔ st.norm ≠ [] := by
  obtain ⟨dd, norm⟩ := st
  cases norm using List.reverseRecOn with
  | nil => simp [dotdotIndex]
  | append_singleton l e =>
    have hd : dotdotIndex rooted ⟨dd, l ++ [e]⟩ = dotdotIndex rooted ⟨dd, l⟩ := rfl
    have he : e ≠ [] := (hv.2 e (by simp)).1
    have hlen : 0 < e.length := List.length_pos.mpr he
    have hle := dotdotIndex_le rooted dd l
    rw [hd, render_push]
    split
    · rename_i h
      obtain ⟨h1, h2⟩ := h
      subst h1 h2
      simp [dotdotIndex, render, CleanState.elems, joinSlash]
      omega
    · simp; omega

/-- Backtracking over the last kept element removes exactly that element. -/
theorem render_pop (rooted : Bool) (dd : Nat) (l : List GoString) (e : GoString)
    (hv : (CleanState.mk dd (l ++ [e])).Valid rooted) :
    (render rooted ⟨dd, l ++ [e]⟩).take
        (cleanBacktrack (render rooted ⟨dd, l ++ [e]⟩) (dotdotIndex rooted ⟨dd, l ++ [e]⟩)
          ((render rooted ⟨dd, l ++ [e]⟩).length - 1)) = render rooted ⟨dd, l⟩ := by
  have hd : dotdotIndex rooted ⟨dd, l ++ [e]⟩ = dotdotIndex rooted ⟨dd, l⟩ := rfl
  have he : IsElem e := hv.2 e (by simp)
  have hsl : ∀ c ∈ e, c ≠ '/' := fun c hc h => he.2.2.2 (h ▸ hc)
  rw [hd, render_push]
  by_cases h : dd = 0 ∧ l = []
  · obtain ⟨h1, h2⟩ := h
    subst h1 h2
    obtain ⟨x, t, rfl⟩ := List.exists_cons_of_ne_nil he.1
    have hr : render rooted ⟨0, []⟩ = (if rooted then ['/'] else []) := by
      simp [render, CleanState.elems, joinSlash]
    have hD : dotdotIndex rooted ⟨0, []⟩ = (if rooted = true then ['/'] else []).length := by
      simp [dotdotIndex, hr]
    have hlen : ((if rooted = true then ['/'] else []) ++ x :: t).length - 1
        = (if rooted = true then ['/'] else []).length + t.length := by simp
    simp only [true_and, if_true]
    rw [hlen, hD, cleanBacktrack_spec _ t x _ (fun c hc => hsl c (by simp [hc])) (le_refl _)
      (Or.inr rfl) _ (le_refl _), hr]
    simp
  · rw [if_neg h]
    have hlen : (render rooted ⟨dd, l⟩ ++ '/' :: e).length - 1
        = (render rooted ⟨dd, l⟩).length + e.length := by simp
    rw [hlen, cleanBacktrack_spec _ e '/' _ hsl (dotdotIndex_le rooted dd l) (Or.inl rfl) _
      (le_refl _)]
    simp

/-- Appending a `..` element to an unrooted buffer that holds only `..` elements. -/
theorem render_dotdot (dd : Nat) :
    (if 0 < (render false ⟨dd, []⟩).length then render false ⟨dd, []⟩ ++ ['/']
      else render false ⟨dd, []⟩) ++ ['.', '.'] = render false ⟨dd + 1, []⟩ := by
  have h1 : render false ⟨dd + 1, []⟩
      = joinSlash (List.replicate dd ['.', '.'] ++ [['.', '.']]) := by
    simp [render, CleanState.elems, List.replicate_succ']
  have h0 : render false ⟨dd, []⟩ = joinSlash (List.replicate dd ['.', '.']) := by
    simp [render, CleanState.elems]
  rw [h1, h0, joinSlash_snoc]
  cases dd with
  | zero => simp [joinSlash]
  | succ n =>
    have hne : joinSlash (List.replicate (n + 1) ['.', '.']) ≠ [] := by
      rw [Ne, joinSlash_eq_nil]
      · simp
      · intro e he
        rw [List.mem_replicate] at he
        rw [he.2]; simp
    have hpos : 0 < (joinSlash (List.replicate (n + 1) ['.', '.'])).length :=
      List.length_pos.mpr hne
    simp [hpos]

theorem takeWhile_stop (rest : GoString) (h : rest = [] ∨ rest.head? = some '/') :
    rest.takeWhile (fun x => x != '/') = [] ∧ rest.dropWhile (fun x => x != '/') = rest := by
  cases rest with
  | nil => simp
  | cons a t =>
    have ha : a = '/' := by simpa using h
    subst ha
    simp [List.takeWhile, List.dropWhile]

theorem takeWhile_eq_nil_stop (rest : GoString)
    (h : rest.takeWhile (fun x => x != '/') = []) : rest = [] ∨ rest.head? = some '/' := by
  cases rest with
  | nil => simp
  | cons a t =>
    by_cases ha : a = '/'
    · simp [ha]
    · have hb : (a != '/') = true := by simpa using ha
      simp [List.takeWhile, hb] at h

/-- What the default case of the loop copies is an ordinary element. -/
theorem isElem_takeWhile (c : Char) (rest : GoString) (hc : c ≠ '/')
    (hdot : ¬ (c = '.' ∧ (rest = [] ∨ rest.head? = some '/')))
    (hdd : ¬ (c = '.' ∧ rest.head? = some '.' ∧
      (rest.tail = [] ∨ rest.tail.head? = some '/'))) :
    IsElem ((c :: rest).takeWhile (fun x => x != '/')) := by
  have hb : (c != '/') = true := by simpa using hc
  have htw : (c :: rest).takeWhile (fun x => x != '/')
      = c :: rest.takeWhile (fun x => x != '/') := by simp [List.takeWhile, hb]
  refine ⟨by rw [htw]; simp, ?_, ?_, ?_⟩
  · rw [htw]
    intro h
    simp only [List.cons.injEq] at h
    exact hdot ⟨h.1, takeWhile_eq_nil_stop rest h.2⟩
  · rw [htw]
    intro h
    simp only [List.cons.injEq] at h
    obtain ⟨h1, h2⟩ := h
    cases rest with
    | nil => simp at h2
    | cons a t =>
      by_cases ha : a = '/'
      · subst ha; simp [List.takeWhile] at h2
      · have hb2 : (a != '/') = true := by simpa using ha
        simp only [List.takeWhile, hb2, List.cons.injEq] at h2
        exact hdd ⟨h1, by simp [h2.1], by simpa using takeWhile_eq_nil_stop t h2.2⟩
  · intro hmem
    have := List.mem_takeWhile_imp hmem
    simp at this

theorem cleanStep_valid (rooted : Bool) (st : CleanState) (e : GoString)
    (hv : st.Valid rooted) (he : '/' ∉ e) : (cleanStep rooted st e).Valid rooted := by
  unfold cleanStep
  split
  · exact hv
  · rename_i h1
    split
    · split
      · exact ⟨hv.1, fun x hx => hv.2 x (List.mem_of_mem_dropLast hx)⟩
      · split
        · exact hv
        · rename_i hr
          exact ⟨fun h => absurd h hr, by simp⟩
    · rename_i h2
      refine ⟨hv.1, ?_⟩
      intro x hx
      simp only [List.mem_append, List.mem_singleton] at hx
      rcases hx with hx | rfl
      · exact hv.2 x hx
      · exact ⟨fun h => h1 (Or.inl h), fun h => h1 (Or.inr h), h2, he⟩

/-- The loop of `path.Clean` computes the component-wise description: started in the buffer
of a state, it ends in the buffer of the state reached by reading the rest of the path. -/
theorem cleanLoop_spec (rooted : Bool) :
    ∀ (fuel : Nat) (rem : GoString) (st : CleanState), rem.length ≤ fuel → st.Valid rooted →
      cleanLoop rooted fuel rem (render rooted st) (dotdotIndex rooted st)
        = render rooted (cleanSem rooted rem st) := by
  intro fuel
  induction fuel with
  | zero =>
    intro rem st h _
    have : rem = [] := List.length_eq_zero.mp (Nat.le_zero.mp h)
    subst this
    simp [cleanLoop, cleanSem_nil]
  | succ n ih =>
    intro rem st h hv
    cases rem with
    | nil => simp [cleanLoop, cleanSem_nil]
    | cons c rest =>
      have hrest : rest.length ≤ n := by simpa using h
      rw [cleanLoop]
      by_cases hc : c = '/'
      · subst hc
        rw [if_pos rfl, cleanSem_slash]
        exact ih rest st hrest hv
      · rw [if_neg hc]
        have hb : (c != '/') = true := by simpa using hc
        have htw : (c :: rest).takeWhile (fun x => x != '/')
            = c :: rest.takeWhile (fun x => x != '/') := by simp [List.takeWhile, hb]
        have hdw : (c :: rest).dropWhile (fun x => x != '/')
            = rest.dropWhile (fun x => x != '/') := by simp [List.dropWhile, hb]
        by_cases hdot : c = '.' ∧ (rest = [] ∨ rest.head? = some '/')
        · rw [if_pos hdot, cleanSem_eq, htw, hdw, (takeWhile_stop rest hdot.2).1,
            (takeWhile_stop rest hdot.2).2, hdot.1, cleanStep_dot]
          exact ih rest st hrest hv
        · rw [if_neg hdot]
          by_cases hdd : c = '.' ∧ rest.head? = some '.' ∧
              (rest.tail = [] ∨ rest.tail.head? = some '/')
          · rw [if_pos hdd]
            obtain ⟨h1, h2, h3⟩ := hdd
            subst h1
            cases rest with
            | nil => simp at h2
            | cons a t =>
              have ha : a = '.' := by simpa using h2
              subst ha
              have ht : t.length ≤ n := by simp at hrest; omega
              have hsem : cleanSem rooted ('.' :: '.' :: t) st
                  = cleanSem rooted t (cleanStep rooted st ['.', '.']) := by
                rw [cleanSem_eq]
                simp [List.takeWhile, List.dropWhile, (takeWhile_stop t h3).1,
                  (takeWhile_stop t h3).2]
              have hvalid : (cleanStep rooted st ['.', '.']).Valid rooted :=
                cleanStep_valid rooted st _ hv (by simp)
              rw [hsem, List.tail_cons]
              by_cases hnorm : st.norm = []
              · have hlt : ¬ dotdotIndex rooted st < (render rooted st).length := by
                  rw [dotdotIndex_lt rooted st hv]; simp [hnorm]
                rw [if_neg hlt]
                cases rooted with
                | true =>
                  have hst : cleanStep true st ['.', '.'] = st := by simp [cleanStep, hnorm]
                  rw [if_neg (by simp), hst]
                  exact ih t st ht hv
                | false =>
                  obtain ⟨dd, norm⟩ := st
                  simp only at hnorm
                  subst hnorm
                  have hst : cleanStep false ⟨dd, []⟩ ['.', '.'] = ⟨dd + 1, []⟩ := by
                    simp [cleanStep]
                  rw [if_pos rfl, hst]
                  simp only []
                  rw [render_dotdot]
                  rw [hst] at hvalid
                  exact ih t ⟨dd + 1, []⟩ ht hvalid
              · have hlt : dotdotIndex rooted st < (render rooted st).length := by
                  rw [dotdotIndex_lt rooted st hv]; exact hnorm
                rw [if_pos hlt]
                obtain ⟨dd, norm⟩ := st
                simp only at hnorm
                obtain ⟨l, e, rfl⟩ : ∃ l e, norm = l ++ [e] :=
                  ⟨norm.dropLast, norm.getLast hnorm, (List.dropLast_append_getLast hnorm).symm⟩
                have hst : cleanStep rooted ⟨dd, l ++ [e]⟩ ['.', '.'] = ⟨dd, l⟩ := by
                  simp [cleanStep]
                rw [render_pop rooted dd l e hv, hst]
                have hd : dotdotIndex rooted ⟨dd, l ++ [e]⟩ = dotdotIndex rooted ⟨dd, l⟩ := rfl
                rw [hd]
                rw [hst] at hvalid
                exact ih t ⟨dd, l⟩ ht hvalid
          · rw [if_neg hdd]
            have helem := isElem_takeWhile c rest hc hdot hdd
            have hdl : ((c :: rest).dropWhile (fun x => x != '/')).length ≤ n := by
              rw [hdw]
              exact le_trans (List.Sublist.length_le (List.dropWhile_sublist _)) hrest
            rw [cleanSem_eq rooted (c :: rest), cleanStep_elem rooted st _ helem]
            have hvalid : (CleanState.mk st.dd
                (st.norm ++ [(c :: rest).takeWhile (fun x => x != '/')])).Valid rooted := by
              have := cleanStep_valid rooted st _ hv helem.2.2.2
              rwa [cleanStep_elem rooted st _ helem] at this
            have hbuf : (if (rooted = true ∧ (render rooted st).length ≠ 1) ∨
                  (rooted = false ∧ (render rooted st).length ≠ 0)
                then render rooted st ++ ['/'] else render rooted st)
                  ++ (c :: rest).takeWhile (fun x => x != '/')
                = render rooted ⟨st.dd, st.norm ++ [(c :: rest).takeWhile (fun x => x != '/')]⟩ := by
              rw [render_push]
              by_cases hemp : st.dd = 0 ∧ st.norm = []
              · rw [if_neg ((render_length_empty rooted st hv).not.mpr (not_not.mpr hemp)),
                  if_pos hemp]
                obtain ⟨dd, norm⟩ := st
                obtain ⟨h1, h2⟩ := hemp
                simp only at h1 h2
                subst h1 h2
                simp [render, CleanState.elems, joinSlash]
              · rw [if_pos ((render_length_empty rooted st hv).mpr hemp), if_neg hemp]
                simp
            simp only []
            rw [hbuf]
            exact ih _ _ hdl hvalid

/-- `path.Clean` agrees with its component-wise description. -/
theorem Clean_eq_cleanSpec (path : GoString) : Clean path = cleanSpec path := by
  have hv : (CleanState.mk 0 []).Valid true := ⟨fun _ => rfl, by simp⟩
  have hv2 : (CleanState.mk 0 []).Valid false := ⟨fun h => by simp at h, by simp⟩
  cases path with
  | nil => simp [Clean, cleanSpec, isRooted, cleanSem_nil, render, CleanState.elems, joinSlash]
  | cons c rest =>
    by_cases hc : c = '/'
    · subst hc
      have h := cleanLoop_spec true ('/' :: rest).length rest ⟨0, []⟩ (by simp) hv
      have hr : render true ⟨0, []⟩ = ['/'] := by simp [render, CleanState.elems, joinSlash]
      have hd : dotdotIndex true ⟨0, []⟩ = 1 := by simp [dotdotIndex, hr]
      rw [hr, hd] at h
      have hroot : isRooted ('/' :: rest) = true := by simp [isRooted]
      simp only [Clean, if_true, h, cleanSpec, hroot, cleanSem_slash, List.length_eq_zero]
    · have h := cleanLoop_spec false (c :: rest).length (c :: rest) ⟨0, []⟩ (le_refl _) hv2
      have hr : render false ⟨0, []⟩ = [] := by simp [render, CleanState.elems, joinSlash]
      have hd : dotdotIndex false ⟨0, []⟩ = 0 := by simp [dotdotIndex, hr]
      have hroot : isRooted (c :: rest) = false := by simp [isRooted, hc]
      rw [hr, hd] at h
      simp only [Clean, if_neg hc, h, cleanSpec, hroot, List.length_eq_zero]

theorem splitSlash_append (a b : GoString) :
    splitSlash (a ++ '/' :: b) = splitSlash a ++ splitSlash b := by
  induction a with
  | nil => simp [splitSlash]
  | cons c cs ih =>
    by_cases hc : c = '/'
    · simp [splitSlash, hc, ih]
    · obtain ⟨h, t, hs⟩ := List.exists_cons_of_ne_nil (splitSlash_ne_nil cs)
      simp [splitSlash, hc, ih, hs]

theorem splitSlash_noslash (b : GoString) (hb : '/' ∉ b) : splitSlash b = [b] := by
  induction b with
  | nil => simp [splitSlash]
  | cons c cs ih =>
    have hc : c ≠ '/' := fun h => hb (by simp [h])
    have hcs : '/' ∉ cs := fun h => hb (by simp [h])
    simp [splitSlash, hc, ih hcs]

theorem splitSlash_mem_noslash (s : GoString) : ∀ e ∈ splitSlash s, '/' ∉ e := by
  induction s with
  | nil => simp [splitSlash]
  | cons c cs ih =>
    by_cases hc : c = '/'
    · simpa [splitSlash, hc] using ih
    · obtain ⟨h, t, hs⟩ := List.exists_cons_of_ne_nil (splitSlash_ne_nil cs)
      rw [hs] at ih
      have hc2 : ¬ '/' = c := fun h => hc h.symm
      simp only [splitSlash, if_neg hc, hs, List.mem_cons, forall_eq_or_imp, not_or]
      exact ⟨⟨hc2, ih h (by simp)⟩, fun e he => ih e (by simp [he])⟩

/-- Appending slash-free text to a path extends its last element. -/
theorem splitSlash_append_noslash (a : GoString) :
    ∃ init l, splitSlash a = init ++ [l] ∧
      ∀ b, '/' ∉ b → splitSlash (a ++ b) = init ++ [l ++ b] := by
  induction a with
  | nil => exact ⟨[], [], by simp [splitSlash], fun b hb => by simp [splitSlash_noslash b hb]⟩
  | cons c cs ih =>
    obtain ⟨init, l, h1, h2⟩ := ih
    by_cases hc : c = '/'
    · exact ⟨[] :: init, l, by simp [splitSlash, hc, h1],
        fun b hb => by simp [splitSlash, hc, h2 b hb]⟩
    · cases init with
      | nil =>
        exact ⟨[], c :: l, by simp [splitSlash, hc, h1],
          fun b hb => by simp [splitSlash, hc, h2 b hb]⟩
      | cons h t =>
        exact ⟨(c :: h) :: t, l, by simp [splitSlash, hc, h1],
          fun b hb => by simp [splitSlash, hc, h2 b hb]⟩

theorem cleanSem_append (rooted : Bool) (a b : GoString) (st : CleanState) :
    cleanSem rooted (a ++ '/' :: b) st = cleanSem rooted b (cleanSem rooted a st) := by
  simp [cleanSem, splitSlash_append, List.foldl_append]

theorem cleanSem_elem (rooted : Bool) (d : GoString) (st : CleanState) (hd : IsElem d) :
    cleanSem rooted d st = { st with norm := st.norm ++ [d] } := by
  simp [cleanSem, splitSlash_noslash d hd.2.2.2, cleanStep_elem rooted st d hd]

theorem foldl_cleanStep_valid (rooted : Bool) (l : List GoString) :
    ∀ st : CleanState, (∀ e ∈ l, '/' ∉ e) → st.Valid rooted →
      (l.foldl (cleanStep rooted) st).Valid rooted := by
  induction l with
  | nil => intro st _ hv; exact hv
  | cons a t ih =>
    intro st hl hv
    exact ih _ (fun e he => hl e (by simp [he]))
      (cleanStep_valid rooted st a hv (hl a (by simp)))

theorem cleanSem_valid (rooted : Bool) (s : GoString) (st : CleanState)
    (hv : st.Valid rooted) : (cleanSem rooted s st).Valid rooted :=
  foldl_cleanStep_valid rooted _ st (splitSlash_mem_noslash s) hv

theorem valid_init_state (rooted : Bool) : (CleanState.mk 0 []).Valid rooted :=
  ⟨fun _ => rfl, by simp⟩

theorem isRooted_append (a b : GoString) (ha : a ≠ []) : isRooted (a ++ b) = isRooted a := by
  cases a with
  | nil => exact absurd rfl ha
  | cons c cs => simp [isRooted]

/-- A cleaned path that ends in `-` and slash-free text ends in that text. -/
theorem Clean_dash (A : GoString) :
    ∃ Y : GoString, ∀ v : GoString, '/' ∉ v → Clean (A ++ '-' :: v) = Y ++ '-' :: v := by
  obtain ⟨init, l, h1, h2⟩ := splitSlash_append_noslash A
  have hl : '/' ∉ l := splitSlash_mem_noslash A l (by rw [h1]; simp)
  have hroot : ∀ v : GoString, isRooted (A ++ '-' :: v) = isRooted (A ++ ['-']) := by
    intro v
    cases A with
    | nil => simp [isRooted]
    | cons c cs => simp [isRooted]
  refine ⟨(if (init.foldl (cleanStep (isRooted (A ++ ['-']))) ⟨0, []⟩).dd = 0 ∧
      (init.foldl (cleanStep (isRooted (A ++ ['-']))) ⟨0, []⟩).norm = []
    then (if isRooted (A ++ ['-']) then ['/'] else [])
    else render (isRooted (A ++ ['-']))
      (init.foldl (cleanStep (isRooted (A ++ ['-']))) ⟨0, []⟩) ++ ['/']) ++ l, ?_⟩
  intro v hv
  have hb : '/' ∉ '-' :: v := by simp [hv]
  have helem : IsElem (l ++ '-' :: v) := by
    refine ⟨by simp, ?_, ?_, by simp [hl, hv]⟩
    · intro h
      have : '-' ∈ l ++ '-' :: v := by simp
      rw [h] at this; simp at this
    · intro h
      have : '-' ∈ l ++ '-' :: v := by simp
      rw [h] at this; simp at this
  rw [Clean_eq_cleanSpec, cleanSpec, hroot v, cleanSem, h2 _ hb, List.foldl_append,
    List.foldl_cons, List.foldl_nil, cleanStep_elem _ _ _ helem, render_push]
  generalize init.foldl (cleanStep (isRooted (A ++ ['-']))) ⟨0, []⟩ = st
  by_cases hemp : st.dd = 0 ∧ st.norm = []
  · simp only [hemp, and_self, if_true]
    cases isRooted (A ++ ['-']) <;> simp
  · simp only [hemp, if_false]
    simp

theorem splitSlash_joinSlash (cs : List GoString) (hne : cs ≠ [])
    (h : ∀ e ∈ cs, '/' ∉ e) : splitSlash (joinSlash cs) = cs := by
  induction cs with
  | nil => exact absurd rfl hne
  | cons a t ih =>
    cases t with
    | nil => simpa [joinSlash] using splitSlash_noslash a (h a (by simp))
    | cons b u =>
      rw [joinSlash, splitSlash_append, splitSlash_noslash a (h a (by simp)),
        ih (by simp) (fun e he => h e (by simp [he]))]
      simp

theorem foldl_dotdots (dd : Nat) :
    ∀ k : Nat, (List.replicate dd ['.', '.']).foldl (cleanStep false) ⟨k, []⟩ = ⟨k + dd, []⟩ := by
  induction dd with
  | zero => intro k; simp
  | succ n ih =>
    intro k
    rw [List.replicate_succ, List.foldl_cons]
    have : cleanStep false ⟨k, []⟩ ['.', '.'] = ⟨k + 1, []⟩ := by simp [cleanStep]
    rw [this, ih]
    congr 1; omega

theorem foldl_elems (rooted : Bool) (norm : List GoString) :
    ∀ (dd : Nat) (l : List GoString), (∀ e ∈ norm, IsElem e) →
      norm.foldl (cleanStep rooted) ⟨dd, l⟩ = ⟨dd, l ++ norm⟩ := by
  induction norm with
  | nil => intro dd l _; simp
  | cons a t ih =>
    intro dd l h
    rw [List.foldl_cons, cleanStep_elem rooted _ a (h a (by simp)),
      ih dd (l ++ [a]) (fun e he => h e (by simp [he]))]
    simp

/-- Reading the buffer of a state gives that state back. -/
theorem cleanSem_render (rooted : Bool) (st : CleanState) (hv : st.Valid rooted) :
    cleanSem rooted (render rooted st) ⟨0, []⟩ = st := by
  have hsem : cleanSem rooted (joinSlash st.elems) ⟨0, []⟩ = st := by
    by_cases hne : st.elems = []
    · have h := (elems_eq_nil st).mp hne
      obtain ⟨dd, norm⟩ := st
      simp only at h
      obtain ⟨h1, h2⟩ := h
      subst h1 h2
      simp [CleanState.elems, joinSlash, cleanSem_nil]
    · have hsl : ∀ e ∈ st.elems, '/' ∉ e := by
        intro e he
        simp only [CleanState.elems, List.mem_append, List.mem_replicate] at he
        rcases he with ⟨_, rfl⟩ | he
        · simp
        · exact (hv.2 e he).2.2.2
      rw [cleanSem, splitSlash_joinSlash _ hne hsl, CleanState.elems, List.foldl_append]
      obtain ⟨dd, norm⟩ := st
      cases rooted with
      | true =>
        have hdd : dd = 0 := hv.1 rfl
        subst hdd
        simpa using foldl_elems true norm 0 [] hv.2
      | false =>
        rw [foldl_dotdots dd 0]
        simpa using foldl_elems false norm dd [] hv.2
  cases rooted with
  | true => simpa [render, cleanSem_slash] using hsem
  | false => simpa [render] using hsem

theorem render_eq_nil (rooted : Bool) (st : CleanState) (hv : st.Valid rooted)
    (h : render rooted st = []) : rooted = false ∧ st = ⟨0, []⟩ := by
  cases rooted with
  | true => simp [render] at h
  | false =>
    have h2 : joinSlash st.elems = [] := by simpa [render] using h
    have h3 := (elems_eq_nil st).mp ((joinSlash_eq_nil _ (elems_ne_nil false st hv)).mp h2)
    obtain ⟨dd, norm⟩ := st
    simp only at h3
    simp [h3.1, h3.2]

theorem isRooted_render_false (st : CleanState) (hv : st.Valid false) :
    isRooted (render false st) = false := by
  have hne := elems_ne_nil false st hv
  have hsl : ∀ e ∈ st.elems, '/' ∉ e := by
    intro e he
    simp only [CleanState.elems, List.mem_append, List.mem_replicate] at he
    rcases he with ⟨_, rfl⟩ | he
    · simp
    · exact (hv.2 e he).2.2.2
  simp only [render, Bool.false_eq_true, if_false, List.nil_append]
  cases hel : st.elems with
  | nil => simp [joinSlash, isRooted]
  | cons a t =>
    rw [hel] at hne hsl
    obtain ⟨x, u, rfl⟩ := List.exists_cons_of_ne_nil (hne a (by simp))
    have hx : x ≠ '/' := fun h => hsl (x :: u) (by simp) (by simp [h])
    cases t with
    | nil => simp [joinSlash, isRooted, hx]
    | cons b w => simp [joinSlash, isRooted, hx]

theorem cleanSpec_ne_nil (x : GoString) : cleanSpec x ≠ [] := by
  unfold cleanSpec
  simp only []
  split
  · simp
  · assumption

theorem isRooted_cleanSpec (x : GoString) : isRooted (cleanSpec x) = isRooted x := by
  have hv := cleanSem_valid (isRooted x) x ⟨0, []⟩ (valid_init_state _)
  unfold cleanSpec
  simp only []
  split
  · rename_i h
    rw [(render_eq_nil _ _ hv h).1]; rfl
  · cases hr : isRooted x with
    | true => simp [render, isRooted]
    | false =>
      rw [hr] at hv
      exact isRooted_render_false _ hv

theorem cleanSem_cleanSpec (x : GoString) :
    cleanSem (isRooted x) (cleanSpec x) ⟨0, []⟩ = cleanSem (isRooted x) x ⟨0, []⟩ := by
  have hv := cleanSem_valid (isRooted x) x ⟨0, []⟩ (valid_init_state _)
  unfold cleanSpec
  simp only []
  split
  · rename_i h
    rw [(render_eq_nil _ _ hv h).2]
    simp [cleanSem, splitSlash, cleanStep]
  · exact cleanSem_render _ _ hv

/-- Cleaning a cleaned path followed by one ordinary element keeps that element. -/
theorem Clean_append_elem (x d : GoString) (hd : IsElem d) :
    Clean (Clean x ++ '/' :: d) =
      render (isRooted x)
        ⟨(cleanSem (isRooted x) x ⟨0, []⟩).dd, (cleanSem (isRooted x) x ⟨0, []⟩).norm ++ [d]⟩ := by
  rw [Clean_eq_cleanSpec x, Clean_eq_cleanSpec, cleanSpec,
    isRooted_append _ _ (cleanSpec_ne_nil x), isRooted_cleanSpec, cleanSem_append,
    cleanSem_cleanSpec, cleanSem_elem _ _ _ hd]
  rw [if_neg]
  rw [render_push]
  split
  · cases isRooted x <;> simp [hd.1]
  · simp

/-- The three shapes of a cleaned path, and what joining an ordinary element gives. -/
theorem Clean_join_cases (x : GoString) :
    (Clean x = ['/'] ∧ ∀ d, IsElem d → Clean (Clean x ++ '/' :: d) = '/' :: d) ∨
    (Clean x = ['.'] ∧ ∀ d, IsElem d → Clean (Clean x ++ '/' :: d) = d) ∨
    (∀ d, IsElem d → Clean (Clean x ++ '/' :: d) = Clean x ++ '/' :: d) := by
  have hv := cleanSem_valid (isRooted x) x ⟨0, []⟩ (valid_init_state _)
  have hC : Clean x = if render (isRooted x) (cleanSem (isRooted x) x ⟨0, []⟩) = []
      then ['.'] else render (isRooted x) (cleanSem (isRooted x) x ⟨0, []⟩) := by
    rw [Clean_eq_cleanSpec, cleanSpec]
  have hA := Clean_append_elem x
  revert hv hC hA
  generalize cleanSem (isRooted x) x ⟨0, []⟩ = st
  generalize isRooted x = r
  intro hv hC hA
  obtain ⟨dd, norm⟩ := st
  by_cases hemp : dd = 0 ∧ norm = []
  · obtain ⟨h1, h2⟩ := hemp
    subst h1 h2
    cases r with
    | true =>
      left
      refine ⟨by rw [hC]; simp [render, CleanState.elems, joinSlash], ?_⟩
      intro d hd
      rw [hA d hd]; simp [render, CleanState.elems, joinSlash]
    | false =>
      right; left
      refine ⟨by rw [hC]; simp [render, CleanState.elems, joinSlash], ?_⟩
      intro d hd
      rw [hA d hd]; simp [render, CleanState.elems, joinSlash]
  · right; right
    intro d hd
    have hne : render r ⟨dd, norm⟩ ≠ [] := by
      intro h
      have := (render_eq_nil r _ hv h).2
      simp only [CleanState.mk.injEq] at this
      exact hemp this
    rw [hA d hd, hC, if_neg hne, render_push, if_neg hemp]

/-- A doubled slash after a non-empty beginning does not change the cleaned path. -/
theorem Clean_double_slash (a b : GoString) (ha : a ≠ []) :
    Clean (a ++ '/' :: '/' :: b) = Clean (a ++ '/' :: b) := by
  rw [Clean_eq_cleanSpec, Clean_eq_cleanSpec, cleanSpec, cleanSpec, isRooted_append _ _ ha,
    isRooted_append _ _ ha, cleanSem_append, cleanSem_append, cleanSem_slash]

theorem joinSlash_append (a b : List GoString) (ha : a ≠ []) (hb : b ≠ []) :
    joinSlash (a ++ b) = joinSlash a ++ '/' :: joinSlash b := by
  induction a with
  | nil => exact absurd rfl ha
  | cons x t ih =>
    cases t with
    | nil =>
      obtain ⟨y, u, rfl⟩ := List.exists_cons_of_ne_nil hb
      simp [joinSlash]
    | cons y u =>
      have := ih (by simp)
      simp only [List.cons_append] at this ⊢
      rw [joinSlash, this, joinSlash]
      simp

/-- The buffer after several more ordinary elements. -/
theorem render_append (rooted : Bool) (dd : Nat) (norm N : List GoString) (hN : N ≠ []) :
    render rooted ⟨dd, norm ++ N⟩ =
      if dd = 0 ∧ norm = [] then (if rooted then ['/'] else []) ++ joinSlash N
      else render rooted ⟨dd, norm⟩ ++ '/' :: joinSlash N := by
  by_cases h : dd = 0 ∧ norm = []
  · obtain ⟨h1, h2⟩ := h
    subst h1 h2
    simp [render, CleanState.elems]
  · rw [if_neg h]
    have hne : (CleanState.mk dd norm).elems ≠ [] := fun hh => h ((elems_eq_nil _).mp hh)
    have : (CleanState.mk dd (norm ++ N)).elems = (CleanState.mk dd norm).elems ++ N := by
      simp [CleanState.elems]
    rw [render, this, joinSlash_append _ _ hne hN, render]
    simp

theorem foldl_no_dotdot (rooted : Bool) (l : List GoString) (h : ['.', '.'] ∉ l)
    (hsl : ∀ e ∈ l, '/' ∉ e) :
    ∀ st : CleanState, l.foldl (cleanStep rooted) st =
      ⟨st.dd, st.norm ++ l.filter (fun e => decide (e ≠ [] ∧ e ≠ ['.']))⟩ := by
  induction l with
  | nil => intro st; simp
  | cons a t ih =>
    intro st
    have ht : ['.', '.'] ∉ t := fun hh => h (by simp [hh])
    have ha : a ≠ ['.', '.'] := fun hh => h (by simp [hh])
    rw [List.foldl_cons, ih ht (fun e he => hsl e (by simp [he]))]
    by_cases hk : a = [] ∨ a = ['.']
    · have hstep : cleanStep rooted st a = st := by simp [cleanStep, hk]
      have hf : ¬ (a ≠ [] ∧ a ≠ ['.']) := by tauto
      rw [hstep, List.filter_cons_of_neg (by simpa using hf)]
    · have hel : IsElem a := ⟨fun hh => hk (Or.inl hh), fun hh => hk (Or.inr hh), ha,
        hsl a (by simp)⟩
      have hf : a ≠ [] ∧ a ≠ ['.'] := ⟨hel.1, hel.2.1⟩
      rw [cleanStep_elem rooted st a hel, List.filter_cons_of_pos (by simpa using hf)]
      simp

theorem cleanSem_no_dotdot (rooted : Bool) (d : GoString) (st : CleanState)
    (h : ['.', '.'] ∉ splitSlash d) :
    cleanSem rooted d st = ⟨st.dd, st.norm ++ keptElems d⟩ :=
  foldl_no_dotdot rooted _ h (splitSlash_mem_noslash d) st

theorem keptElems_isElem (d : GoString) (h : ['.', '.'] ∉ splitSlash d) :
    ∀ e ∈ keptElems d, IsElem e := by
  intro e he
  simp only [keptElems, List.mem_filter, decide_eq_true_eq] at he
  exact ⟨he.2.1, he.2.2, fun hh => h (hh ▸ he.1), splitSlash_mem_noslash d e he.1⟩

theorem mem_splitSlash_of_mem (d : GoString) (c : Char) (hc : c ∈ d) (hne : c ≠ '/') :
    ∃ e ∈ splitSlash d, c ∈ e := by
  induction d with
  | nil => simp at hc
  | cons x t ih =>
    obtain ⟨h, u, hs⟩ := List.exists_cons_of_ne_nil (splitSlash_ne_nil t)
    by_cases hx : x = '/'
    · have hct : c ∈ t := by
        rcases List.mem_cons.mp hc with h1 | h1
        · exact absurd (h1.trans hx) hne
        · exact h1
      obtain ⟨e, he, hce⟩ := ih hct
      exact ⟨e, by simp [splitSlash, hx, he], hce⟩
    · rcases List.mem_cons.mp hc with h1 | h1
      · exact ⟨x :: h, by simp [splitSlash, hx, hs], by simp [h1]⟩
      · obtain ⟨e, he, hce⟩ := ih h1
        rw [hs] at he
        rcases List.mem_cons.mp he with h2 | h2
        · exact ⟨x :: h, by simp [splitSlash, hx, hs], by simp [← h2, hce]⟩
        · exact ⟨e, by simp [splitSlash, hx, hs, h2], hce⟩

theorem keptElems_ne_nil (d : GoString) (hd : '-' ∈ d) : keptElems d ≠ [] := by
  obtain ⟨e, he, hce⟩ := mem_splitSlash_of_mem d '-' hd (by decide)
  have : e ∈ keptElems d := by
    simp only [keptElems, List.mem_filter, decide_eq_true_eq]
    refine ⟨he, ?_, ?_⟩
    · intro hh; rw [hh] at hce; simp at hce
    · intro hh; rw [hh] at hce; simp at hce
  exact List.ne_nil_of_mem this

/-- Joining a path onto a non-empty beginning: its kept elements are all that matters. -/
theorem Clean_append_kept (a d : GoString) (ha : a ≠ []) (h : ['.', '.'] ∉ splitSlash d)
    (hne : keptElems d ≠ []) :
    Clean (a ++ '/' :: joinSlash (keptElems d)) = Clean (a ++ '/' :: d) := by
  have hel := keptElems_isElem d h
  rw [Clean_eq_cleanSpec, Clean_eq_cleanSpec, cleanSpec, cleanSpec, isRooted_append _ _ ha,
    isRooted_append _ _ ha, cleanSem_append, cleanSem_append, cleanSem_no_dotdot _ d _ h]
  rw [cleanSem, splitSlash_joinSlash _ hne (fun e he => (hel e he).2.2.2),
    foldl_elems _ _ _ _ hel]

/-- Cleaning a cleaned path followed by a path without `..` elements. -/
theorem Clean_append_path (x d : GoString) (h : ['.', '.'] ∉ splitSlash d)
    (hne : keptElems d ≠ []) :
    (Clean x = ['/'] ∧ Clean (Clean x ++ '/' :: d) = '/' :: joinSlash (keptElems d)) ∨
    (Clean x = ['.'] ∧ Clean (Clean x ++ '/' :: d) = joinSlash (keptElems d)) ∨
    (Clean (Clean x ++ '/' :: d) = Clean x ++ '/' :: joinSlash (keptElems d)) := by
  have hv := cleanSem_valid (isRooted x) x ⟨0, []⟩ (valid_init_state _)
  have hC : Clean x = if render (isRooted x) (cleanSem (isRooted x) x ⟨0, []⟩) = []
      then ['.'] else render (isRooted x) (cleanSem (isRooted x) x ⟨0, []⟩) := by
    rw [Clean_eq_cleanSpec, cleanSpec]
  have hjn : joinSlash (keptElems d) ≠ [] := by
    rw [Ne, joinSlash_eq_nil _ (fun e he => (keptElems_isElem d h e he).1)]
    exact hne
  have hA : Clean (Clean x ++ '/' :: d) = render (isRooted x)
      ⟨(cleanSem (isRooted x) x ⟨0, []⟩).dd,
        (cleanSem (isRooted x) x ⟨0, []⟩).norm ++ keptElems d⟩ := by
    rw [Clean_eq_cleanSpec x, Clean_eq_cleanSpec, cleanSpec,
      isRooted_append _ _ (cleanSpec_ne_nil x), isRooted_cleanSpec, cleanSem_append,
      cleanSem_cleanSpec, cleanSem_no_dotdot _ d _ h]
    rw [if_neg]
    rw [render_append _ _ _ _ hne]
    split
    · cases isRooted x <;> simp [hjn]
    · simp
  revert hv hC hA
  generalize cleanSem (isRooted x) x ⟨0, []⟩ = st
  generalize isRooted x = r
  intro hv hC hA
  obtain ⟨dd, norm⟩ := st
  by_cases hemp : dd = 0 ∧ norm = []
  · obtain ⟨h1, h2⟩ := hemp
    subst h1 h2
    cases r with
    | true =>
      left
      refine ⟨by rw [hC]; simp [render, CleanState.elems, joinSlash], ?_⟩
      rw [hA, render_append _ _ _ _ hne]; simp
    | false =>
      right; left
      refine ⟨by rw [hC]; simp [render, CleanState.elems, joinSlash], ?_⟩
      rw [hA, render_append _ _ _ _ hne]; simp
  · right; right
    have hne2 : render r ⟨dd, norm⟩ ≠ [] := by
      intro hh
      have := (render_eq_nil r _ hv hh).2
      simp only [CleanState.mk.injEq] at this
      exact hemp this
    rw [hA, hC, if_neg hne2, render_append _ _ _ _ hne, if_neg hemp]

theorem Join_pair (a b : GoString) (ha : a ≠ []) : Join [a, b] = Clean (a ++ '/' :: b) := by
  have hlen : 0 < a.length := List.length_pos.mpr ha
  have hsum : ¬ (a.length + b.length = 0) := by omega
  simp [Join, joinBuf, hsum, ha, hlen]

theorem Join_pair_nil (b : GoString) (hb : b ≠ []) : Join [[], b] = Clean b := by
  have hlen : 0 < b.length := List.length_pos.mpr hb
  have hsum : ¬ (b.length = 0) := by omega
  simp [Join, joinBuf, hsum, hb]

theorem ReplaceFirst_append (a b : GoString) (ha : a ≠ []) : ReplaceFirst (a ++ b) a [] = b := by
  obtain ⟨c, cs, hcs⟩ := List.exists_cons_of_ne_nil (show a ++ b ≠ [] by simp [ha])
  have hp : a.isPrefixOf (c :: cs) = true := by
    rw [← hcs, List.isPrefixOf_iff_prefix]; exact List.prefix_append a b
  rw [hcs, ReplaceFirst, if_pos hp, ← hcs]
  simp

theorem HasPrefix_append (a b : GoString) : HasPrefix (a ++ b) a = true := by
  rw [HasPrefix, List.isPrefixOf_iff_prefix]; exact List.prefix_append a b

theorem dash_mem_dirname (o : ProvisionOptions) (d : GoString)
    (h : getDirectoryName o = .ok d) : '-' ∈ d := by
  unfold getDirectoryName at h
  split at h
  · simp at h
  · split at h
    · simp only [Except.ok.injEq] at h
      rw [← h]; simp
    · simp only [Except.ok.injEq] at h
      rw [← h]; simp

/-! ## UTF-8 and JSON: decoding what `MarshalIndent` wrote -/

set_option maxRecDepth 100000 in
theorem toNat_ofNat_byte : ∀ k, k < 256 → (Char.ofNat k).toNat = k := by
  decide

theorem char_valid (c : Char) :
    c.toNat < 0xD800 ∨ (0xDFFF < c.toNat ∧ c.toNat < 0x110000) := c.valid

theorem utf8_arith2 (n : Nat) (h2 : n < 0x800) :
    (192 + n / 64) % 32 * 64 + (128 + n % 64) % 64 = n := by
  have hq : (192 + n / 64) % 32 = n / 64 := by omega
  have hr : (128 + n % 64) % 64 = n % 64 := by omega
  rw [hq, hr]; omega

theorem utf8_arith3 (n : Nat) (h2 : n < 0x10000) :
    ((224 + n / 4096) % 16 * 64 + (128 + n / 64 % 64) % 64) * 64 + (128 + n % 64) % 64 = n := by
  have hq : (224 + n / 4096) % 16 = n / 4096 := by omega
  have hr : (128 + n / 64 % 64) % 64 = n / 64 % 64 := by omega
  have hs : (128 + n % 64) % 64 = n % 64 := by omega
  rw [hq, hr, hs]; omega

theorem utf8_arith4 (n : Nat) (h2 : n < 0x110000) :
    (((240 + n / 262144) % 8 * 64 + (128 + n / 4096 % 64) % 64) * 64
      + (128 + n / 64 % 64) % 64) * 64 + (128 + n % 64) % 64 = n := by
  have hq : (240 + n / 262144) % 8 = n / 262144 := by omega
  have hr : (128 + n / 4096 % 64) % 64 = n / 4096 % 64 := by omega
  have hs : (128 + n / 64 % 64) % 64 = n / 64 % 64 := by omega
  have ht : (128 + n % 64) % 64 = n % 64 := by omega
  rw [hq, hr, hs, ht]; omega

/-- Decoding the UTF-8 encoding of a rune outside ASCII gives the rune and the width of its
encoding. -/
theorem decodeRune_utf8Encode (c : Char) (rest : GoString) (h : 0x80 ≤ c.toNat) :
    decodeRune (utf8Encode c ++ rest) = (some c.toNat, (utf8Encode c).length) ∧
    (∃ b t, utf8Encode c = b :: t ∧ 0x80 ≤ b.toNat ∧ b.toNat < 256 ∧ b ≠ '"' ∧ b ≠ '\\') := by
  have hv := char_valid c
  have hasc : ¬ c.toNat < 0x80 := by omega
  have hq : ∀ k, 0x80 ≤ k → k < 256 → Char.ofNat k ≠ '"' ∧ Char.ofNat k ≠ '\\' := by
    intro k h1 h2
    constructor
    · intro hk
      have := congrArg Char.toNat hk
      rw [toNat_ofNat_byte k h2] at this
      have h34 : ('"' : Char).toNat = 34 := rfl
      omega
    · intro hk
      have := congrArg Char.toNat hk
      rw [toNat_ofNat_byte k h2] at this
      have h92 : ('\\' : Char).toNat = 92 := rfl
      omega
  unfold utf8Encode
  rw [if_neg hasc]
  by_cases h2 : c.toNat < 0x800
  · rw [if_pos h2]
    have e0 := toNat_ofNat_byte (0xC0 + c.toNat / 64) (by omega)
    have e1 := toNat_ofNat_byte (0x80 + c.toNat % 64) (by omega)
    refine ⟨?_, _, _, rfl, by omega, by omega, hq _ (by omega) (by omega)⟩
    generalize Char.ofNat (0xC0 + c.toNat / 64) = b0 at e0 ⊢
    generalize Char.ofNat (0x80 + c.toNat % 64) = b1 at e1 ⊢
    generalize c.toNat = n at *
    simp only [List.cons_append, List.nil_append, decodeRune, e0, e1, List.length_cons,
      List.length_nil]
    rw [if_neg (by omega), if_neg (by omega), if_pos (by omega), if_neg (by omega),
      utf8_arith2 n h2]
  · rw [if_neg h2]
    by_cases h3 : c.toNat < 0x10000
    · rw [if_pos h3]
      have e0 := toNat_ofNat_byte (0xE0 + c.toNat / 4096) (by omega)
      have e1 := toNat_ofNat_byte (0x80 + c.toNat / 64 % 64) (by omega)
      have e2 := toNat_ofNat_byte (0x80 + c.toNat % 64) (by omega)
      refine ⟨?_, _, _, rfl, by omega, by omega, hq _ (by omega) (by omega)⟩
      generalize Char.ofNat (0xE0 + c.toNat / 4096) = b0 at e0 ⊢
      generalize Char.ofNat (0x80 + c.toNat / 64 % 64) = b1 at e1 ⊢
      generalize Char.ofNat (0x80 + c.toNat % 64) = b2 at e2 ⊢
      generalize c.toNat = n at *
      simp only [List.cons_append, List.nil_append, decodeRune, e0, e1, e2, List.length_cons,
        List.length_nil]
      rw [if_neg (by omega), if_neg (by omega), if_neg (by omega), if_pos (by omega),
        if_neg (by split_ifs <;> omega), if_neg (by omega), utf8_arith3 n h3]
    · rw [if_neg h3]
      have e0 := toNat_ofNat_byte (0xF0 + c.toNat / 262144) (by omega)
      have e1 := toNat_ofNat_byte (0x80 + c.toNat / 4096 % 64) (by omega)
      have e2 := toNat_ofNat_byte (0x80 + c.toNat / 64 % 64) (by omega)
      have e3 := toNat_ofNat_byte (0x80 + c.toNat % 64) (by omega)
      refine ⟨?_, _, _, rfl, by omega, by omega, hq _ (by omega) (by omega)⟩
      generalize Char.ofNat (0xF0 + c.toNat / 262144) = b0 at e0 ⊢
      generalize Char.ofNat (0x80 + c.toNat / 4096 % 64) = b1 at e1 ⊢
      generalize Char.ofNat (0x80 + c.toNat / 64 % 64) = b2 at e2 ⊢
      generalize Char.ofNat (0x80 + c.toNat % 64) = b3 at e3 ⊢
      generalize c.toNat = n at *
      simp only [List.cons_append, List.nil_append, decodeRune, e0, e1, e2, e3,
        List.length_cons, List.length_nil]
      rw [if_neg (by omega), if_neg (by omega), if_neg (by omega), if_neg (by omega),
        if_pos (by omega), if_neg (by split_ifs <;> omega), if_neg (by omega),
        if_neg (by omega), utf8_arith4 n (by omega)]

theorem utf8Encode_ascii (c : Char) (h : c.toNat < 0x80) : utf8Encode c = [c] := by
  simp [utf8Encode, h]

theorem utf8_cons (c : Char) (cs : List Char) : utf8 (c :: cs) = utf8Encode c ++ utf8 cs := by
  simp [utf8]

theorem utf8Encode_length_pos (c : Char) : 0 < (utf8Encode c).length := by
  unfold utf8Encode
  split_ifs <;> simp

theorem decodeRune_local (b : Char) (t : GoString) (r n : Nat) (hb : 0x80 ≤ b.toNat)
    (h : decodeRune (b :: t) = (some r, n)) :
    1 ≤ n ∧ n ≤ (b :: t).length ∧ ∀ u, decodeRune ((b :: t).take n ++ u) = (some r, n) := by
  have hasc : ¬ b.toNat < 0x80 := by omega
  rcases t with _ | ⟨s1, _ | ⟨s2, _ | ⟨s3, t3⟩⟩⟩
  · simp only [decodeRune, hasc, if_false] at h
    split_ifs at h <;> simp at h
  · simp only [decodeRune, hasc, if_false] at h
    split_ifs at h <;> simp only [Prod.mk.injEq, Option.some.injEq, reduceCtorEq, false_and] at h
    all_goals
      obtain ⟨rfl, rfl⟩ := h
      refine ⟨by omega, by simp, fun u => ?_⟩
      simp [decodeRune, *]
  · simp only [decodeRune, hasc, if_false] at h
    split_ifs at h <;> simp only [Prod.mk.injEq, Option.some.injEq, reduceCtorEq, false_and] at h
    all_goals
      obtain ⟨rfl, rfl⟩ := h
      refine ⟨by omega, by simp, fun u => ?_⟩
      first
        | (simp [decodeRune, *]; done)
        | (exfalso; omega)
  · simp only [decodeRune, hasc, if_false] at h
    split_ifs at h <;> simp only [Prod.mk.injEq, Option.some.injEq, reduceCtorEq, false_and] at h
    all_goals
      obtain ⟨rfl, rfl⟩ := h
      refine ⟨by omega, by simp, fun u => ?_⟩
      first
        | (simp [decodeRune, *]; done)
        | (exfalso; omega)

theorem byte_ne_quote (b : Char) (hb : 0x80 ≤ b.toNat) : b ≠ '"' ∧ b ≠ '\\' := by
  constructor
  · intro hk
    have := congrArg Char.toNat hk
    have h34 : ('"' : Char).toNat = 34 := rfl
    omega
  · intro hk
    have := congrArg Char.toNat hk
    have h92 : ('\\' : Char).toNat = 92 := rfl
    omega

theorem jsonEscape_length_pos (c : Char) : 0 < (jsonEscape c).length := by
  unfold jsonEscape
  split_ifs <;> simp


set_option maxRecDepth 100000 in
theorem hex4_byte : ∀ n, n < 256 →
    hex4 '0' '0' (hexDigit (n / 16)) (hexDigit (n % 16)) = some n := by
  decide

/-- Decoding the escaped form of an ASCII byte, in front of any input, yields the byte. -/
theorem parseStringBody_escape (c : Char) (hc : c.toNat < 0x80) (fuel : Nat)
    (rest acc : GoString) :
    parseStringBody (fuel + 1) (jsonEscape c ++ rest) acc
      = parseStringBody fuel rest (acc ++ [c]) := by
  have henc : encodeRune c.toNat = [c] := by
    rw [encodeRune, Char.ofNat_toNat, utf8Encode_ascii c hc]
  unfold jsonEscape
  split
  · rename_i h
    rcases h with h | h <;> subst h <;> simp [parseStringBody]
  · rename_i h1
    split
    · rename_i h; subst h; simp [parseStringBody]
    · split
      · rename_i h; subst h; simp [parseStringBody]
      · split
        · rename_i h; subst h; simp [parseStringBody]
        · rename_i h2 h3 h4
          split
          · rename_i h
            have hx := hex4_byte c.toNat (by omega)
            have hs : ¬ (0xD800 ≤ c.toNat ∧ c.toNat < 0xE000) := by omega
            simp [parseStringBody, hx, hs, henc]
          · rename_i h5
            have hq : c ≠ '"' := fun h => h1 (Or.inr h)
            have hb : c ≠ '\\' := fun h => h1 (Or.inl h)
            have hc2 : ¬ c.toNat < 0x20 := fun h => h5 (Or.inl h)
            simp [parseStringBody, hq, hb, hc2, hc]

/-- Decoding what the encoder wrote, in front of a closing quote and any input, yields the
string with each invalid byte replaced by U+FFFD. -/
theorem parseStringBody_encode : ∀ (fuel : Nat) (s : GoString), s.length ≤ fuel →
    ∀ (fuel2 : Nat) (rest acc : GoString), (encodeStringBody fuel s).length + 1 ≤ fuel2 →
      parseStringBody fuel2 (encodeStringBody fuel s ++ '"' :: rest) acc
        = some (acc ++ coerceLoop fuel s, rest) := by
  intro fuel
  induction fuel with
  | zero =>
    intro s hs fuel2 rest acc hf
    obtain ⟨n, rfl⟩ : ∃ n, fuel2 = n + 1 := ⟨fuel2 - 1, by omega⟩
    simp [encodeStringBody, coerceLoop, parseStringBody]
  | succ fuel ih =>
    intro s hs fuel2 rest acc hf
    obtain ⟨n, rfl⟩ : ∃ n, fuel2 = n + 1 := ⟨fuel2 - 1, by omega⟩
    cases s with
    | nil => simp [encodeStringBody, coerceLoop, parseStringBody]
    | cons b t =>
      simp only [List.length_cons, Nat.add_le_add_iff_right] at hs
      by_cases hb : b.toNat < 0x80
      · have henc : encodeStringBody (fuel + 1) (b :: t)
            = jsonEscape b ++ encodeStringBody fuel t := by
          simp only [encodeStringBody, hb, if_true]
        have hrep : coerceLoop (fuel + 1) (b :: t) = b :: coerceLoop fuel t := by
          have hd : decodeRune (b :: t) = (some b.toNat, 1) := by simp [decodeRune, hb]
          simp only [coerceLoop, hd, encodeRune, Char.ofNat_toNat,
            utf8Encode_ascii b hb, List.drop_succ_cons, List.drop_zero, List.singleton_append]
        have hpos := jsonEscape_length_pos b
        rw [henc, List.length_append] at hf
        rw [henc, hrep, List.append_assoc, parseStringBody_escape b hb,
          ih t hs n rest (acc ++ [b]) (by omega)]
        simp
      · have hb1 : 0x80 ≤ b.toNat := by omega
        obtain ⟨hq, hbs⟩ := byte_ne_quote b hb1
        cases hdec : decodeRune (b :: t) with
        | mk o size =>
          cases o with
          | none =>
            have henc : encodeStringBody (fuel + 1) (b :: t)
                = ['\\', 'u', 'f', 'f', 'f', 'd'] ++ encodeStringBody fuel t := by
              simp only [encodeStringBody, hb, if_false, hdec]
            have hrep : coerceLoop (fuel + 1) (b :: t)
                = encodeRune 0xFFFD ++ coerceLoop fuel t := by
              simp only [coerceLoop, hdec]
            have hx : hex4 'f' 'f' 'f' 'd' = some 0xFFFD := by decide
            rw [henc, List.length_append] at hf
            simp only [List.length_cons, List.length_nil] at hf
            rw [henc, hrep]
            simp only [List.cons_append, List.nil_append, parseStringBody, hx]
            simp only [show ('\\' : Char) ≠ '"' by decide, if_false, if_true]
            rw [if_neg (by omega), ih t hs n rest _ (by omega)]
            simp
          | some r =>
            obtain ⟨h1, h2, hloc⟩ := decodeRune_local b t r size hb1 hdec
            have hdl : ((b :: t).drop size).length ≤ fuel := by
              simp only [List.length_drop, List.length_cons]; omega
            have hrep : coerceLoop (fuel + 1) (b :: t)
                = encodeRune r ++ coerceLoop fuel ((b :: t).drop size) := by
              simp only [coerceLoop, hdec]
            by_cases hsp : r = 0x2028 ∨ r = 0x2029
            · have henc : encodeStringBody (fuel + 1) (b :: t)
                  = ['\\', 'u', '2', '0', '2', hexDigit (r % 16)]
                    ++ encodeStringBody fuel ((b :: t).drop size) := by
                simp only [encodeStringBody, hb, if_false, hdec, hsp, if_true]
              have hx : hex4 '2' '0' '2' (hexDigit (r % 16)) = some r := by
                rcases hsp with h | h <;> rw [h] <;> decide
              have hs2 : ¬ (0xD800 ≤ r ∧ r < 0xE000) := by
                rcases hsp with h | h <;> omega
              rw [henc, List.length_append] at hf
              simp only [List.length_cons, List.length_nil] at hf
              rw [henc, hrep]
              simp only [List.cons_append, List.nil_append, parseStringBody, hx]
              simp only [show ('\\' : Char) ≠ '"' by decide, if_false, if_true]
              rw [if_neg hs2, ih _ hdl n rest _ (by omega)]
              simp
            · have henc : encodeStringBody (fuel + 1) (b :: t)
                  = (b :: t).take size ++ encodeStringBody fuel ((b :: t).drop size) := by
                simp only [encodeStringBody, hb, if_false, hdec, hsp]
              obtain ⟨k, rfl⟩ : ∃ k, size = k + 1 := ⟨size - 1, by omega⟩
              have hl := hloc (encodeStringBody fuel ((b :: t).drop (k + 1)) ++ '"' :: rest)
              have htl : ((b :: t).take (k + 1)).length = k + 1 := by
                rw [List.length_take]; omega
              have hdrop : List.drop (k + 1) ((b :: t).take (k + 1)
                  ++ (encodeStringBody fuel ((b :: t).drop (k + 1)) ++ '"' :: rest))
                  = encodeStringBody fuel ((b :: t).drop (k + 1)) ++ '"' :: rest := by
                rw [List.drop_append_eq_append_drop, htl, Nat.sub_self, List.drop_zero,
                  List.drop_of_length_le (by omega)]
                rfl
              rw [henc, List.length_append, htl] at hf
              rw [henc, hrep, List.append_assoc]
              generalize hX : encodeStringBody fuel ((b :: t).drop (k + 1)) ++ '"' :: rest = X
                at hl hdrop
              rw [List.take_succ_cons] at hl hdrop ⊢
              rw [List.cons_append] at hl hdrop ⊢
              simp only [parseStringBody, hq, hbs, if_false, show ¬ b.toNat < 0x20 by omega,
                hb, hl, hdrop]
              rw [← hX, ih _ hdl n rest _ (by omega)]
              simp

/-- Valid UTF-8 goes through `encoding/json` unchanged. -/
theorem coerceLoop_utf8 (runes : List Char) :
    ∀ fuel, (utf8 runes).length ≤ fuel → coerceLoop fuel (utf8 runes) = utf8 runes := by
  induction runes with
  | nil =>
    intro fuel _
    cases fuel <;> simp [utf8, coerceLoop]
  | cons c cs ih =>
    intro fuel hf
    have hpos := utf8Encode_length_pos c
    rw [utf8_cons, List.length_append] at hf
    obtain ⟨n, rfl⟩ : ∃ n, fuel = n + 1 := ⟨fuel - 1, by omega⟩
    rw [utf8_cons]
    by_cases h : c.toNat < 0x80
    · have hd : ∀ t, decodeRune (c :: t) = (some c.toNat, 1) := by
        intro t; simp [decodeRune, h]
      rw [utf8Encode_ascii c h] at hf ⊢
      simp only [List.singleton_append, coerceLoop, hd, encodeRune, Char.ofNat_toNat,
        utf8Encode_ascii c h, List.drop_succ_cons, List.drop_zero]
      rw [ih n (by simp at hf; omega)]
    · obtain ⟨hdec, b, t, hbt, _⟩ := decodeRune_utf8Encode c (utf8 cs) (by omega)
      rw [hbt] at hdec hf ⊢
      simp only [List.cons_append] at hdec ⊢
      have hdrop : List.drop (b :: t).length (b :: (t ++ utf8 cs)) = utf8 cs := by simp
      simp only [coerceLoop, hdec, hdrop, encodeRune, Char.ofNat_toNat, hbt]
      simp only [List.length_cons] at hf
      rw [ih n (by omega)]
      rfl

theorem coerceUTF8_of_valid (s : GoString) (h : ValidUTF8 s) : coerceUTF8 s = s := by
  obtain ⟨runes, rfl⟩ := h
  exact coerceLoop_utf8 runes _ (le_refl _)

/-- What comes out of `encoding/json` is valid UTF-8. -/
theorem coerceLoop_valid : ∀ (fuel : Nat) (s : GoString), ValidUTF8 (coerceLoop fuel s) := by
  intro fuel
  induction fuel with
  | zero => intro s; exact ⟨[], rfl⟩
  | succ fuel ih =>
    intro s
    cases s with
    | nil => exact ⟨[], rfl⟩
    | cons b t =>
      cases hdec : decodeRune (b :: t) with
      | mk o size =>
        cases o with
        | none =>
          obtain ⟨runes, hr⟩ := ih t
          refine ⟨Char.ofNat 0xFFFD :: runes, ?_⟩
          simp only [coerceLoop, hdec, hr, encodeRune, utf8_cons]
        | some r =>
          obtain ⟨runes, hr⟩ := ih ((b :: t).drop size)
          refine ⟨Char.ofNat r :: runes, ?_⟩
          simp only [coerceLoop, hdec, hr, encodeRune, utf8_cons]

/-- A string goes through `encoding/json` unchanged exactly when it is valid UTF-8. -/
theorem coerceUTF8_eq_iff (s : GoString) : coerceUTF8 s = s ↔ ValidUTF8 s := by
  constructor
  · intro h
    rw [← h]
    exact coerceLoop_valid _ _
  · exact coerceUTF8_of_valid s

theorem skipWs_quote (s : GoString) : skipWs ('"' :: s) = '"' :: s := by
  simp [skipWs, isSpace]

/-- Parsing a string literal written by `jsonQuote` yields the coerced string. -/
theorem parseValue_quote (fuel : Nat) (s rest : GoString) :
    parseValue (fuel + 1) (jsonQuote s ++ rest) = some (.string (coerceUTF8 s), rest) := by
  have h := parseStringBody_encode s.length s (le_refl _)
    (encodeStringBody s.length s ++ '"' :: rest).length rest [] (by simp)
  have hq : jsonQuote s ++ rest = '"' :: (encodeStringBody s.length s ++ '"' :: rest) := by
    simp [jsonQuote]
  rw [hq, parseValue]
  simp only [if_true, h, List.nil_append, coerceUTF8]

theorem parseMembers_member (fuel : Nat) (key val rest : GoString)
    (acc : List (GoString × JValue)) (e : Char) (r4 : GoString) (hrest : skipWs rest = e :: r4) :
    parseMembers (fuel + 2) (jsonQuote key ++ (':' :: ' ' :: (jsonQuote val ++ rest))) acc =
      if e = ',' then
        parseMembers (fuel + 1) (skipWs r4) (acc ++ [(coerceUTF8 key, .string (coerceUTF8 val))])
      else if e = '}' then
        some (.object (acc ++ [(coerceUTF8 key, .string (coerceUTF8 val))]), r4)
      else none := by
  have hv2 := parseValue_quote fuel val rest
  have h := parseStringBody_encode key.length key (le_refl _)
    (encodeStringBody key.length key ++ '"' :: (':' :: ' ' :: (jsonQuote val ++ rest))).length
    (':' :: ' ' :: (jsonQuote val ++ rest)) [] (by simp)
  have hws : skipWs (' ' :: (jsonQuote val ++ rest)) = jsonQuote val ++ rest := by
    simp [skipWs, isSpace, jsonQuote]
  have hws2 : skipWs (':' :: ' ' :: (jsonQuote val ++ rest))
      = ':' :: ' ' :: (jsonQuote val ++ rest) := by simp [skipWs, isSpace]
  have hq : jsonQuote key ++ (':' :: ' ' :: (jsonQuote val ++ rest))
      = '"' :: (encodeStringBody key.length key
          ++ '"' :: (':' :: ' ' :: (jsonQuote val ++ rest))) := by
    simp [jsonQuote]
  rw [hq, parseMembers]
  simp only [if_true, h, List.nil_append, hws2, hws, hv2, hrest, coerceUTF8]

/-- One member `"key": "val",` written by `MarshalIndent`, read by `parseMembers`. -/
theorem parseMembers_comma (fuel : Nat) (key val rest : GoString)
    (acc : List (GoString × JValue)) :
    parseMembers (fuel + 2)
        (jsonQuote key ++ (':' :: ' ' :: (jsonQuote val ++ (',' :: '\n' :: ' ' :: ' ' :: rest)))) acc
      = parseMembers (fuel + 1) (skipWs rest)
          (acc ++ [(coerceUTF8 key, .string (coerceUTF8 val))]) := by
  rw [parseMembers_member fuel key val _ acc ',' ('\n' :: ' ' :: ' ' :: rest)
    (by simp [skipWs, isSpace])]
  simp [skipWs, isSpace]

/-- The last member written by `MarshalIndent`, read by `parseMembers`. -/
theorem parseMembers_last (fuel : Nat) (key val : GoString) (acc : List (GoString × JValue)) :
    parseMembers (fuel + 2) (jsonQuote key ++ (':' :: ' ' :: (jsonQuote val ++ ['\n', '}']))) acc
      = some (.object (acc ++ [(coerceUTF8 key, .string (coerceUTF8 val))]), []) := by
  rw [parseMembers_member fuel key val _ acc '}' [] (by simp [skipWs, isSpace])]
  simp

theorem MarshalIndent_eq (md : VolumeMetadata) :
    MarshalIndent md = '{' :: '\n' :: ' ' :: ' ' ::
      (jsonQuote "gid".toList ++ (':' :: ' ' :: (jsonQuote md.GID ++
      (',' :: '\n' :: ' ' :: ' ' ::
      (jsonQuote "pvcName".toList ++ (':' :: ' ' :: (jsonQuote md.PVCName ++
      (',' :: '\n' :: ' ' :: ' ' ::
      (jsonQuote "pvcNamespace".toList ++ (':' :: ' ' :: (jsonQuote md.PVCNamespace ++
      (',' :: '\n' :: ' ' :: ' ' ::
      (jsonQuote "storageClassName".toList ++ (':' :: ' ' :: (jsonQuote md.StorageClassName ++
      ['\n', '}']))))))))))))))) := by
  have e1 : "  \"gid\": ".toList = ' ' :: ' ' :: (jsonQuote "gid".toList ++ [':', ' ']) := by
    decide
  have e2 : "  \"pvcName\": ".toList
      = ' ' :: ' ' :: (jsonQuote "pvcName".toList ++ [':', ' ']) := by decide
  have e3 : "  \"pvcNamespace\": ".toList
      = ' ' :: ' ' :: (jsonQuote "pvcNamespace".toList ++ [':', ' ']) := by decide
  have e4 : "  \"storageClassName\": ".toList
      = ' ' :: ' ' :: (jsonQuote "storageClassName".toList ++ [':', ' ']) := by decide
  rw [MarshalIndent, e1, e2, e3, e4]
  simp only [List.cons_append, List.append_assoc, List.nil_append, List.singleton_append]

theorem skipWs_jsonQuote (k s : GoString) : skipWs (jsonQuote k ++ s) = jsonQuote k ++ s := by
  simp [jsonQuote, skipWs, isSpace]

theorem MarshalIndent_length (md : VolumeMetadata) : 6 ≤ (MarshalIndent md).length := by
  rw [MarshalIndent_eq]
  simp only [List.length_cons, List.length_append]
  omega

theorem validUTF8_ascii (s : GoString) (h : ∀ c ∈ s, c.toNat < 0x80) : ValidUTF8 s := by
  refine ⟨s, ?_⟩
  induction s with
  | nil => rfl
  | cons c cs ih =>
    rw [utf8_cons, utf8Encode_ascii c (h c (by simp)), ← ih (fun x hx => h x (by simp [hx]))]
    rfl

/-- The decoder reads back what `MarshalIndent` wrote, with every invalid byte replaced by
U+FFFD. -/
theorem Decode_MarshalIndent (md : VolumeMetadata) :
    Decode (MarshalIndent md) = some md.coerced := by
  have k0 : coerceUTF8 "gid".toList = "gid".toList := by decide
  have k1 : coerceUTF8 "pvcName".toList = "pvcName".toList := by decide
  have k2 : coerceUTF8 "pvcNamespace".toList = "pvcNamespace".toList := by decide
  have k3 : coerceUTF8 "storageClassName".toList = "storageClassName".toList := by decide
  have hlen := MarshalIndent_length md
  obtain ⟨n, hn⟩ : ∃ n, (MarshalIndent md).length + 1 = n + 6 :=
    ⟨(MarshalIndent md).length - 5, by omega⟩
  have hparse : parseValue (n + 6) (skipWs (MarshalIndent md)) =
      some (.object [("gid".toList, .string (coerceUTF8 md.GID)),
        ("pvcName".toList, .string (coerceUTF8 md.PVCName)),
        ("pvcNamespace".toList, .string (coerceUTF8 md.PVCNamespace)),
        ("storageClassName".toList, .string (coerceUTF8 md.StorageClassName))], []) := by
    rw [MarshalIndent_eq]
    have h0 : ∀ s : GoString, skipWs ('{' :: s) = '{' :: s := by
      intro s; simp [skipWs, isSpace]
    have h1 : ∀ s : GoString, skipWs ('\n' :: ' ' :: ' ' :: (jsonQuote "gid".toList ++ s))
        = '"' :: (encodeStringBody "gid".toList.length "gid".toList ++ ['"'] ++ s) := by
      intro s; simp [skipWs, isSpace, jsonQuote]
    have h2 : ∀ s : GoString,
        '"' :: (encodeStringBody "gid".toList.length "gid".toList ++ ['"'] ++ s)
          = jsonQuote "gid".toList ++ s := by
      intro s; simp [jsonQuote]
    rw [h0, parseValue]
    simp only [h1]
    simp only [if_true]
    rw [if_neg (by decide), h2, parseMembers_comma (n + 3),
      skipWs_jsonQuote, parseMembers_comma (n + 2), skipWs_jsonQuote,
      parseMembers_comma (n + 1), skipWs_jsonQuote,
      parseMembers_last n, k0, k1, k2, k3]
    simp
  have f0 : fieldIndex "gid".toList = some 0 := by decide
  have f1 : fieldIndex "pvcName".toList = some 1 := by decide
  have f2 : fieldIndex "pvcNamespace".toList = some 2 := by decide
  have f3 : fieldIndex "storageClassName".toList = some 3 := by decide
  rw [Decode, hn, hparse]
  simp only [unmarshalMembers, f0, f1, f2, f3, VolumeMetadata.setField,
    VolumeMetadata.coerced]

theorem coerced_of_valid (md : VolumeMetadata) (hmd : md.Valid) : md.coerced = md := by
  obtain ⟨v0, v1, v2, v3⟩ := hmd
  simp only [VolumeMetadata.coerced, coerceUTF8_of_valid _ v0, coerceUTF8_of_valid _ v1,
    coerceUTF8_of_valid _ v2, coerceUTF8_of_valid _ v3]
/-! ## File system lemmas -/

theorem lookup_filter_ne (l : List (GoString × Node)) (k k' : GoString) (h : k ≠ k') :
    (l.filter (fun kv => decide (kv.1 ≠ k'))).lookup k = l.lookup k := by
  induction l with
  | nil => simp
  | cons a t ih =>
    obtain ⟨ka, na⟩ := a
    by_cases hk : ka = k'
    · subst hk
      have hne : (k == ka) = false := by simpa using h
      simp only [List.filter, ne_eq, not_true_eq_false, decide_False, List.lookup, hne]
      exact ih
    · have hd : decide (ka ≠ k') = true := by simpa using hk
      simp only [List.filter, hd, List.lookup]
      split <;> simp_all

theorem FileSystem.get_set_same (fs : FileSystem) (p : GoString) (n : Node) :
    (fs.set p n).get p = some n := by
  simp [FileSystem.get, FileSystem.set]

theorem FileSystem.get_set_other (fs : FileSystem) (p q : GoString) (n : Node)
    (h : Clean q ≠ Clean p) : (fs.set p n).get q = fs.get q := by
  have hne : (Clean q == Clean p) = false := by simpa using h
  simp only [FileSystem.get, FileSystem.set, List.lookup, hne]
  exact lookup_filter_ne _ _ _ h

/-- After a successful `WriteVolumeMetadata` the record is read back with every invalid byte
replaced by U+FFFD. -/
theorem read_after_write (fs fs1 : FileSystem) (dir : GoString) (md : VolumeMetadata)
    (h : WriteVolumeMetadata fs dir md = (none, fs1)) :
    ReadVolumeMetadata fs1 dir = .ok (some md.coerced) := by
  unfold WriteVolumeMetadata at h
  simp only [] at h
  cases hw : fs.WriteFile (getMetaDataPath dir) (MarshalIndent md) with
  | none => simp [hw] at h
  | some fs2 =>
    simp only [hw, Prod.mk.injEq, true_and] at h
    subst h
    have hfs : fs2 = fs.set (getMetaDataPath dir) (.file (MarshalIndent md)) := by
      unfold FileSystem.WriteFile at hw
      split at hw <;> simp_all
    have hread : fs2.Read (getMetaDataPath dir) = .data (MarshalIndent md) := by
      rw [hfs, FileSystem.Read, FileSystem.get_set_same]
    simp only [ReadVolumeMetadata, hread, Decode_MarshalIndent md]
/-! ## Decimal numbers: parsing what `Itoa` wrote -/

theorem digitsValue_ge (ds : GoString) : ∀ n, n ≤ digitsValue ds n := by
  induction ds with
  | nil => intro n; exact le_refl n
  | cons c cs ih =>
    intro n
    exact le_trans (by omega) (ih (n * 10 + (c.toNat - 48)))

theorem digitsValue_append (a b : GoString) (n : Nat) :
    digitsValue (a ++ b) n = digitsValue b (digitsValue a n) := by
  induction a generalizing n with
  | nil => rfl
  | cons c cs ih => simp [digitsValue, ih]

theorem isDigit_ofNat (d : Nat) (hd : d < 10) :
    isDigit (Char.ofNat (48 + d)) = true ∧ (Char.ofNat (48 + d)).toNat - 48 = d := by
  interval_cases d <;> decide

/-- `formatDigits` writes digits that denote `n`, at most `fuel` of them. -/
theorem formatDigits_spec : ∀ (fuel n : Nat) (acc : GoString), 0 < fuel → n < 10 ^ fuel →
    ∃ ds : GoString, formatDigits fuel n acc = ds ++ acc ∧ ds ≠ [] ∧ ds.length ≤ fuel ∧
      (∀ c ∈ ds, isDigit c = true) ∧ digitsValue ds 0 = n := by
  intro fuel
  induction fuel with
  | zero => intro n acc h; exact absurd h (by omega)
  | succ k ih =>
    intro n acc _ hn
    have hd := isDigit_ofNat (n % 10) (Nat.mod_lt _ (by omega))
    rw [formatDigits]
    by_cases h0 : n / 10 = 0
    · rw [if_pos h0]
      have hn10 : n % 10 = n := by omega
      refine ⟨[Char.ofNat (48 + n % 10)], rfl, by simp, by simp, ?_, ?_⟩
      · intro c hc
        rw [List.mem_singleton.mp hc]; exact hd.1
      · simp only [digitsValue]
        rw [hd.2]; omega
    · rw [if_neg h0]
      have hk : 0 < k := by
        rcases Nat.eq_zero_or_pos k with hk | hk
        · subst hk; omega
        · exact hk
      have hlt : n / 10 < 10 ^ k := by
        rw [Nat.div_lt_iff_lt_mul (by omega)]
        rw [pow_succ] at hn; exact hn
      obtain ⟨ds, h1, h2, h3, h4, h5⟩ := ih (n / 10) (Char.ofNat (48 + n % 10) :: acc) hk hlt
      refine ⟨ds ++ [Char.ofNat (48 + n % 10)], by rw [h1]; simp, by simp, by simp; omega, ?_, ?_⟩
      · intro c hc
        rcases List.mem_append.mp hc with hc | hc
        · exact h4 c hc
        · rw [List.mem_singleton.mp hc]; exact hd.1
      · rw [digitsValue_append, h5]
        simp only [digitsValue, hd.2]
        omega

theorem formatDigits_fuel : ∀ (fuel n : Nat) (acc : GoString), 0 < fuel → n < 10 ^ fuel →
    formatDigits (fuel + 1) n acc = formatDigits fuel n acc := by
  intro fuel
  induction fuel with
  | zero => intro n acc h; exact absurd h (by omega)
  | succ k ih =>
    intro n acc _ hn
    conv_lhs => rw [formatDigits]
    conv_rhs => rw [formatDigits]
    by_cases h0 : n / 10 = 0
    · rw [if_pos h0, if_pos h0]
    · rw [if_neg h0, if_neg h0]
      have hk : 0 < k := by
        rcases Nat.eq_zero_or_pos k with hk | hk
        · subst hk; omega
        · exact hk
      have hlt : n / 10 < 10 ^ k := by
        rw [Nat.div_lt_iff_lt_mul (by omega)]
        rw [pow_succ] at hn; exact hn
      exact ih _ _ hk hlt

theorem formatDigits_fuel_add (fuel n : Nat) (acc : GoString) (h0 : 0 < fuel)
    (hn : n < 10 ^ fuel) (k : Nat) : formatDigits (fuel + k) n acc = formatDigits fuel n acc := by
  induction k with
  | zero => rfl
  | succ j ih =>
    rw [← Nat.add_assoc, formatDigits_fuel (fuel + j) n acc (by omega)
      (lt_of_lt_of_le hn (Nat.pow_le_pow_right (by omega) (by omega))), ih]

/-- The decimal form of a number below `10 ^ 10`: at most ten digits that denote it. -/
theorem formatNat_spec (n : Nat) (hn : n < 10 ^ 10) :
    ∃ ds : GoString, formatNat n = ds ∧ ds ≠ [] ∧ ds.length ≤ 10 ∧
      (∀ c ∈ ds, isDigit c = true) ∧ digitsValue ds 0 = n := by
  have hself : n < 10 ^ (n + 1) :=
    lt_trans (Nat.lt_pow_self (by omega : 1 < 10) n) (Nat.pow_lt_pow_right (by omega) (by omega))
  have heq : formatNat n = formatDigits 10 n [] := by
    unfold formatNat
    by_cases h : n + 1 ≤ 10
    · obtain ⟨k, hk⟩ : ∃ k, 10 = (n + 1) + k := ⟨10 - (n + 1), by omega⟩
      rw [hk, formatDigits_fuel_add (n + 1) n [] (by omega) hself k]
    · obtain ⟨k, hk⟩ : ∃ k, n + 1 = 10 + k := ⟨n + 1 - 10, by omega⟩
      rw [hk, formatDigits_fuel_add 10 n [] (by omega) hn k]
  obtain ⟨ds, h1, h2, h3, h4, h5⟩ := formatDigits_spec 10 n [] (by omega) hn
  exact ⟨ds, by rw [heq, h1]; simp, h2, h3, h4, h5⟩

theorem parseUintLoop_digits (maxVal : Nat) (hmax : maxVal < 2 ^ 64) (ds : GoString) :
    ∀ n, (∀ c ∈ ds, isDigit c = true) → digitsValue ds n ≤ maxVal →
      parseUintLoop maxVal ds n = some (digitsValue ds n) := by
  induction ds with
  | nil => intro n _ _; rfl
  | cons c cs ih =>
    intro n hd hv
    have hc : isDigit c = true := hd c (by simp)
    have hge := digitsValue_ge cs (n * 10 + (c.toNat - 48))
    simp only [digitsValue] at hv
    have h1 : ¬ n ≥ (2 ^ 64 - 1) / 10 + 1 := by
      have : n * 10 + (c.toNat - 48) < 2 ^ 64 := by omega
      omega
    have h2 : (n * 10 + (c.toNat - 48)) % 2 ^ 64 = n * 10 + (c.toNat - 48) :=
      Nat.mod_eq_of_lt (by omega)
    have h3 : ¬ (n * 10 + (c.toNat - 48) < n * 10 ∨ n * 10 + (c.toNat - 48) > maxVal) := by
      omega
    simp only [parseUintLoop, hc, if_true, h1, if_false, h2, h3, digitsValue]
    exact ih _ (fun x hx => hd x (by simp [hx])) hv

theorem atoiFastLoop_digits (ds : GoString) :
    ∀ n : Nat, (∀ c ∈ ds, isDigit c = true) →
      atoiFastLoop ds (n : Int) = some ((digitsValue ds n : Nat) : Int) := by
  induction ds with
  | nil => intro n _; rfl
  | cons c cs ih =>
    intro n hd
    have hc : isDigit c = true := hd c (by simp)
    have h48 : 48 ≤ c.toNat := by
      simp only [isDigit, decide_eq_true_eq] at hc; exact hc.1
    have hcast : (n : Int) * 10 + ((c.toNat : Int) - 48) = ((n * 10 + (c.toNat - 48) : Nat) : Int) := by
      omega
    simp only [atoiFastLoop, hc, if_true, digitsValue, hcast]
    exact ih _ (fun x hx => hd x (by simp [hx]))

theorem isDigit_ascii (c : Char) (hc : isDigit c = true) : c.toNat < 0x80 := by
  simp only [isDigit, decide_eq_true_eq] at hc
  omega

/-- `Itoa` writes ASCII only. -/
theorem Itoa_ascii (g : Int) : ∀ c ∈ Itoa g, c.toNat < 0x80 := by
  have hfmt : ∀ n : Nat, ∀ c ∈ formatNat n, c.toNat < 0x80 := by
    intro n c hc
    have hself : n < 10 ^ (n + 1) :=
      lt_trans (Nat.lt_pow_self (by omega : 1 < 10) n)
        (Nat.pow_lt_pow_right (by omega) (by omega))
    obtain ⟨ds, h1, _, _, h4, _⟩ := formatDigits_spec (n + 1) n [] (by omega) hself
    rw [formatNat, h1, List.append_nil] at hc
    exact isDigit_ascii c (h4 c hc)
  intro c hc
  unfold Itoa at hc
  split at hc
  · rcases List.mem_cons.mp hc with h | h
    · rw [h]; decide
    · exact hfmt _ c h
  · exact hfmt _ c hc

/-- Reading what `Itoa` wrote for a GID: `ParseUint` and `Atoi` both give the number back. -/
theorem parse_Itoa (g : Int) (h0 : 0 ≤ g) (h1 : g < 2 ^ 32) :
    Itoa g ≠ [] ∧ ParseUint (Itoa g) 32 = some g.toNat ∧ Atoi (Itoa g) = some g := by
  have hI : Itoa g = formatNat g.toNat := by simp [Itoa, not_lt.mpr h0]
  have hn : g.toNat < 2 ^ 32 := by omega
  obtain ⟨ds, e, hne, hlen, hdig, hval⟩ := formatNat_spec g.toNat (by omega)
  rw [hI, e]
  refine ⟨hne, ?_, ?_⟩
  · rw [ParseUint, if_neg hne, parseUintLoop_digits _ (by norm_num) ds 0 hdig (by rw [hval]; omega),
      hval]
  · have hpos : 0 < ds.length := List.length_pos.mpr hne
    obtain ⟨c, cs, rfl⟩ := List.exists_cons_of_ne_nil hne
    have hc : isDigit c = true := hdig c (by simp)
    have hc1 : c ≠ '-' := by
      intro h; rw [h] at hc; revert hc; decide
    have hc2 : c ≠ '+' := by
      intro h; rw [h] at hc; revert hc; decide
    have hfast := atoiFastLoop_digits (c :: cs) 0 hdig
    rw [hval] at hfast
    simp only [Nat.cast_zero] at hfast
    have hg : ((g.toNat : Nat) : Int) = g := Int.toNat_of_nonneg h0
    rw [Atoi, if_pos (by simp only [List.length_cons] at hlen ⊢; omega)]
    simp only [hc1, hc2, or_self, if_false, hfast, hg]
    simp

/-- What `parseUintLoop` accepts: decimal digits that denote a number up to `maxVal`. -/
theorem parseUintLoop_some (maxVal : Nat) (ds : GoString) :
    ∀ n v, n ≤ maxVal → parseUintLoop maxVal ds n = some v →
      (∀ c ∈ ds, isDigit c = true) ∧ v = digitsValue ds n ∧ v ≤ maxVal := by
  induction ds with
  | nil =>
    intro n v hn h
    simp only [parseUintLoop, Option.some.injEq] at h
    subst h
    exact ⟨by simp, rfl, hn⟩
  | cons c cs ih =>
    intro n v hn h
    by_cases hc : isDigit c = true
    · simp only [parseUintLoop, hc, if_true] at h
      by_cases h1 : n ≥ (2 ^ 64 - 1) / 10 + 1
      · rw [if_pos h1] at h
        exact absurd h (by simp)
      · rw [if_neg h1] at h
        by_cases h2 : (n * 10 + (c.toNat - 48)) % 2 ^ 64 < n * 10 ∨
            (n * 10 + (c.toNat - 48)) % 2 ^ 64 > maxVal
        · simp only [h2, if_true, reduceCtorEq] at h
        · simp only [h2, if_false] at h
          have hd : c.toNat - 48 ≤ 9 := by
            simp only [isDigit, decide_eq_true_eq] at hc; omega
          have hmod : (n * 10 + (c.toNat - 48)) % 2 ^ 64 = n * 10 + (c.toNat - 48) := by
            omega
          rw [hmod] at h h2
          obtain ⟨g1, g2, g3⟩ := ih _ v (by omega) h
          refine ⟨?_, ?_, g3⟩
          · intro x hx
            rcases List.mem_cons.mp hx with rfl | hx
            · exact hc
            · exact g1 x hx
          · simpa only [digitsValue] using g2
    · simp [parseUintLoop, hc] at h

/-- A string `strconv.ParseUint(s, 10, 32)` accepts is read by `strconv.Atoi` as the same
number. -/
theorem Atoi_of_ParseUint (s : GoString) (v : Nat) (h : ParseUint s 32 = some v) :
    v < 2 ^ 32 ∧ Atoi s = some (v : Int) := by
  unfold ParseUint at h
  by_cases hs : s = []
  · simp [hs] at h
  · rw [if_neg hs] at h
    obtain ⟨hd, hv, hle⟩ := parseUintLoop_some _ s 0 v (Nat.zero_le _) h
    refine ⟨by omega, ?_⟩
    obtain ⟨c, cs, rfl⟩ := List.exists_cons_of_ne_nil hs
    have hc : isDigit c = true := hd c (by simp)
    have hc48 : 48 ≤ c.toNat := by
      simp only [isDigit, decide_eq_true_eq] at hc; exact hc.1
    have hm : c ≠ '-' := by
      intro hk
      have := congrArg Char.toNat hk
      have h45 : ('-' : Char).toNat = 45 := rfl
      omega
    have hp : c ≠ '+' := by
      intro hk
      have := congrArg Char.toNat hk
      have h43 : ('+' : Char).toNat = 43 := rfl
      omega
    have hfast := atoiFastLoop_digits (c :: cs) 0 hd
    by_cases hlen : 0 < (c :: cs).length ∧ (c :: cs).length < 19
    · rw [Atoi, if_pos hlen]
      simp only [hm, hp, or_self, if_false, List.length_cons,
        show ¬ (cs.length + 1 < 1) by omega]
      simp only [Nat.cast_zero] at hfast
      rw [hfast, hv]
    · have hu : ParseUint (c :: cs) 64 = some v := by
        rw [ParseUint, if_neg hs, hv]
        exact parseUintLoop_digits _ (by omega) (c :: cs) 0 hd (by omega)
      rw [Atoi, if_neg hlen]
      simp only [ParseInt, hm, hp, or_self, if_false, decide_False, hu, Bool.false_eq_true,
        false_and, true_and]
      rw [if_neg (by omega)]

/-! ## Idempotence of `Provision` in reuse mode (claim C2) -/

theorem isElem_metadataFile : IsElem metadataFile := by
  unfold IsElem; decide

theorem Clean_idem (x : GoString) : Clean (Clean x) = Clean x := by
  rw [Clean_eq_cleanSpec (Clean x), Clean_eq_cleanSpec x, cleanSpec, isRooted_cleanSpec,
    cleanSem_cleanSpec, ← cleanSpec]

theorem Join_pair_clean (a b : GoString) (h : a ≠ [] ∨ b ≠ []) :
    Clean (Join [a, b]) = Join [a, b] := by
  by_cases ha : a = []
  · subst ha
    have hb : b ≠ [] := by tauto
    rw [Join_pair_nil _ hb, Clean_idem]
  · rw [Join_pair _ _ ha, Clean_idem]

theorem Clean_ne_nil (x : GoString) : Clean x ≠ [] := by
  rw [Clean_eq_cleanSpec]; exact cleanSpec_ne_nil x

/-- The path of the record differs from the path of its directory. -/
theorem getMetaDataPath_ne (x : GoString) :
    Clean (getMetaDataPath (Clean x)) ≠ Clean (Clean x) := by
  have hne := Clean_ne_nil x
  rw [getMetaDataPath, Join_pair _ _ hne, Clean_idem, Clean_idem]
  rcases Clean_join_cases x with ⟨h1, h2⟩ | ⟨h1, h2⟩ | h2
  · rw [h2 _ isElem_metadataFile, h1]; decide
  · rw [h2 _ isElem_metadataFile, h1]; decide
  · rw [h2 _ isElem_metadataFile]
    intro h
    have := congrArg List.length h
    simp at this

theorem getLocalPath_clean (p : efsProvisioner) (o : ProvisionOptions) (path : GoString)
    (h : getLocalPath p o = .ok path) : ∃ x, path = Clean x := by
  cases hd : getDirectoryName o with
  | error e => simp [getLocalPath, hd] at h
  | ok d =>
    have hdne : d ≠ [] := List.ne_nil_of_mem (dash_mem_dirname o d hd)
    simp only [getLocalPath, hd, Except.ok.injEq] at h
    exact ⟨path, by rw [← h, Join_pair_clean _ _ (Or.inr hdne)]⟩

/-- What a successful `createVolume` leaves: a directory at the path, with the group given,
and all other paths untouched. -/
theorem createVolume_ok (fs fs1 : FileSystem) (path : GoString) (gid : Option Int)
    (h : createVolume fs path gid = (none, fs1)) :
    (∃ G mode, fs1.get path = some (.dir G mode) ∧
      (gid = none ∨ ∃ g, gid = some g ∧ 0 ≤ g ∧ g < 2 ^ 32 ∧ G = g.toNat)) ∧
    ∀ q, Clean q ≠ Clean path → fs1.get q = fs.get q := by
  unfold createVolume at h
  simp only [] at h
  cases hm : fs.MkdirAll path (if gid.isSome = true then 0o2771 else 0o777) with
  | none => simp [hm] at h
  | some fsA =>
    have hA : (∃ G mode, fsA.get path = some (.dir G mode)) ∧
        ∀ q, Clean q ≠ Clean path → fsA.get q = fs.get q := by
      unfold FileSystem.MkdirAll at hm
      split at hm
      · simp only [Option.some.injEq] at hm
        subst hm
        exact ⟨⟨_, _, FileSystem.get_set_same _ _ _⟩,
          fun q hq => FileSystem.get_set_other _ _ _ _ hq⟩
      · rename_i G mode hget
        simp only [Option.some.injEq] at hm
        subst hm
        exact ⟨⟨G, mode, hget⟩, fun _ _ => rfl⟩
      · simp at hm
      · simp at hm
    obtain ⟨⟨G0, mode0, hgetA⟩, hothA⟩ := hA
    simp only [hm] at h
    have hch : fsA.Chmod path (if gid.isSome = true then 0o2771 else 0o777)
        = some (fsA.set path (.dir G0 (if gid.isSome = true then 0o2771 else 0o777))) := by
      simp [FileSystem.Chmod, hgetA]
    simp only [hch] at h
    cases gid with
    | none =>
      simp only [Prod.mk.injEq, true_and] at h
      subst h
      exact ⟨⟨_, _, FileSystem.get_set_same _ _ _, Or.inl rfl⟩, fun q hq => by
        rw [FileSystem.get_set_other _ _ _ _ hq, hothA q hq]⟩
    | some g =>
      simp only [Option.isSome_some, if_true] at h
      by_cases hr : 0 ≤ g ∧ g < 2 ^ 32 - 1
      · have hcg : (fsA.set path (.dir G0 0o2771)).Chgrp g path
            = some ((fsA.set path (.dir G0 0o2771)).set path (.dir g.toNat 0o2771)) := by
          simp only [FileSystem.Chgrp, hr, and_self, if_true, FileSystem.get_set_same]
        simp only [hcg, Prod.mk.injEq, true_and] at h
        subst h
        refine ⟨⟨_, _, FileSystem.get_set_same _ _ _, Or.inr ⟨g, rfl, hr.1, by omega, rfl⟩⟩,
          fun q hq => ?_⟩
        rw [FileSystem.get_set_other _ _ _ _ hq, FileSystem.get_set_other _ _ _ _ hq, hothA q hq]
      · have hcg : (fsA.set path (.dir G0 0o2771)).Chgrp g path = none := by
          simp only [FileSystem.Chgrp, hr, if_false]
        simp [hcg] at h

/-- `Provision` in reuse mode on an existing directory whose record passes the validation. -/
theorem Provision_reuse_existing (p : efsProvisioner) (o : ProvisionOptions) (w : World)
    (path : GoString) (G : Nat) (m : VolumeMetadata) (gid : Option Int)
    (hsel : o.PVC.HasSelector = false) (hlp : getLocalPath p o = .ok path)
    (hreuse : reuseVolumesOption o = .ok true)
    (hve : VolumeExists w.fs path = .ok (true, G))
    (hrd : ReadVolumeMetadata w.fs path = .ok (some m))
    (hval : ValidatePreexistingVolume o (some m) path G = none)
    (hgid : (m.GID = [] ∧ gid = none) ∨
      (m.GID ≠ [] ∧ Atoi m.GID = some (G : Int) ∧ gid = some (G : Int))) :
    Provision p o w = (provisionVolume p o gid, w) := by
  rcases hgid with ⟨h1, h2⟩ | ⟨h1, h2, h3⟩
  · subst h2
    simp only [Provision, hsel, Bool.false_eq_true, if_false, hlp, hreuse, if_true, hve, hrd,
      hval, h1, ne_eq, not_true_eq_false]
  · subst h3
    simp only [Provision, hsel, Bool.false_eq_true, if_false, hlp, hreuse, if_true, hve, hrd,
      hval, h1, ne_eq, not_false_eq_true, h2]

theorem getDirectoryName_reuse_pvName (o : ProvisionOptions) (n : GoString)
    (hreuse : reuseVolumesOption o = .ok true) :
    getDirectoryName { o with PVName := n } = getDirectoryName o := by
  have h2 : reuseVolumesOption { o with PVName := n } = .ok true := hreuse
  simp only [getDirectoryName, hreuse, h2, if_true]

theorem provisionVolume_pvName (p : efsProvisioner) (o : ProvisionOptions) (n : GoString)
    (gid : Option Int) (pv : PersistentVolume) (hreuse : reuseVolumesOption o = .ok true)
    (h : provisionVolume p o gid = .returned (some pv) .ProvisioningFinished none) :
    provisionVolume p { o with PVName := n } gid
      = .returned (some { pv with Name := n }) .ProvisioningFinished none := by
  have hd := getDirectoryName_reuse_pvName o n hreuse
  unfold provisionVolume at h ⊢
  simp only [getRemotePath, hd] at h ⊢
  cases hdn : getDirectoryName o with
  | error e => simp [hdn] at h
  | ok d =>
    simp only [hdn] at h ⊢
    cases hrp : o.StorageClass.ReclaimPolicy with
    | none => simp [hrp] at h
    | some policy =>
      simp only [hrp, ProvisionResult.returned.injEq, Option.some.injEq, and_true] at h ⊢
      rw [← h]
/-- The file system after the record of a fresh directory has been written. -/
theorem fresh_directory_state (fs fs1 : FileSystem) (x : GoString) (gid : Option Int)
    (md : VolumeMetadata)
    (hrec : fs.get (getMetaDataPath (Clean x)) = none ∨
      ∃ data, fs.get (getMetaDataPath (Clean x)) = some (.file data))
    (hcv : createVolume fs (Clean x) gid = (none, fs1)) :
    ∃ G, VolumeExists (WriteVolumeMetadata fs1 (Clean x) md).2 (Clean x) = .ok (true, G) ∧
      ReadVolumeMetadata (WriteVolumeMetadata fs1 (Clean x) md).2 (Clean x)
        = .ok (some md.coerced) ∧
      (gid = none ∨ ∃ g, gid = some g ∧ 0 ≤ g ∧ g < 2 ^ 32 ∧ G = g.toNat) := by
  obtain ⟨⟨G, mode, hdir, hG⟩, hoth⟩ := createVolume_ok fs fs1 (Clean x) gid hcv
  have hne := getMetaDataPath_ne x
  have hget1 : fs1.get (getMetaDataPath (Clean x)) = fs.get (getMetaDataPath (Clean x)) :=
    hoth _ hne
  have hwf : fs1.WriteFile (getMetaDataPath (Clean x)) (MarshalIndent md)
      = some (fs1.set (getMetaDataPath (Clean x)) (.file (MarshalIndent md))) := by
    unfold FileSystem.WriteFile
    rw [hget1]
    rcases hrec with h | ⟨data, h⟩ <;> rw [h]
  have hw : WriteVolumeMetadata fs1 (Clean x) md
      = (none, fs1.set (getMetaDataPath (Clean x)) (.file (MarshalIndent md))) := by
    simp only [WriteVolumeMetadata, hwf]
  refine ⟨G, ?_, ?_, hG⟩
  · rw [hw]
    simp only [VolumeExists, FileSystem.Stat,
      FileSystem.get_set_other _ _ _ _ (Ne.symm hne), hdir]
    simp
  · rw [hw]
    exact read_after_write fs1 _ (Clean x) md hw

theorem gidString_valid (gid : Option Int) : ValidUTF8 (gidString gid) := by
  cases gid with
  | none => exact ⟨[], rfl⟩
  | some g => exact validUTF8_ascii _ (Itoa_ascii g)

/-! ## The error sites of `Provision` -/

theorem reuseVolumesOption_error (o : ProvisionOptions) (e : Err)
    (h : reuseVolumesOption o = .error e) : e.afterAtoi = false := by
  unfold reuseVolumesOption at h
  split at h
  · split at h
    · cases h; rfl
    · cases h
  · cases h

theorem getDirectoryName_error (o : ProvisionOptions) (e : Err)
    (h : getDirectoryName o = .error e) : e.afterAtoi = false := by
  unfold getDirectoryName at h
  split at h
  · rename_i e1 he
    cases h
    exact reuseVolumesOption_error o _ he
  · split at h <;> cases h

theorem getLocalPath_error (p : efsProvisioner) (o : ProvisionOptions) (e : Err)
    (h : getLocalPath p o = .error e) : e.afterAtoi = false := by
  unfold getLocalPath at h
  split at h
  · rename_i e1 he
    cases h
    exact getDirectoryName_error o _ he
  · cases h

theorem provisionVolume_error (p : efsProvisioner) (o : ProvisionOptions) (gid : Option Int)
    (pv : Option PersistentVolume) (state : ProvisioningState) (e : Err)
    (h : provisionVolume p o gid = .returned pv state (some e)) : e.afterAtoi = false := by
  unfold provisionVolume at h
  simp only at h
  split at h
  · rename_i e1 he
    simp only [ProvisionResult.returned.injEq, Option.some.injEq] at h
    obtain ⟨_, _, rfl⟩ := h
    unfold getRemotePath at he
    split at he
    · rename_i e2 he2
      cases he
      exact getDirectoryName_error o _ he2
    · cases he
  · split at h
    · cases h
    · simp at h

theorem VolumeExists_error (fs : FileSystem) (path : GoString) (e : Err)
    (h : VolumeExists fs path = .error e) : e.afterAtoi = false := by
  unfold VolumeExists at h
  split at h
  · split at h
    · cases h; rfl
    · cases h
  · cases h
  · cases h; rfl

theorem ValidatePreexistingVolume_error (o : ProvisionOptions) (md : Option VolumeMetadata)
    (path : GoString) (G : Nat) (e : Err)
    (h : ValidatePreexistingVolume o md path G = some e) : e.afterAtoi = false := by
  unfold ValidatePreexistingVolume at h
  split at h
  · cases h; rfl
  · simp only at h
    split_ifs at h
    · cases h; rfl
    · cases h; rfl
    · split at h
      · cases h; rfl
      · split_ifs at h
        cases h; rfl

theorem gidAllocateOption_error (ps : List (GoString × GoString)) :
    ∀ (b : Bool) (e : Err), gidAllocateOption ps b = .error e → e.afterAtoi = false := by
  induction ps with
  | nil => intro b e h; cases h
  | cons kv rest ih =>
    intro b e h
    obtain ⟨k, v⟩ := kv
    unfold gidAllocateOption at h
    split_ifs at h
    · split at h
      · cases h; rfl
      · exact ih _ e h
    · exact ih _ e h

theorem createVolume_error (fs fs1 : FileSystem) (path : GoString) (gid : Option Int) (e : Err)
    (h : createVolume fs path gid = (some e, fs1)) : e.afterAtoi = false := by
  unfold createVolume at h
  simp only at h
  split at h
  · cases h; rfl
  · split at h
    · cases h; rfl
    · split at h
      · cases h
      · split at h
        · cases h; rfl
        · cases h

/-! ## Path derivation (claims C1, C4, C6, C9, C10) -/

/-- C1: for a request whose `reuseVolumes` parameter is absent (`b = false`) or parses as the
boolean `b`, `getLocalPath` returns `path.Join` of the base mount and the directory name: in
reuse mode `claimName-claimNamespace`, preceded by `volumePrefix-` exactly when the
`volumePrefix` parameter is non-empty; otherwise `claimName-generatedVolumeName`. In reuse
mode the result does not depend on the generated volume name. -/
theorem getLocalPath_joins_directory_name (p : efsProvisioner) (o : ProvisionOptions) (b : Bool)
    (hb : (mapGet o.StorageClass.Parameters reuseVolumesKey = none ∧ b = false) ∨
      ∃ s, mapGet o.StorageClass.Parameters reuseVolumesKey = some s ∧
        ParseBool s = some b) :
    getLocalPath p o = .ok (Join [p.mountpoint,
      if b then
        (if (mapGet o.StorageClass.Parameters volumePrefixKey).getD [] ≠ []
          then (mapGet o.StorageClass.Parameters volumePrefixKey).getD [] ++ ['-']
          else []) ++ o.PVC.Name ++ ['-'] ++ o.PVC.Namespace
      else o.PVC.Name ++ ['-'] ++ o.PVName]) ∧
    (b = true → ∀ pvName : GoString,
      getLocalPath p { o with PVName := pvName } = getLocalPath p o) := by
  have hr : reuseVolumesOption o = .ok b := by
    rcases hb with ⟨h1, h2⟩ | ⟨s, h1, h2⟩
    · rw [reuseVolumesOption, h1, h2]
    · rw [reuseVolumesOption, h1]; simp only [h2]
  have hr2 : ∀ pvName : GoString,
      reuseVolumesOption { o with PVName := pvName } = .ok b := fun _ => hr
  constructor
  · cases b with
    | true =>
      simp only [getLocalPath, getDirectoryName, hr, if_true]
      by_cases hp : (mapGet o.StorageClass.Parameters volumePrefixKey).getD [] = []
      · simp [hp]
      · simp [hp]
    | false => simp [getLocalPath, getDirectoryName, hr]
  · intro hbt pvName
    subst hbt
    simp only [getLocalPath, getDirectoryName, hr, hr2 pvName, if_true]

theorem getLocalPath_joins_directory_name_witness :
    getLocalPath sampleProvisioner sampleReuseOptions = .ok "/efs/vol-alpha-default".toList ∧
    getLocalPath sampleProvisioner { sampleReuseOptions with PVName := "pvc-2".toList }
      = getLocalPath sampleProvisioner sampleReuseOptions := by
  have h := getLocalPath_joins_directory_name sampleProvisioner sampleReuseOptions true
    (Or.inr ⟨"true".toList, by decide, by decide⟩)
  exact ⟨by rw [h.1]; decide, h.2 rfl _⟩

set_option maxRecDepth 100000 in
/-- C4 (the code at the failing input): with share root `/export`, the recorded path
`/exportfoo/x` is not under the root, yet `getLocalPathToDelete` returns no error but the
directory `/efs/foo/x`, and `Delete` removes that directory. -/
theorem getLocalPathToDelete_accepts_string_prefix :
    sourcePath sampleProvisioner = "/export".toList ∧
    getLocalPathToDelete sampleProvisioner
      ⟨"fs.example.com".toList, "/exportfoo/x".toList⟩ = .ok "/efs/foo/x".toList ∧
    Delete sampleProvisioner (volumeAt "/exportfoo/x".toList) strayWorld
      = (none, { strayWorld with fs := { strayWorld.fs with nodes :=
          [("/efs".toList, .dir 0 0o755), ("/etc".toList, .dir 0 0o755),
           ("/etc/passwd".toList, .file "root:x:0:0".toList)] } }) := by
  decide

/-- C6 as stated fails: the volume names `pvc-1` and `pvc-1/` differ, the claim name is the
same and reuse is disabled, and both requests get the directory `/efs/data-pvc-1`. -/
theorem getLocalPath_not_distinct_with_slash :
    ∃ o1 o2 : ProvisionOptions,
      reuseVolumesOption o1 = .ok false ∧ reuseVolumesOption o2 = .ok false ∧
      o1.PVC.Name = o2.PVC.Name ∧ o1.PVName ≠ o2.PVName ∧
      getLocalPath sampleProvisioner o1 = getLocalPath sampleProvisioner o2 :=
  ⟨{ StorageClass := { Parameters := [], MountOptions := none, ReclaimPolicy := none },
     PVName := "pvc-1".toList,
     PVC := { Name := "data".toList, Namespace := "default".toList, BetaClassAnnotation := none,
              StorageClassName := none, HasSelector := false, AccessModes := [],
              StorageRequest := [] } },
   { StorageClass := { Parameters := [], MountOptions := none, ReclaimPolicy := none },
     PVName := "pvc-1/".toList,
     PVC := { Name := "data".toList, Namespace := "default".toList, BetaClassAnnotation := none,
              StorageClassName := none, HasSelector := false, AccessModes := [],
              StorageRequest := [] } },
   by decide, by decide, by decide, by decide, by decide⟩

/-- C6 (amended): for every base mount and every two requests with reuse disabled that have
the same claim name and different generated volume names, neither of which contains a `/`,
`getLocalPath` returns two distinct directory paths. -/
theorem getLocalPath_distinct_without_reuse (p : efsProvisioner) (o1 o2 : ProvisionOptions)
    (h1 : reuseVolumesOption o1 = .ok false) (h2 : reuseVolumesOption o2 = .ok false)
    (hname : o1.PVC.Name = o2.PVC.Name) (hpv : o1.PVName ≠ o2.PVName)
    (hs1 : '/' ∉ o1.PVName) (hs2 : '/' ∉ o2.PVName) :
    ∃ d1 d2 : GoString, getLocalPath p o1 = .ok d1 ∧ getLocalPath p o2 = .ok d2 ∧ d1 ≠ d2 := by
  have key : ∃ Y : GoString, ∀ v : GoString, '/' ∉ v →
      Join [p.mountpoint, o1.PVC.Name ++ ['-'] ++ v] = Y ++ '-' :: v := by
    by_cases hm : p.mountpoint = []
    · obtain ⟨Y, hY⟩ := Clean_dash o1.PVC.Name
      refine ⟨Y, fun v hv => ?_⟩
      rw [hm, Join_pair_nil _ (by simp)]
      simpa using hY v hv
    · obtain ⟨Y, hY⟩ := Clean_dash (p.mountpoint ++ '/' :: o1.PVC.Name)
      refine ⟨Y, fun v hv => ?_⟩
      rw [Join_pair _ _ hm]
      simpa using hY v hv
  obtain ⟨Y, hY⟩ := key
  have e1 : getLocalPath p o1 = .ok (Join [p.mountpoint, o1.PVC.Name ++ ['-'] ++ o1.PVName]) := by
    simp only [getLocalPath, getDirectoryName, h1, Bool.false_eq_true, if_false]
  have e2 : getLocalPath p o2 = .ok (Join [p.mountpoint, o1.PVC.Name ++ ['-'] ++ o2.PVName]) := by
    simp only [getLocalPath, getDirectoryName, h2, Bool.false_eq_true, if_false, hname]
  refine ⟨_, _, e1, e2, ?_⟩
  rw [hY _ hs1, hY _ hs2]
  intro h
  have := List.append_cancel_left h
  simp only [List.cons.injEq, true_and] at this
  exact hpv this

theorem getLocalPath_distinct_without_reuse_witness :
    ∃ d1 d2 : GoString,
      getLocalPath sampleProvisioner
        { sampleReuseOptions with StorageClass := ⟨[], none, none⟩, PVName := "pvc-1".toList }
          = .ok d1 ∧
      getLocalPath sampleProvisioner
        { sampleReuseOptions with StorageClass := ⟨[], none, none⟩, PVName := "pvc-2".toList }
          = .ok d2 ∧ d1 ≠ d2 :=
  getLocalPath_distinct_without_reuse sampleProvisioner _ _ (by decide) (by decide) rfl
    (by decide) (by decide) (by decide)

set_option maxRecDepth 100000 in
/-- C9 (the code at the failing input): the recorded path `/export/../../etc` starts with the
share root `/export`, and `getLocalPathToDelete` returns `/etc`, which is neither the base
mount `/efs` nor a path beneath it; `Delete` removes `/etc` and what it holds. -/
theorem getLocalPathToDelete_escapes_base_mount :
    getLocalPathToDelete sampleProvisioner
      ⟨"fs.example.com".toList, "/export/../../etc".toList⟩ = .ok "/etc".toList ∧
    "/etc".toList ≠ sampleProvisioner.mountpoint ∧
    HasPrefix "/etc".toList (sampleProvisioner.mountpoint ++ "/".toList) = false ∧
    Delete sampleProvisioner (volumeAt "/export/../../etc".toList) strayWorld
      = (none, { strayWorld with fs := { strayWorld.fs with nodes :=
          [("/efs".toList, .dir 0 0o755), ("/efs/foo/x".toList, .dir 0 0o777)] } }) := by
  decide

/-- C10 as stated fails: with `volumePrefix` set to `../shared`, `getRemotePath` succeeds with
`/shared-alpha-default`, and `getLocalPathToDelete` on that path returns the not-a-child
error, while `getLocalPath` succeeds. -/
theorem delete_path_round_trip_fails :
    getRemotePath sampleProvisioner escapingPrefixOptions = .ok "/shared-alpha-default".toList ∧
    getLocalPathToDelete sampleProvisioner
      ⟨sampleProvisioner.dnsName, "/shared-alpha-default".toList⟩
        = .error (.notAChild "/shared-alpha-default".toList) ∧
    getLocalPath sampleProvisioner escapingPrefixOptions = .ok "/shared-alpha-default".toList := by
  decide

/-- C10 (amended): for every configuration whose base mount is not the empty string and whose
share root is not `.`, and every request whose directory name has no `..` path element (as is
the case when no name contains a `/`), if `getRemotePath` succeeds with `r` then
`getLocalPathToDelete` applied to the NFS source with the configured server and path `r`
succeeds and returns exactly the path `getLocalPath` returns for the request. -/
theorem delete_path_round_trip (p : efsProvisioner) (o : ProvisionOptions) (r : GoString)
    (hm : p.mountpoint ≠ []) (hsp : sourcePath p ≠ ['.'])
    (hdd : ∀ d, getDirectoryName o = .ok d → ['.', '.'] ∉ splitSlash d)
    (hr : getRemotePath p o = .ok r) :
    ∃ l : GoString, getLocalPath p o = .ok l ∧
      getLocalPathToDelete p ⟨p.dnsName, r⟩ = .ok l := by
  cases hd : getDirectoryName o with
  | error e => simp [getRemotePath, hd] at hr
  | ok d =>
    have hno := hdd d hd
    have hne := keptElems_ne_nil d (dash_mem_dirname o d hd)
    have hspne : sourcePath p ≠ [] := by
      rw [sourcePath, Clean_eq_cleanSpec]; exact cleanSpec_ne_nil _
    have hr2 : r = Clean (sourcePath p ++ '/' :: d) := by
      simp only [getRemotePath, hd, Except.ok.injEq] at hr
      rw [← hr, Join_pair _ _ hspne]
    have hl : getLocalPath p o = .ok (Clean (p.mountpoint ++ '/' :: d)) := by
      simp only [getLocalPath, hd, Join_pair _ _ hm]
    refine ⟨_, hl, ?_⟩
    have hcases := Clean_append_path (ReplaceFirst p.source (p.dnsName ++ [':']) []) d hno hne
    rw [← sourcePath] at hcases
    rcases hcases with ⟨h1, h2⟩ | ⟨h1, _⟩ | h2
    · rw [hr2, h2]
      have hp : HasPrefix ('/' :: joinSlash (keptElems d)) (sourcePath p) = true := by
        rw [h1]; exact HasPrefix_append ['/'] _
      have hrep : ReplaceFirst ('/' :: joinSlash (keptElems d)) (sourcePath p) []
          = joinSlash (keptElems d) := by
        rw [h1]; exact ReplaceFirst_append ['/'] _ (by simp)
      simp only [getLocalPathToDelete, ne_eq, not_true_eq_false, if_false, hp, hrep,
        Join_pair _ _ hm, Clean_append_kept _ d hm hno hne]
    · exact absurd h1 hsp
    · rw [hr2, h2]
      have hp : HasPrefix (sourcePath p ++ '/' :: joinSlash (keptElems d)) (sourcePath p)
          = true := HasPrefix_append _ _
      have hrep : ReplaceFirst (sourcePath p ++ '/' :: joinSlash (keptElems d)) (sourcePath p) []
          = '/' :: joinSlash (keptElems d) := ReplaceFirst_append _ _ hspne
      simp only [getLocalPathToDelete, ne_eq, not_true_eq_false, if_false, hp, hrep,
        Join_pair _ _ hm, Clean_double_slash _ _ hm, Clean_append_kept _ d hm hno hne]

theorem delete_path_round_trip_witness :
    ∃ l : GoString, getLocalPath sampleProvisioner sampleReuseOptions = .ok l ∧
      getLocalPathToDelete sampleProvisioner
        ⟨sampleProvisioner.dnsName, "/export/vol-alpha-default".toList⟩ = .ok l :=
  delete_path_round_trip sampleProvisioner sampleReuseOptions "/export/vol-alpha-default".toList
    (by decide) (by decide)
    (fun d hd => by
      have : d = "vol-alpha-default".toList := by
        have h2 : getDirectoryName sampleReuseOptions = .ok "vol-alpha-default".toList := by
          decide
        rw [h2] at hd
        exact (Except.ok.inj hd).symm
      subst this
      decide)
    (by decide)

/-! ## Validation of a preexisting directory (claims C3, C7) -/

/-- C3: `ValidatePreexistingVolume` returns an error exactly when the record is absent, or its
class differs from the claim's class, or its claim name or namespace differs from the
request's, or its GID is non-empty and does not parse (`GidAsUInt`) or differs from the GID of
the directory. Consequently `Provision` in reuse mode, on an existing directory whose record
is absent or names another class, returns an error, no volume and leaves the world as it
is. -/
theorem ValidatePreexistingVolume_error_iff (o : ProvisionOptions) (md : Option VolumeMetadata)
    (volumePath : GoString) (existingGID : Nat) :
    (ValidatePreexistingVolume o md volumePath existingGID ≠ none ↔
      (md = none ∨ ∃ m, md = some m ∧
        (m.StorageClassName ≠ GetPersistentVolumeClaimClass o.PVC ∨
          m.PVCName ≠ o.PVC.Name ∨ m.PVCNamespace ≠ o.PVC.Namespace ∨
          (m.GID ≠ [] ∧ (m.GidAsUInt = none ∨ ∃ v, m.GidAsUInt = some v ∧ existingGID ≠ v))))) ∧
    (∀ (p : efsProvisioner) (w : World),
      o.PVC.HasSelector = false → reuseVolumesOption o = .ok true →
      getLocalPath p o = .ok volumePath →
      VolumeExists w.fs volumePath = .ok (true, existingGID) →
      ReadVolumeMetadata w.fs volumePath = .ok md →
      (md = none ∨ ∃ m, md = some m ∧
        m.StorageClassName ≠ GetPersistentVolumeClaimClass o.PVC) →
      ∃ err, Provision p o w = (.returned none .ProvisioningNoChange (some err), w)) := by
  have hiff : ValidatePreexistingVolume o md volumePath existingGID ≠ none ↔
      (md = none ∨ ∃ m, md = some m ∧
        (m.StorageClassName ≠ GetPersistentVolumeClaimClass o.PVC ∨
          m.PVCName ≠ o.PVC.Name ∨ m.PVCNamespace ≠ o.PVC.Namespace ∨
          (m.GID ≠ [] ∧ (m.GidAsUInt = none ∨
            ∃ v, m.GidAsUInt = some v ∧ existingGID ≠ v)))) := by
    cases md with
    | none => simp [ValidatePreexistingVolume]
    | some m =>
      simp only [ValidatePreexistingVolume, reduceCtorEq, Option.some.injEq, exists_eq_left',
        false_or]
      by_cases h1 : m.StorageClassName = GetPersistentVolumeClaimClass o.PVC
      · by_cases h2 : m.PVCName = o.PVC.Name
        · by_cases h3 : m.PVCNamespace = o.PVC.Namespace
          · by_cases h4 : m.GID = []
            · simp [h1, h2, h3, h4]
            · cases h5 : m.GidAsUInt with
              | none => simp [h1, h2, h3, h4]
              | some v =>
                by_cases h6 : existingGID = v
                · simp [h1, h2, h3, h4, h6]
                · simp [h1, h2, h3, h4, h6]
          · simp [h1, h2, h3]
        · simp [h1, h2]
      · simp [h1]
  refine ⟨hiff, ?_⟩
  intro p w hsel hreuse hpath hexists hread hmd
  have hval : ValidatePreexistingVolume o md volumePath existingGID ≠ none := by
    rw [hiff]
    rcases hmd with h | ⟨m, hm, hc⟩
    · exact Or.inl h
    · exact Or.inr ⟨m, hm, Or.inl hc⟩
  obtain ⟨err, herr⟩ := Option.ne_none_iff_exists'.mp hval
  refine ⟨err, ?_⟩
  simp only [Provision, hsel, Bool.false_eq_true, if_false, hpath, hreuse, if_true, hexists,
    hread, herr]

theorem ValidatePreexistingVolume_error_iff_witness :
    ValidatePreexistingVolume alphaOptions none "/efs/alpha-default".toList 2000 ≠ none ∧
    ∃ err, Provision sampleProvisioner alphaOptions unmanagedWorld
      = (.returned none .ProvisioningNoChange (some err), unmanagedWorld) :=
  ⟨(ValidatePreexistingVolume_error_iff alphaOptions none "/efs/alpha-default".toList 2000).1.mpr
      (Or.inl rfl),
    (ValidatePreexistingVolume_error_iff alphaOptions none "/efs/alpha-default".toList 2000).2
      sampleProvisioner unmanagedWorld (by decide) (by decide) (by decide) (by decide)
      (by decide) (Or.inl rfl)⟩

set_option maxRecDepth 100000 in
/-- C7 (the code at the failing input): in reuse mode with no directory yet, when writing the
record fails (`WriteVolumeMetadata` returns a write error in the file system left by
`createVolume`), `Provision` still returns the volume with `ProvisioningFinished` and no
error. -/
theorem Provision_ignores_metadata_write_failure :
    (WriteVolumeMetadata (createVolume faultyWorld.fs "/efs/alpha-default".toList (some 2000)).2
        "/efs/alpha-default".toList alphaMetadata).1
      = some (.writeFailed "/efs/alpha-default/.kube-efs-provisioner-metadata".toList) ∧
    (Provision sampleProvisioner alphaOptions faultyWorld).1
      = .returned (some alphaVolume) .ProvisioningFinished none := by
  decide

/-! ## Metadata round trip (claim C5) -/

set_option maxRecDepth 100000 in
/-- C5 as stated fails: a record whose `gid` is the single byte FF, which is not valid UTF-8,
is written without error, and what is read back has the `gid` EF BF BD (U+FFFD) instead:
`encoding/json` replaces an invalid byte by the replacement rune. -/
theorem metadata_round_trip_invalid_utf8 :
    (WriteVolumeMetadata unmanagedWorld.fs "/efs/alpha-default".toList
        { alphaMetadata with GID := [Char.ofNat 0xFF] }).1 = none ∧
    ReadVolumeMetadata
        (WriteVolumeMetadata unmanagedWorld.fs "/efs/alpha-default".toList
          { alphaMetadata with GID := [Char.ofNat 0xFF] }).2 "/efs/alpha-default".toList
      = .ok (some { alphaMetadata with
          GID := [Char.ofNat 0xEF, Char.ofNat 0xBF, Char.ofNat 0xBD] }) := by
  decide

/-- C5 (amended): for every directory and every record, if `WriteVolumeMetadata(dir, md)`
succeeds then `ReadVolumeMetadata(dir)` on the resulting file system returns a non-nil record
with no error; when the four fields of `md` are valid UTF-8 the four fields of that record
are each equal to those of `md`, and in general a field is read back equal exactly when it
is valid UTF-8. -/
theorem metadata_round_trip (fs fs1 : FileSystem) (dir : GoString) (md : VolumeMetadata)
    (h : WriteVolumeMetadata fs dir md = (none, fs1)) :
    ∃ md1, ReadVolumeMetadata fs1 dir = .ok (some md1) ∧
      (ValidUTF8 md.GID ∧ ValidUTF8 md.PVCName ∧ ValidUTF8 md.PVCNamespace ∧
          ValidUTF8 md.StorageClassName →
        md1.GID = md.GID ∧ md1.PVCName = md.PVCName ∧ md1.PVCNamespace = md.PVCNamespace ∧
          md1.StorageClassName = md.StorageClassName) ∧
      (md1.GID = md.GID ↔ ValidUTF8 md.GID) ∧
      (md1.PVCName = md.PVCName ↔ ValidUTF8 md.PVCName) ∧
      (md1.PVCNamespace = md.PVCNamespace ↔ ValidUTF8 md.PVCNamespace) ∧
      (md1.StorageClassName = md.StorageClassName ↔ ValidUTF8 md.StorageClassName) :=
  ⟨md.coerced, read_after_write fs fs1 dir md h,
    fun hv => ⟨coerceUTF8_of_valid _ hv.1, coerceUTF8_of_valid _ hv.2.1,
      coerceUTF8_of_valid _ hv.2.2.1, coerceUTF8_of_valid _ hv.2.2.2⟩,
    coerceUTF8_eq_iff _, coerceUTF8_eq_iff _, coerceUTF8_eq_iff _, coerceUTF8_eq_iff _⟩

set_option maxRecDepth 100000 in
/-- C5, at the record of `alpha-default` written into a directory without a record: it is
read back field for field. -/
theorem metadata_round_trip_witness :
    ReadVolumeMetadata (unmanagedWorld.fs.set
        "/efs/alpha-default/.kube-efs-provisioner-metadata".toList
        (.file (MarshalIndent alphaMetadata))) "/efs/alpha-default".toList
      = .ok (some alphaMetadata) := by
  obtain ⟨md1, hread, hvalid, _⟩ :=
    metadata_round_trip unmanagedWorld.fs (unmanagedWorld.fs.set
        "/efs/alpha-default/.kube-efs-provisioner-metadata".toList
        (.file (MarshalIndent alphaMetadata))) "/efs/alpha-default".toList alphaMetadata
      (by decide)
  obtain ⟨h0, h1, h2, h3⟩ := hvalid ⟨validUTF8_ascii _ (by decide),
    validUTF8_ascii _ (by decide), validUTF8_ascii _ (by decide),
    validUTF8_ascii _ (by decide)⟩
  rw [hread]
  cases md1
  simp only [] at h0 h1 h2 h3
  subst h0 h1 h2 h3
  rfl
/-! ## Reclaim (claim C8) -/

theorem Allocate_used (a : MinMaxAllocator) (i g : Int) :
    (a.Allocate i).2.min = a.min ∧ (a.Allocate i).2.max = a.max ∧
    (g ∈ (a.Allocate i).2.used ↔ g ∈ a.used ∨ (g = i ∧ a.min ≤ i ∧ i ≤ a.max)) := by
  unfold MinMaxAllocator.Allocate
  split
  · rename_i h
    refine ⟨rfl, rfl, ?_⟩
    constructor
    · exact Or.inl
    · rintro (h1 | ⟨_, h2⟩)
      · exact h1
      · exact absurd h2 h
  · rename_i h
    split
    · rename_i hu
      refine ⟨rfl, rfl, ?_⟩
      constructor
      · exact Or.inl
      · rintro (h1 | ⟨h2, _⟩)
        · exact h1
        · rw [h2]; exact hu
    · refine ⟨rfl, rfl, ?_⟩
      have h2 : a.min ≤ i ∧ i ≤ a.max := not_not.mp h
      simp only [List.mem_cons]
      constructor
      · rintro (h1 | h1)
        · exact Or.inr ⟨h1, h2⟩
        · exact Or.inl h1
      · rintro (h1 | ⟨h1, _⟩)
        · exact Or.inr h1
        · exact Or.inl h1

theorem reclaimEntry_used (f : FileSystemReclaimer) (fs : FileSystem) (classname : GoString)
    (t : MinMaxAllocator) (e : DirEntry) (g : Int) :
    (reclaimEntry f fs classname t e).min = t.min ∧
    (reclaimEntry f fs classname t e).max = t.max ∧
    (g ∈ (reclaimEntry f fs classname t e).used ↔
      g ∈ t.used ∨ (contributes f fs classname e g ∧ t.min ≤ g ∧ g ≤ t.max)) := by
  unfold reclaimEntry contributes
  by_cases hd : e.IsDir = false
  · simp [hd]
  · have hd2 : e.IsDir = true := by simpa using hd
    simp only [hd2, Bool.true_eq_false, if_false, true_and]
    cases hr : ReadVolumeMetadata fs (Join [f.BasePath, e.Name]) with
    | error err => simp
    | ok omd =>
      cases omd with
      | none => simp
      | some md =>
        simp only [Except.ok.injEq, Option.some.injEq, exists_eq_left']
        by_cases hc : md.StorageClassName = classname
        · by_cases hg : md.GID = []
          · simp [hc, hg]
          · cases ha : Atoi md.GID with
            | none => simp [hc, hg]
            | some i =>
              have := Allocate_used t i g
              simp only [hc, hg, ne_eq, not_true_eq_false, if_false, not_false_eq_true,
                Option.some.injEq, true_and, this.1, this.2.1, this.2.2]
              constructor
              · rintro (h1 | ⟨h1, h2, h3⟩)
                · exact Or.inl h1
                · exact Or.inr ⟨h1.symm, h1 ▸ h2, h1 ▸ h3⟩
              · rintro (h1 | ⟨h1, h2, h3⟩)
                · exact Or.inl h1
                · exact Or.inr ⟨h1.symm, h1 ▸ h2, h1 ▸ h3⟩
        · simp [hc]

theorem reclaim_foldl_used (f : FileSystemReclaimer) (fs : FileSystem) (classname : GoString)
    (entries : List DirEntry) :
    ∀ (t : MinMaxAllocator) (g : Int),
      (entries.foldl (reclaimEntry f fs classname) t).min = t.min ∧
      (entries.foldl (reclaimEntry f fs classname) t).max = t.max ∧
      (g ∈ (entries.foldl (reclaimEntry f fs classname) t).used ↔
        g ∈ t.used ∨ ∃ e ∈ entries, contributes f fs classname e g ∧ t.min ≤ g ∧ g ≤ t.max) := by
  induction entries with
  | nil => intro t g; simp
  | cons e es ih =>
    intro t g
    have h1 := reclaimEntry_used f fs classname t e g
    have h2 := ih (reclaimEntry f fs classname t e) g
    rw [List.foldl_cons]
    refine ⟨h2.1.trans h1.1, h2.2.1.trans h1.2.1, ?_⟩
    rw [h2.2.2, h1.2.2, h1.1, h1.2.1]
    simp only [List.mem_cons, exists_eq_or_imp]
    tauto

/-- C8: when listing the base mount succeeds, `Reclaim` returns no error, whatever happens
for the single directories, and the GIDs in use in the table afterwards are those in use
before together with exactly the GIDs recorded (as read by `strconv.Atoi`) in the records of
the listed directories whose record exists, is of the class `classname`, has a non-empty GID,
and whose GID lies in the range of the table; the range is unchanged. `Reclaim` returns an
error exactly when listing the base mount fails. -/
theorem Reclaim_seeds_recorded_gids (f : FileSystemReclaimer) (fs : FileSystem)
    (classname : GoString) (gidtable : MinMaxAllocator) :
    (∀ entries, fs.ReadDir f.BasePath = some entries →
      (f.Reclaim fs classname gidtable).1 = none ∧
      (f.Reclaim fs classname gidtable).2.min = gidtable.min ∧
      (f.Reclaim fs classname gidtable).2.max = gidtable.max ∧
      ∀ g : Int, g ∈ (f.Reclaim fs classname gidtable).2.used ↔
        g ∈ gidtable.used ∨
        ∃ e ∈ entries, e.IsDir = true ∧
          (∃ md, ReadVolumeMetadata fs (Join [f.BasePath, e.Name]) = .ok (some md) ∧
            md.StorageClassName = classname ∧ md.GID ≠ [] ∧ Atoi md.GID = some g) ∧
          gidtable.min ≤ g ∧ g ≤ gidtable.max) ∧
    ((f.Reclaim fs classname gidtable).1 ≠ none ↔ fs.ReadDir f.BasePath = none) := by
  constructor
  · intro entries hl
    have h := reclaim_foldl_used f fs classname entries gidtable
    simp only [FileSystemReclaimer.Reclaim, hl, true_and]
    refine ⟨(h 0).1, (h 0).2.1, fun g => ?_⟩
    rw [(h g).2.2]
    simp only [contributes]
    constructor
    · rintro (h1 | ⟨e, he, ⟨h2, h3⟩, h4⟩)
      · exact Or.inl h1
      · exact Or.inr ⟨e, he, h2, h3, h4⟩
    · rintro (h1 | ⟨e, he, h2, h3, h4⟩)
      · exact Or.inl h1
      · exact Or.inr ⟨e, he, ⟨h2, h3⟩, h4⟩
  · cases hl : fs.ReadDir f.BasePath with
    | none => simp [FileSystemReclaimer.Reclaim, hl]
    | some entries => simp [FileSystemReclaimer.Reclaim, hl]

set_option maxRecDepth 1000000 in
theorem Reclaim_seeds_recorded_gids_witness :
    (FileSystemReclaimer.mk "/efs".toList).Reclaim fiveDirectories "efs-sc".toList ⟨1, 65535, []⟩
      = (none, ⟨1, 65535, [102, 101, 100]⟩) ∧
    ((FileSystemReclaimer.mk "/efs".toList).Reclaim fiveDirectories "efs-sc".toList
      ⟨1, 65535, []⟩).1 = none :=
  ⟨by decide,
   ((Reclaim_seeds_recorded_gids (FileSystemReclaimer.mk "/efs".toList) fiveDirectories
      "efs-sc".toList ⟨1, 65535, []⟩).1
      [⟨"a".toList, true⟩, ⟨"b".toList, true⟩, ⟨"c".toList, true⟩, ⟨"d".toList, true⟩,
        ⟨"e".toList, true⟩] (by decide)).1⟩

/-! ## Idempotence of `Provision` in reuse mode (claim C2) -/

set_option maxRecDepth 100000 in
/-- C2 as stated fails, in two ways. In reuse mode, on a world where the directory of the
claim exists without a record, the first call of `Provision` returns an error and no volume
and leaves the world as it is, and so does the second call. And for a claim whose name is the
byte FF, which is not valid UTF-8, on a base mount without directories, the first call
succeeds and the second call, on the world the first one left, returns an error and no
volume: the record holds the name as written by `encoding/json`, EF BF BD, which is not the
name of the claim. -/
theorem Provision_twice_can_fail :
    (reuseVolumesOption alphaOptions = .ok true ∧
      Provision sampleProvisioner alphaOptions unmanagedWorld
        = (.returned none .ProvisioningNoChange
            (some (.noVolumeMetadata "/efs/alpha-default".toList)), unmanagedWorld) ∧
      Provision sampleProvisioner alphaOptions
          (Provision sampleProvisioner alphaOptions unmanagedWorld).2
        = (.returned none .ProvisioningNoChange
            (some (.noVolumeMetadata "/efs/alpha-default".toList)), unmanagedWorld)) ∧
    (reuseVolumesOption rawNameOptions = .ok true ∧
      (Provision sampleProvisioner rawNameOptions emptyWorld).1
        = .returned (some rawNameVolume) .ProvisioningFinished none ∧
      (Provision sampleProvisioner rawNameOptions
          (Provision sampleProvisioner rawNameOptions emptyWorld).2).1
        = .returned none .ProvisioningNoChange
            (some (.wrongClaim ("/efs/".toList ++ [Char.ofNat 0xFF] ++ "-default".toList)))) := by
  decide

/-- C2 (amended): in reuse mode, for a claim whose name, namespace and class name are valid
UTF-8 (as every name the API server accepts is), if a call of `Provision` succeeds (returns a
volume and `ProvisioningFinished`) and the path of the record held neither a directory nor an
I/O fault before the call, then a second call for the same claim and class (whatever the
generated volume name) on the resulting world succeeds as well, derives the same directory path, returns the same volume (same NFS path,
same GID annotation or none both times) under the new name, and leaves the world unchanged:
it allocates no GID, creates no directory and writes no record. -/
theorem Provision_reuse_idempotent (p : efsProvisioner) (o : ProvisionOptions) (w w1 : World)
    (pv : PersistentVolume) (pvName2 : GoString)
    (hreuse : reuseVolumesOption o = .ok true)
    (hname : ValidUTF8 o.PVC.Name) (hns : ValidUTF8 o.PVC.Namespace)
    (hclass : ValidUTF8 (GetPersistentVolumeClaimClass o.PVC))
    (hfirst : Provision p o w = (.returned (some pv) .ProvisioningFinished none, w1))
    (hrec : ∀ volumePath, getLocalPath p o = .ok volumePath →
      w.fs.get (getMetaDataPath volumePath) = none ∨
      ∃ data, w.fs.get (getMetaDataPath volumePath) = some (.file data)) :
    getLocalPath p { o with PVName := pvName2 } = getLocalPath p o ∧
    Provision p { o with PVName := pvName2 } w1
      = (.returned (some { pv with Name := pvName2 }) .ProvisioningFinished none, w1) := by
  have hdn := getDirectoryName_reuse_pvName o pvName2 hreuse
  have hlp2 : getLocalPath p { o with PVName := pvName2 } = getLocalPath p o := by
    simp only [getLocalPath, hdn]
  refine ⟨hlp2, ?_⟩
  have hsel : o.PVC.HasSelector = false := by
    cases h : o.PVC.HasSelector with
    | false => rfl
    | true => simp [Provision, h] at hfirst
  obtain ⟨path, hlp⟩ : ∃ path, getLocalPath p o = .ok path := by
    cases h : getLocalPath p o with
    | error e => simp [Provision, hsel, h] at hfirst
    | ok path => exact ⟨path, rfl⟩
  -- it is enough to find the directory with a valid record in `w1`
  suffices hkey : ∃ (G : Nat) (m : VolumeMetadata) (gid : Option Int),
      VolumeExists w1.fs path = .ok (true, G) ∧
      ReadVolumeMetadata w1.fs path = .ok (some m) ∧
      ValidatePreexistingVolume o (some m) path G = none ∧
      ((m.GID = [] ∧ gid = none) ∨
        (m.GID ≠ [] ∧ Atoi m.GID = some (G : Int) ∧ gid = some (G : Int))) ∧
      provisionVolume p o gid = .returned (some pv) .ProvisioningFinished none by
    obtain ⟨G, m, gid, h1, h2, h3, h4, h5⟩ := hkey
    rw [Provision_reuse_existing p { o with PVName := pvName2 } w1 path G m gid hsel
      (hlp2.trans hlp) hreuse h1 h2 h3 h4, provisionVolume_pvName p o pvName2 gid pv hreuse h5]
  simp only [Provision, hsel, Bool.false_eq_true, if_false, hlp, hreuse, if_true] at hfirst
  cases hve : VolumeExists w.fs path with
  | error e => simp [hve] at hfirst
  | ok r =>
    obtain ⟨b, G⟩ := r
    simp only [hve] at hfirst
    cases b with
    | true =>
      simp only [if_true] at hfirst
      cases hrd : ReadVolumeMetadata w.fs path with
      | error e => simp [hrd] at hfirst
      | ok omd =>
        simp only [hrd] at hfirst
        cases hval : ValidatePreexistingVolume o omd path G with
        | some e => simp [hval] at hfirst
        | none =>
          simp only [hval] at hfirst
          cases omd with
          | none => simp at hfirst
          | some m =>
            simp only [] at hfirst
            by_cases hg : m.GID = []
            · simp only [hg, ne_eq, not_true_eq_false, if_false, Prod.mk.injEq] at hfirst
              obtain ⟨hpv, hw⟩ := hfirst
              subst hw
              exact ⟨G, m, none, hve, hrd, hval, Or.inl ⟨hg, rfl⟩, hpv⟩
            · simp only [hg, ne_eq, not_false_eq_true, if_true] at hfirst
              cases hat : Atoi m.GID with
              | none => simp [hat] at hfirst
              | some i =>
                simp only [hat] at hfirst
                by_cases hi : (G : Int) = i
                · simp only [hi, if_true, Prod.mk.injEq] at hfirst
                  obtain ⟨hpv, hw⟩ := hfirst
                  subst hw
                  exact ⟨G, m, some (G : Int), hve, hrd, hval,
                    Or.inr ⟨hg, by rw [hat, hi], rfl⟩, by rw [hi]; exact hpv⟩
                · simp [hi] at hfirst
    | false =>
      simp only [Bool.false_eq_true, if_false] at hfirst
      cases hga : gidAllocateOption o.StorageClass.Parameters true with
      | error e => simp [hga] at hfirst
      | ok ga =>
        simp only [hga] at hfirst
        split at hfirst
        · simp at hfirst
        · rename_i gid alloc1 _
          cases hcv : createVolume w.fs path gid with
          | mk oerr fs1 =>
            cases oerr with
            | some e => simp [hcv] at hfirst
            | none =>
              simp only [hcv, Prod.mk.injEq] at hfirst
              obtain ⟨hpv, hw⟩ := hfirst
              subst hw
              obtain ⟨x, hx⟩ := getLocalPath_clean p o path hlp
              subst hx
              obtain ⟨G1, h1, h2, h3⟩ := fresh_directory_state w.fs fs1 x gid
                { GID := gidString gid,
                  PVCName := o.PVC.Name, PVCNamespace := o.PVC.Namespace,
                  StorageClassName := GetPersistentVolumeClaimClass o.PVC } (hrec _ hlp) hcv
              rw [coerced_of_valid _ ⟨gidString_valid gid, hname, hns, hclass⟩] at h2
              refine ⟨G1, _, gid, h1, h2, ?_, ?_, hpv⟩
              · rcases h3 with h3 | ⟨g, h3, h4, h5, h6⟩
                · subst h3
                  simp [ValidatePreexistingVolume, gidString]
                · subst h3
                  have hI := parse_Itoa g h4 h5
                  simp [ValidatePreexistingVolume, VolumeMetadata.GidAsUInt, gidString, hI.1,
                    hI.2.1, h6]
              · rcases h3 with h3 | ⟨g, h3, h4, h5, h6⟩
                · subst h3
                  exact Or.inl ⟨rfl, rfl⟩
                · subst h3
                  have hI := parse_Itoa g h4 h5
                  have hG : ((G1 : Nat) : Int) = g := by rw [h6]; exact Int.toNat_of_nonneg h4
                  exact Or.inr ⟨hI.1, by rw [hG]; exact hI.2.2, by rw [hG]⟩

set_option maxRecDepth 100000 in
theorem Provision_reuse_idempotent_witness :
    getLocalPath sampleProvisioner { alphaOptions with PVName := "pvc-2".toList }
      = getLocalPath sampleProvisioner alphaOptions ∧
    Provision sampleProvisioner { alphaOptions with PVName := "pvc-2".toList } alphaWorld
      = (.returned (some { alphaVolume with Name := "pvc-2".toList }) .ProvisioningFinished none,
          alphaWorld) := by
  have hfirst : Provision sampleProvisioner alphaOptions alphaWorld
      = (.returned (some alphaVolume) .ProvisioningFinished none, alphaWorld) := by decide
  have hpath : getLocalPath sampleProvisioner alphaOptions = .ok "/efs/alpha-default".toList := by
    decide
  have hfile : alphaWorld.fs.get (getMetaDataPath "/efs/alpha-default".toList)
      = some (.file (MarshalIndent alphaMetadata)) := by decide
  exact Provision_reuse_idempotent sampleProvisioner alphaOptions alphaWorld alphaWorld
    alphaVolume "pvc-2".toList (by decide) (validUTF8_ascii _ (by decide))
    (validUTF8_ascii _ (by decide)) (validUTF8_ascii _ (by decide)) hfirst
    (fun volumePath h => by
      rw [hpath] at h
      rw [← Except.ok.inj h]
      exact Or.inr ⟨_, hfile⟩)

/-! ## The GID of a reused directory (claim C11) -/

/-- C11: once `ValidatePreexistingVolume` has returned no error for a record with a non-empty
GID, the recorded GID parsed by `GidAsUInt` is the GID of the directory, it is below `2^32`,
and `strconv.Atoi` (64-bit `int`) reads the recorded GID as that same number; so `Provision`,
in its reuse branch, goes on to build the volume with the GID of the directory. And no call
of `Provision` returns the error for an invalid GID value or the error for a GID that differs
from the record. -/
theorem reuse_gid_parse_cannot_fail (p : efsProvisioner) (o : ProvisionOptions) (w : World) :
    (∀ (volumePath : GoString) (existingGid : Nat) (md : VolumeMetadata),
      ValidatePreexistingVolume o (some md) volumePath existingGid = none → md.GID ≠ [] →
        md.GidAsUInt = some existingGid ∧ existingGid < 2 ^ 32 ∧
        Atoi md.GID = some (existingGid : Int) ∧
        (o.PVC.HasSelector = false → getLocalPath p o = .ok volumePath →
          reuseVolumesOption o = .ok true →
          VolumeExists w.fs volumePath = .ok (true, existingGid) →
          ReadVolumeMetadata w.fs volumePath = .ok (some md) →
          Provision p o w = (provisionVolume p o (some (existingGid : Int)), w))) ∧
    (∀ (pv : Option PersistentVolume) (state : ProvisioningState) (err : Err),
      (Provision p o w).1 = .returned pv state (some err) →
        (∀ gid, err ≠ .invalidGidValue gid) ∧ (∀ path, err ≠ .gidDiffersFromMetadata path)) := by
  have hparse : ∀ (volumePath : GoString) (existingGid : Nat) (md : VolumeMetadata),
      ValidatePreexistingVolume o (some md) volumePath existingGid = none → md.GID ≠ [] →
        md.GidAsUInt = some existingGid ∧ existingGid < 2 ^ 32 ∧
        Atoi md.GID = some (existingGid : Int) := by
    intro volumePath existingGid md hval hgid
    have hu : md.GidAsUInt = some existingGid := by
      unfold ValidatePreexistingVolume at hval
      simp only at hval
      split_ifs at hval
      split at hval
      · cases hval
      · rename_i mdgid hmd
        split_ifs at hval with heq
        rw [hmd, not_not.mp heq]
    have ha := Atoi_of_ParseUint md.GID existingGid hu
    exact ⟨hu, ha.1, ha.2⟩
  refine ⟨?_, ?_⟩
  · intro volumePath existingGid md hval hgid
    obtain ⟨h1, h2, h3⟩ := hparse volumePath existingGid md hval hgid
    refine ⟨h1, h2, h3, ?_⟩
    intro hsel hlp hreuse hve hrd
    exact Provision_reuse_existing p o w volumePath existingGid md _ hsel hlp hreuse hve hrd
      hval (Or.inr ⟨hgid, h3, rfl⟩)
  · intro pv state err h
    suffices hk : err.afterAtoi = false by
      constructor
      · intro gid he; rw [he] at hk; cases hk
      · intro path he; rw [he] at hk; cases hk
    unfold Provision at h
    split_ifs at h with hsel
    · cases h; rfl
    · split at h
      · rename_i e he
        cases h
        exact getLocalPath_error p o _ he
      · rename_i volumePath hlp
        split at h
        · rename_i e he
          cases h
          exact reuseVolumesOption_error o _ he
        · rename_i reuseVolumes hreuse
          split at h
          · rename_i e he
            cases h
            split_ifs at he
            exact VolumeExists_error _ _ _ he
          · rename_i volExists existingGid hve
            cases volExists with
            | true =>
              simp only [if_true] at h
              split at h
              · cases h; rfl
              · rename_i omd hrd
                split at h
                · rename_i e he
                  cases h
                  exact ValidatePreexistingVolume_error o _ _ _ _ he
                · rename_i hval
                  split at h
                  · cases h
                  · rename_i md
                    by_cases hgid : md.GID = []
                    · simp only [hgid, ne_eq, not_true_eq_false, if_false] at h
                      exact provisionVolume_error p o _ pv state err h
                    · obtain ⟨_, _, h3⟩ := hparse volumePath existingGid md hval hgid
                      simp only [hgid, ne_eq, not_false_eq_true, if_true, h3] at h
                      exact provisionVolume_error p o _ pv state err h
            | false =>
              simp only [Bool.false_eq_true, if_false] at h
              split at h
              · rename_i e he
                cases h
                exact gidAllocateOption_error _ _ _ he
              · split at h
                · cases h; rfl
                · split at h
                  · rename_i e fs1 hcv
                    cases h
                    exact createVolume_error _ _ _ _ _ hcv
                  · exact provisionVolume_error p o _ pv state err h

set_option maxRecDepth 100000 in
/-- C11, at the directory `alpha-default` of group 2000 with the recorded GID `2000`. -/
theorem reuse_gid_parse_cannot_fail_witness :
    alphaMetadata.GidAsUInt = some 2000 ∧ Atoi alphaMetadata.GID = some 2000 ∧
    Provision sampleProvisioner alphaOptions alphaWorld
      = (provisionVolume sampleProvisioner alphaOptions (some 2000), alphaWorld) := by
  obtain ⟨h1, _, h3, h4⟩ :=
    (reuse_gid_parse_cannot_fail sampleProvisioner alphaOptions alphaWorld).1
      "/efs/alpha-default".toList 2000 alphaMetadata (by decide) (by decide)
  exact ⟨h1, h3, h4 (by decide) (by decide) (by decide) (by decide) (by decide)⟩

end EfsProvisioner
